import Mathlib

/-!
A shallow embedding of `ujsondiff` (source: `src/ujsondiff/__init__.py`) together
with proofs about its diff / patch / similarity / marshal operations.

Modeling conventions:
* Python numbers are modeled as `Int`; the similarity scores (Python floats) are
  modeled as exact rationals `ℚ`.
* Python dicts are insertion-ordered association lists; Python sets are lists of
  their elements.  Dict keys and set elements must be hashable in Python, so they
  are drawn from the scalar type `Scalar` (maps, lists and sets are unhashable).
* Python tuples are not modeled separately from lists; the `(position, value)`
  pairs inside an emitted `insert` entry are modeled as two-element lists.
* Python `==` is the order-insensitive `beqV` below; fallible operations
  (KeyError / IndexError / TypeError / ValueError / AttributeError) return
  `Option`.
* The differ's recursion is not structural (the sequence aligner compares all
  element pairs), so `objDiff` takes a fuel argument; the fuel-exhaustion result
  is the full-replacement delta.  Object identity (`a is b`) is not representable
  in a value embedding; the identity fast path of `_obj_diff` returns the same
  result as the equal-values paths (theorem `objDiff_beq` below).
-/

namespace UJD

/-- Modelled from the spec: the module `ujsondiff/symbols.py` is not under `src/`.
Section 3 of the spec fixes the closed set of reserved markers
`add, delete, discard, insert, replace` plus the internal `missing` sentinel;
each symbol has a distinct label (its name) and `_all_symbols_` enumerates them. -/
inductive Sym where
  | add | delete | discard | insert | missing | replace
deriving DecidableEq

/-- Modelled from the spec: the label of a reserved marker symbol is its name. -/
def Sym.label : Sym → String
  | .add => "add"
  | .delete => "delete"
  | .discard => "discard"
  | .insert => "insert"
  | .missing => "missing"
  | .replace => "replace"

/-- Modelled from the spec: `_all_symbols_`. -/
def allSymbols : List Sym := [.add, .delete, .discard, .insert, .missing, .replace]

/-- Hashable Python values: scalars and reserved marker symbols.  These are the
values allowed as dict keys and set elements. -/
inductive Scalar where
  | null
  | bool (b : Bool)
  | num (n : Int)
  | str (s : String)
  | sym (s : Sym)
deriving DecidableEq

/-- The JSON value model: scalars, ordered sequences, sets and maps.  Deltas are
values too (dicts whose keys may be marker symbols). -/
inductive Val where
  | scalar (s : Scalar)
  | list (xs : List Val)
  | set (xs : List Scalar)
  | dict (kvs : List (Scalar × Val))

def vN (n : Int) : Val := .scalar (.num n)
def vS (s : String) : Val := .scalar (.str s)
def vSym (s : Sym) : Val := .scalar (.sym s)

/-- First-match lookup in an association list (Python `d.get(k)` / `k in d`). -/
def lookupS (k : Scalar) : List (Scalar × Val) → Option Val
  | [] => none
  | (k', v) :: rest => if k' = k then some v else lookupS k rest

/-- Python `d[k] = v`: overwrite in place when the key is present, append
otherwise (insertion order preserved). -/
def setKey : List (Scalar × Val) → Scalar → Val → List (Scalar × Val)
  | [], k, v => [(k, v)]
  | (k', v') :: rest, k, v =>
      if k' = k then (k, v) :: rest else (k', v') :: setKey rest k v

/-- Python `del d[k]`: `none` models the KeyError on an absent key. -/
def removeKey (k : Scalar) : List (Scalar × Val) → Option (List (Scalar × Val))
  | [] => none
  | (k', v') :: rest =>
      if k' = k then some rest
      else (removeKey k rest).map (fun r => (k', v') :: r)

/-- Python `d.update(other)`: assign every entry of `other` in order. -/
def dictUpdate (xs ys : List (Scalar × Val)) : List (Scalar × Val) :=
  ys.foldl (fun acc kv => setKey acc kv.1 kv.2) xs

mutual
/-- Python `==` on values: scalars by equality, sequences pointwise, sets by
cardinality plus membership, dicts by cardinality plus per-key lookup. -/
def beqV : Val → Val → Bool
  | .scalar x, .scalar y => x = y
  | .list xs, .list ys => beqL xs ys
  | .set xs, .set ys => xs.length = ys.length && xs.all (fun x => ys.contains x)
  | .dict xs, .dict ys => xs.length = ys.length && beqD xs ys
  | _, _ => false
def beqL : List Val → List Val → Bool
  | [], [] => true
  | x :: xs, y :: ys => beqV x y && beqL xs ys
  | _, _ => false
def beqD : List (Scalar × Val) → List (Scalar × Val) → Bool
  | [], _ => true
  | (k, v) :: rest, ys =>
      (match lookupS k ys with
       | some w => beqV v w
       | none => false) && beqD rest ys
end

def Scalar.isSym : Scalar → Bool
  | .sym _ => true
  | _ => false

def nodupSc : List Scalar → Bool
  | [] => true
  | x :: xs => !(xs.contains x) && nodupSc xs

def nodupKeysB : List (Scalar × Val) → Bool
  | [] => true
  | (k, _) :: rest => !(rest.any (fun kv => kv.1 = k)) && nodupKeysB rest

mutual
/-- Well-formed user values: no reserved marker symbols anywhere, no duplicate
set elements, no duplicate dict keys (Python sets and dicts cannot contain
duplicates, and symbols are not constructible from user data). -/
def wfV : Val → Bool
  | .scalar s => !s.isSym
  | .list xs => wfL xs
  | .set xs => nodupSc xs && xs.all (fun s => !s.isSym)
  | .dict kvs => nodupKeysB kvs && wfD kvs
def wfL : List Val → Bool
  | [] => true
  | x :: xs => wfV x && wfL xs
def wfD : List (Scalar × Val) → Bool
  | [] => true
  | (k, v) :: rest => !k.isSym && wfV v && wfD rest
end

def isDict : Val → Bool
  | .dict _ => true
  | _ => false

/-! ## CompactJsonDiffSyntax: the emit rules (src lines 45-85) -/

/-- `CompactJsonDiffSyntax.emit_value_diff`. -/
def emit_value_diff (a b : Val) (s : ℚ) : Val :=
  if s = 1 then .dict []
  else if isDict b then .dict [(.sym .replace, b)] else b

/-- `CompactJsonDiffSyntax.emit_set_diff` (the first argument is the base set). -/
def emit_set_diff (a : List Scalar) (b : Val) (s : ℚ)
    (added removed : List Scalar) : Val :=
  if s = 0 ∨ removed.length = a.length then
    if isDict b then .dict [(.sym .replace, b)] else b
  else
    let d : List (Scalar × Val) :=
      if removed.isEmpty then [] else [(.sym .discard, .set removed)]
    let d := if added.isEmpty then d else d ++ [(.sym .add, .set added)]
    .dict d

/-- `CompactJsonDiffSyntax.emit_list_diff`. -/
def emit_list_diff (a b : Val) (s : ℚ) (inserted : List (Nat × Val))
    (changed : List (Scalar × Val)) (deleted : List (Nat × Val)) : Val :=
  if s = 0 then
    if isDict b then .dict [(.sym .replace, b)] else b
  else if s = 1 then .dict []
  else
    let d := changed
    let d := if inserted.isEmpty then d
      else setKey d (.sym .insert)
        (.list (inserted.map (fun pv => Val.list [vN pv.1, pv.2])))
    let d := if deleted.isEmpty then d
      else setKey d (.sym .delete) (.list (deleted.map (fun pv => vN pv.1)))
    .dict d

/-- `CompactJsonDiffSyntax.emit_dict_diff`. -/
def emit_dict_diff (a b : Val) (s : ℚ) (added changed removed : List (Scalar × Val)) : Val :=
  if s = 0 then
    if isDict b then .dict [(.sym .replace, b)] else b
  else if s = 1 then .dict []
  else
    let changed := dictUpdate changed added
    let changed :=
      if removed.isEmpty then changed
      else setKey changed (.sym .delete) (.list (removed.map (fun kv => Val.scalar kv.1)))
    .dict changed

/-! ## JsonDiffer._dict_diff (src lines 240-266) -/

/-- `isinstance(w, Symbol)` on a value. -/
def isSymVal : Val → Bool
  | .scalar (.sym _) => true
  | _ => false

/-- `w == missing` (the `missing` sentinel compares equal only to itself). -/
def isMissing : Val → Bool
  | .scalar (.sym .missing) => true
  | _ => false

/-- State of the first loop of `_dict_diff`:
(removed, nremoved, nmatched, smatched, changed). -/
structure DictSt where
  removed : List (Scalar × Val)
  nremoved : Nat
  nmatched : Nat
  smatched : ℚ
  changed : List (Scalar × Val)

/-- The loop `for k, v in a.items(): ...` of `_dict_diff`.  `b.get(k, missing)`
yields the `missing` sentinel exactly on an absent key; a present value that is
a symbol other than `missing` is skipped (the `isinstance(w, Symbol)` branch). -/
def dictDiffLoop (rec : Val → Val → Val × ℚ) (b : List (Scalar × Val)) :
    List (Scalar × Val) → DictSt → DictSt
  | [], st => st
  | (k, v) :: rest, st =>
    match lookupS k b with
    | none =>
        dictDiffLoop rec b rest
          { st with removed := st.removed ++ [(k, v)], nremoved := st.nremoved + 1 }
    | some w =>
      if isSymVal w then
        if isMissing w then
          dictDiffLoop rec b rest
            { st with removed := st.removed ++ [(k, v)], nremoved := st.nremoved + 1 }
        else dictDiffLoop rec b rest st
      else
        let ds := rec v w
        dictDiffLoop rec b rest
          { st with
            nmatched := st.nmatched + 1
            smatched := st.smatched + (1/2 + ds.2 / 2)
            changed := if ds.2 < 1 then setKey st.changed k ds.1 else st.changed }

/-- `JsonDiffer._dict_diff`. -/
def dictDiff (rec : Val → Val → Val × ℚ) (a b : List (Scalar × Val)) : Val × ℚ :=
  let st := dictDiffLoop rec b a ⟨[], 0, 0, 0, []⟩
  let added := b.filter (fun kv => (lookupS kv.1 a).isNone)
  let nTot := st.nremoved + st.nmatched + added.length
  let s : ℚ := if nTot ≠ 0 then st.smatched / nTot else 1
  (emit_dict_diff (.dict a) (.dict b) s added st.changed st.removed, s)

/-! ## JsonDiffer._set_diff (src lines 214-238) -/

/-- One iteration of the greedy matching loop of `_set_diff`: commit the pair
when both elements are still unmatched. -/
def greedyStep (st : List Scalar × List Scalar × ℚ) (t : ℚ × Scalar × Scalar) :
    List Scalar × List Scalar × ℚ :=
  if st.1.contains t.2.1 && st.2.1.contains t.2.2 then
    (st.1.erase t.2.1, st.2.1.erase t.2.2, st.2.2 + t.1)
  else st

/-- The ranking of `_set_diff`: all (removed, added) pairs ordered by nested
similarity, descending; Python's `sorted(..., reverse=True, key=first)` is a
stable descending sort. -/
def setRanking (rec : Val → Val → Val × ℚ) (removed added : List Scalar) :
    List (ℚ × Scalar × Scalar) :=
  (removed.map (fun x => added.map
    (fun y => ((rec (.scalar x) (.scalar y)).2, x, y)))).flatten.mergeSort
    (fun p q => decide (q.1 ≤ p.1))

/-- The similarity computed by `_set_diff` in its non-trivial branch:
`s_common` starts at `n_common = len(a) - len(removed)`, the greedy loop adds
the similarity of each committed pair, and the result is divided by
`n_tot = len(a) + len(added)`. -/
def setSim (rec : Val → Val → Val × ℚ) (a b : List Scalar) : ℚ :=
  let removed := a.filter (fun x => !(b.contains x))
  let added := b.filter (fun x => !(a.contains x))
  let st := (setRanking rec removed added).foldl greedyStep
    (removed, added, ((a.length : ℚ) - removed.length))
  let nTot := a.length + added.length
  if nTot ≠ 0 then st.2.2 / nTot else 1

/-- `JsonDiffer._set_diff`.  The source also keeps a matched-pair counter
`n_common` that is unused for the result, and `break`s once either unmatched
pool is empty; after that point the greedy fold commits nothing, so the folded
result is identical. -/
def setDiff (rec : Val → Val → Val × ℚ) (a b : List Scalar) : Val × ℚ :=
  let removed := a.filter (fun x => !(b.contains x))
  let added := b.filter (fun x => !(a.contains x))
  if removed.isEmpty && added.isEmpty then (.dict [], 1)
  else
    let s := setSim rec a b
    (emit_set_diff a (.set b) s added removed, s)

/-! ## JsonDiffer._list_diff and _list_diff_0 (src lines 163-212) -/

/-- Entry of the backtracked edit script: `(sign, value, pos, similarity)`. -/
structure Edit where
  sign : Int
  payload : Val
  pos : Nat
  simv : ℚ

/-- Lookup `C[i][j]` in the alignment table. -/
def Cget (C : List (List ℚ)) (i j : Nat) : ℚ := (C.getD i []).getD j 0

/-- One row of the table: given the previous row, compute
`C[i][j] = max(C[i][j-1], C[i-1][j], C[i-1][j-1] + s)` for `j = 1..n`.
`last` is `C[i][j-1]`, and the previous-row window starts at `C[i-1][j-1]`. -/
def lcsRowGo (rec : Val → Val → Val × ℚ) (x : Val) :
    List Val → List ℚ → ℚ → List ℚ
  | [], _, _ => []
  | y :: ys, p0 :: p1 :: rest, last =>
      let c := max last (max p1 (p0 + (rec x y).2))
      c :: lcsRowGo rec x ys (p1 :: rest) c
  | _ :: _, _, _ => []

/-- Rows `1..m` of the table, each built from its predecessor. -/
def lcsRows (rec : Val → Val → Val × ℚ) (Y : List Val) :
    List Val → List ℚ → List (List ℚ)
  | [], _ => []
  | x :: xs, prev =>
      let row := 0 :: lcsRowGo rec x Y prev 0
      row :: lcsRows rec Y xs row

/-- The `(m+1) × (n+1)` alignment table of `_list_diff` (row and column 0 are 0). -/
def lcsTable (rec : Val → Val → Val × ℚ) (X Y : List Val) : List (List ℚ) :=
  let r0 : List ℚ := List.replicate (Y.length + 1) 0
  r0 :: lcsRows rec Y X r0

/-- `JsonDiffer._list_diff_0`, the backtracking loop.  The source appends edits
to `r` and returns `reversed(r)`; prepending to the accumulator yields that
reversed (forward) order directly.  The fuel is called with `i + j`, which
strictly decreases on every iteration. -/
def listBack (rec : Val → Val → Val × ℚ) (C : List (List ℚ)) (X Y : List Val) :
    Nat → Nat → Nat → List Edit → List Edit
  | 0, _, _, r => r
  | fuel + 1, i, j, r =>
    let diag : Option Edit :=
      if 0 < i ∧ 0 < j then
        let p := rec (X.getD (i-1) (.scalar .null)) (Y.getD (j-1) (.scalar .null))
        if 0 < p.2 ∧ Cget C i j = Cget C (i-1) (j-1) + p.2 then
          some ⟨0, p.1, j-1, p.2⟩
        else none
      else none
    match diag with
    | some e => listBack rec C X Y fuel (i-1) (j-1) (e :: r)
    | none =>
      if 0 < j ∧ (i = 0 ∨ Cget C (i-1) j ≤ Cget C i (j-1)) then
        listBack rec C X Y fuel i (j-1)
          (⟨1, Y.getD (j-1) (.scalar .null), j-1, 0⟩ :: r)
      else if 0 < i ∧ (j = 0 ∨ Cget C i (j-1) < Cget C (i-1) j) then
        listBack rec C X Y fuel (i-1) j
          (⟨-1, X.getD (i-1) (.scalar .null), i-1, 0⟩ :: r)
      else r

/-- Aggregation state of `_list_diff`: (inserted, deleted, changed, tot_s).
Deletions are prepended (`deleted.insert(0, ...)` in the source), insertions
appended. -/
def listAgg (script : List Edit) :
    List (Nat × Val) × List (Nat × Val) × List (Scalar × Val) × ℚ :=
  script.foldl
    (fun (st : List (Nat × Val) × List (Nat × Val) × List (Scalar × Val) × ℚ) e =>
      if e.sign = 1 then (st.1 ++ [(e.pos, e.payload)], st.2.1, st.2.2.1, st.2.2.2 + e.simv)
      else if e.sign = -1 then (st.1, (e.pos, e.payload) :: st.2.1, st.2.2.1, st.2.2.2 + e.simv)
      else if e.simv < 1 then
        (st.1, st.2.1, setKey st.2.2.1 (.num (e.pos : Int)) e.payload, st.2.2.2 + e.simv)
      else (st.1, st.2.1, st.2.2.1, st.2.2.2 + e.simv))
    ([], [], [], 0)

/-- `JsonDiffer._list_diff`. -/
def listDiff (rec : Val → Val → Val × ℚ) (X Y : List Val) : Val × ℚ :=
  let C := lcsTable rec X Y
  let script := listBack rec C X Y (X.length + Y.length) X.length Y.length []
  let agg := listAgg script
  let totN := X.length + agg.1.length
  let s : ℚ := if totN = 0 then 1 else agg.2.2.2 / totN
  (emit_list_diff (.list X) (.list Y) s agg.1 agg.2.2.1 agg.2.1, s)

/-! ## JsonDiffer._obj_diff (src lines 268-282) -/

/-- `JsonDiffer._obj_diff` with fuel.  The `a is b` identity fast path is not
representable in a value embedding and is subsumed by the equal-values paths
(`objDiff_beq`); Python tuples and lists both dispatch to the sequence differ,
modeled by the single `Val.list` shape.  Fuel exhaustion yields the
full-replacement delta with similarity 0. -/
def objDiff : Nat → Val → Val → Val × ℚ
  | 0, a, b => (emit_value_diff a b 0, 0)
  | fuel + 1, a, b =>
    match a, b with
    | .dict x, .dict y => dictDiff (objDiff fuel) x y
    | .list x, .list y => listDiff (objDiff fuel) x y
    | .set x, .set y => setDiff (objDiff fuel) x y
    | a, b =>
        if beqV a b then (emit_value_diff a b 1, 1)
        else (emit_value_diff a b 0, 0)

/-- `JsonDiffer.diff` with the default options (compact syntax; the load / dump /
marshal toggles default to false, so the loader, dumper and marshaling steps are
skipped). -/
def jdiff (fuel : Nat) (a b : Val) : Val := (objDiff fuel a b).1

/-- `JsonDiffer.similarity` with the default options. -/
def jsim (fuel : Nat) (a b : Val) : ℚ := (objDiff fuel a b).2

/-! ## CompactJsonDiffSyntax.patch (src lines 87-131) -/

/-- Python iteration `for x in v`: lists yield elements, sets yield elements,
dicts yield their keys, strings yield their one-character substrings; other
values raise TypeError. -/
def pyIter : Val → Option (List Val)
  | .list xs => some xs
  | .set xs => some (xs.map Val.scalar)
  | .dict kvs => some (kvs.map (fun kv => Val.scalar kv.1))
  | .scalar (.str s) => some (s.toList.map (fun c => Val.scalar (.str (String.mk [c]))))
  | _ => none

/-- Python `int(k)` as used by the sequence patch rule: ints and bools pass,
numeric strings parse, anything else raises. -/
def asInt : Scalar → Option Int
  | .num n => some n
  | .bool b => some (if b then 1 else 0)
  | .str s => s.toInt?
  | _ => none

/-- An integer index as demanded by `list.pop` / item assignment: unlike
`int(k)`, strings are rejected (TypeError). -/
def asIdx : Val → Option Int
  | .scalar (.num n) => some n
  | .scalar (.bool b) => some (if b then 1 else 0)
  | _ => none

/-- Python `list.pop(i)`: negative indices count from the end; out of range is
an IndexError. -/
def pyPop (xs : List Val) (i : Int) : Option (List Val) :=
  let i' := if i < 0 then i + xs.length else i
  if 0 ≤ i' ∧ i' < xs.length then
    some (xs.take i'.toNat ++ xs.drop (i'.toNat + 1))
  else none

/-- Python `list.insert(i, v)`: never fails, clamping the index into range. -/
def pyInsertAt (xs : List Val) (i : Int) (v : Val) : List Val :=
  let i' := if i < 0 then max (i + xs.length) 0 else min i xs.length
  xs.take i'.toNat ++ v :: xs.drop i'.toNat

/-- Python `xs[i]` read with negative wrapping (IndexError out of range). -/
def getIdx (xs : List Val) (i : Int) : Option Val :=
  let i' := if i < 0 then i + xs.length else i
  if h : 0 ≤ i' ∧ i' < xs.length then
    some (xs.get ⟨i'.toNat, by omega⟩)
  else none

/-- Python `xs[i] = v` with negative wrapping (IndexError out of range). -/
def pySetIdx (xs : List Val) (i : Int) (v : Val) : Option (List Val) :=
  let i' := if i < 0 then i + xs.length else i
  if 0 ≤ i' ∧ i' < xs.length then
    some (xs.take i'.toNat ++ v :: xs.drop (i'.toNat + 1))
  else none

/-- `for kdel in v: del a[kdel]` — each key must be hashable (a scalar). -/
def delKeys : List (Scalar × Val) → List Val → Option (List (Scalar × Val))
  | acc, [] => some acc
  | acc, kd :: rest =>
    match kd with
    | .scalar ks => (removeKey ks acc).bind (fun acc' => delKeys acc' rest)
    | _ => none

/-- `for pos in d[delete]: a.pop(pos)`. -/
def popAll : List Val → List Val → Option (List Val)
  | xs, [] => some xs
  | xs, p :: rest =>
      (asIdx p).bind fun i => (pyPop xs i).bind fun xs' => popAll xs' rest

/-- `for pos, value in d[insert]: a.insert(pos, value)` — each entry unpacks a
two-element sequence. -/
def insAll : List Val → List Val → Option (List Val)
  | xs, [] => some xs
  | xs, pv :: rest =>
    match pv with
    | .list [p, v] => (asIdx p).bind fun i => insAll (pyInsertAt xs i v) rest
    | _ => none

/-- `a.discard(x)` for each listed element: absent elements are silently
ignored; unhashable elements raise TypeError. -/
def discardAll : List Scalar → List Val → Option (List Scalar)
  | xs, [] => some xs
  | xs, x :: rest =>
    match x with
    | .scalar s => discardAll (xs.filter (fun e => e ≠ s)) rest
    | _ => none

/-- `a.add(x)` for each listed element. -/
def addAll : List Scalar → List Val → Option (List Scalar)
  | xs, [] => some xs
  | xs, x :: rest =>
    match x with
    | .scalar s => addAll (if xs.contains s then xs else xs ++ [s]) rest
    | _ => none

/-- The set branch of `CompactJsonDiffSyntax.patch` (src lines 122-130). -/
def patchSet (xs : List Scalar) (d : List (Scalar × Val)) : Option Val :=
  (match lookupS (.sym .discard) d with
   | none => some xs
   | some dv => (pyIter dv).bind (discardAll xs)).bind fun xs1 =>
  (match lookupS (.sym .add) d with
   | none => some xs1
   | some av => (pyIter av).bind (addAll xs1)).map Val.set

mutual
/-- `CompactJsonDiffSyntax.patch`.  A non-dict delta is returned verbatim; an
empty dict delta returns the base; a `replace` entry returns its payload; then
the base's shape is dispatched, and a base that matches no shape branch (a
scalar) falls through to `return d`. -/
def patchV : Val → Val → Option Val
  | a, .dict d =>
    if d.isEmpty then some a
    else
      match lookupS (.sym .replace) d with
      | some r => some r
      | none =>
        match a with
        | .dict akvs => (patchDictGo akvs d).map Val.dict
        | .list xs => patchList xs d
        | .set xs => patchSet xs d
        | _ => some (.dict d)
  | _, d => some d

/-- The dict branch: iterate the delta's entries in order.  A `delete` entry
removes each listed key (KeyError when absent); any other entry with an absent
key — or one whose present value is the `missing` sentinel — assigns the payload
directly, otherwise the payload is patched recursively into the present value. -/
def patchDictGo : List (Scalar × Val) → List (Scalar × Val) →
    Option (List (Scalar × Val))
  | acc, [] => some acc
  | acc, (k, v) :: rest =>
    if k = .sym .delete then
      match pyIter v with
      | none => none
      | some ks =>
        match delKeys acc ks with
        | none => none
        | some acc' => patchDictGo acc' rest
    else
      match lookupS k acc with
      | none => patchDictGo (setKey acc k v) rest
      | some av =>
        if isMissing av then patchDictGo (setKey acc k v) rest
        else
          match patchV av v with
          | none => none
          | some w => patchDictGo (setKey acc k w) rest

/-- The list branch: apply `delete` positions, then `insert` entries, then every
remaining integer-keyed entry. -/
def patchList (xs : List Val) (d : List (Scalar × Val)) : Option Val :=
  (match lookupS (.sym .delete) d with
   | none => some xs
   | some dv => (pyIter dv).bind (popAll xs)).bind fun xs1 =>
  (match lookupS (.sym .insert) d with
   | none => some xs1
   | some iv => (pyIter iv).bind (insAll xs1)).bind fun xs2 =>
  (patchChanged xs2 d).map Val.list

/-- `for k, v in d.items(): if k != delete and k != insert: k = int(k);
a[k] = patch(a[k], v)`. -/
def patchChanged : List Val → List (Scalar × Val) → Option (List Val)
  | xs, [] => some xs
  | xs, (k, v) :: rest =>
    if k = .sym .delete ∨ k = .sym .insert then patchChanged xs rest
    else
      (asInt k).bind fun i =>
      (getIdx xs i).bind fun av =>
      (patchV av v).bind fun w =>
      (pySetIdx xs i w).bind fun xs' =>
      patchChanged xs' rest
end

/-- `JsonDiffer.patch` with the default options (no load, no marshal, no dump:
the delta is applied by the compact syntax directly). -/
def jpatch (a d : Val) : Option Val := patchV a d

/-! ## JsonDiffer.unpatch (src lines 323-336) -/

/-- A syntax object as the differ sees it: the `patch` method, and the `unpatch`
method slot, `none` when the class does not define one (Python attribute lookup
then raises AttributeError). -/
structure SyntaxObj where
  patchFn : Val → Val → Option Val
  unpatchFn : Option (Val → Val → Option Val)

/-- `CompactJsonDiffSyntax` defines `emit_*` and `patch` (src lines 45-131) but
no `unpatch` method. -/
def compactSyntax : SyntaxObj := ⟨patchV, none⟩

/-- `JsonDiffer.unpatch` with the default options: it calls
`self.options.syntax.unpatch(b, d)`; with the compact syntax that attribute does
not exist, so every call raises AttributeError (`none`). -/
def junpatch (b d : Val) : Option Val :=
  match compactSyntax.unpatchFn with
  | none => none
  | some f => f b d

/-! ## Marshaling (src lines 338-368) -/

/-- Python `str.startswith`: a character-level prefix test. -/
def strStartsWith (x pre : String) : Bool := pre.data.isPrefixOf x.data

/-- `JsonDiffer._escape` on a hashable value: a symbol becomes the escape token
plus its label; a string already starting with the token gets the token
prefixed once more; everything else is unchanged. -/
def escS (esc : String) : Scalar → Scalar
  | .sym s => .str (esc ++ s.label)
  | .str s => if strStartsWith s esc then .str (esc ++ s) else .str s
  | s => s

/-- `JsonDiffer._escape` on an arbitrary value (non-scalars are unchanged:
`_escape` only rewrites symbols and strings). -/
def escV (esc : String) : Val → Val
  | .scalar s => .scalar (escS esc s)
  | v => v

/-- The `_symbol_map`: `escape_str + label ↦ symbol` for every reserved symbol. -/
def symFromStr (esc : String) (x : String) : Option Sym :=
  allSymbols.find? (fun s => esc ++ s.label = x)

/-- `JsonDiffer._unescape` on a hashable value: a string matching the symbol map
becomes that symbol; any other string starting with the escape token has one
character stripped (`x[1:]` in the source); everything else is unchanged. -/
def unescS (esc : String) : Scalar → Scalar
  | .str x =>
    (match symFromStr esc x with
     | some sy => .sym sy
     | none => if strStartsWith x esc then .str (x.drop 1) else .str x)
  | s => s

def unescV (esc : String) : Val → Val
  | .scalar s => .scalar (unescS esc s)
  | v => v

mutual
/-- `JsonDiffer.marshal`: dicts escape their keys and marshal their values,
sequences marshal elementwise, everything else (scalars, sets) goes through
`_escape`. -/
def marshal (esc : String) : Val → Val
  | .dict kvs => .dict (marshalD esc kvs)
  | .list xs => .list (marshalL esc xs)
  | v => escV esc v
def marshalL (esc : String) : List Val → List Val
  | [] => []
  | x :: xs => marshal esc x :: marshalL esc xs
def marshalD (esc : String) : List (Scalar × Val) → List (Scalar × Val)
  | [] => []
  | (k, v) :: rest => (escS esc k, marshal esc v) :: marshalD esc rest
end

mutual
/-- `JsonDiffer.unmarshal`. -/
def unmarshal (esc : String) : Val → Val
  | .dict kvs => .dict (unmarshalD esc kvs)
  | .list xs => .list (unmarshalL esc xs)
  | v => unescV esc v
def unmarshalL (esc : String) : List Val → List Val
  | [] => []
  | x :: xs => unmarshal esc x :: unmarshalL esc xs
def unmarshalD (esc : String) : List (Scalar × Val) → List (Scalar × Val)
  | [] => []
  | (k, v) :: rest => (unescS esc k, unmarshal esc v) :: unmarshalD esc rest
end

end UJD

namespace UJD

/-! ## Lemmas about the association-list primitives -/


theorem lookupS_mem {k : Scalar} {l : List (Scalar × Val)} {v : Val}
    (h : lookupS k l = some v) : (k, v) ∈ l := by
  induction l with
  | nil => simp [lookupS] at h
  | cons kv rest ih =>
    obtain ⟨k', v'⟩ := kv
    by_cases hk : k' = k
    · subst hk
      simp [lookupS] at h
      subst h
      exact List.mem_cons_self _ _
    · rw [lookupS, if_neg hk] at h
      exact List.mem_cons_of_mem _ (ih h)

theorem lookupS_eq_none {k : Scalar} {l : List (Scalar × Val)} :
    lookupS k l = none ↔ ∀ kv ∈ l, kv.1 ≠ k := by
  induction l with
  | nil => simp [lookupS]
  | cons kv rest ih =>
    obtain ⟨k', v'⟩ := kv
    by_cases hk : k' = k
    · subst hk; simp [lookupS]
    · simp [lookupS, hk, ih]

theorem lookupS_isSome_of_mem {k : Scalar} {v : Val} {l : List (Scalar × Val)}
    (h : (k, v) ∈ l) : (lookupS k l).isSome := by
  induction l with
  | nil => simp at h
  | cons kv rest ih =>
    obtain ⟨k', v'⟩ := kv
    by_cases hk : k' = k
    · simp [lookupS, hk]
    · rw [lookupS, if_neg hk]
      rcases List.mem_cons.1 h with h1 | h1
      · exact absurd (congrArg Prod.fst h1).symm hk
      · exact ih h1

theorem nodupKeysB_cons {k : Scalar} {v : Val} {rest : List (Scalar × Val)} :
    nodupKeysB ((k, v) :: rest) = true ↔
      (∀ kv ∈ rest, kv.1 ≠ k) ∧ nodupKeysB rest = true := by
  simp [nodupKeysB]

theorem lookupS_self_of_nodup {k : Scalar} {v : Val} {l : List (Scalar × Val)}
    (hnd : nodupKeysB l = true) (hmem : (k, v) ∈ l) : lookupS k l = some v := by
  induction l with
  | nil => simp at hmem
  | cons kv rest ih =>
    obtain ⟨k', v'⟩ := kv
    rw [nodupKeysB_cons] at hnd
    rcases List.mem_cons.1 hmem with h1 | h1
    · rw [lookupS, if_pos (congrArg Prod.fst h1).symm]
      exact congrArg some (congrArg Prod.snd h1).symm
    · have hne : k' ≠ k := by
        intro he; subst he
        exact (hnd.1 _ h1) rfl
      rw [lookupS, if_neg hne]
      exact ih hnd.2 h1

theorem setKey_of_lookup_none {k : Scalar} {v : Val} {l : List (Scalar × Val)}
    (h : lookupS k l = none) : setKey l k v = l ++ [(k, v)] := by
  induction l with
  | nil => simp [setKey]
  | cons kv rest ih =>
    obtain ⟨k', v'⟩ := kv
    by_cases hk : k' = k
    · subst hk; simp [lookupS] at h
    · rw [lookupS, if_neg hk] at h
      simp [setKey, hk, ih h]

theorem setKey_of_mem {k : Scalar} {v w : Val} {l : List (Scalar × Val)}
    (h : lookupS k l = some w) :
    (setKey l k v).length = l.length ∧
    (setKey l k v).map Prod.fst = l.map Prod.fst := by
  induction l with
  | nil => simp [lookupS] at h
  | cons kv rest ih =>
    obtain ⟨k', v'⟩ := kv
    by_cases hk : k' = k
    · subst hk; simp [setKey]
    · rw [lookupS, if_neg hk] at h
      simp [setKey, hk, (ih h).1, (ih h).2]

theorem lookupS_setKey_self {k : Scalar} {v : Val} (l : List (Scalar × Val)) :
    lookupS k (setKey l k v) = some v := by
  induction l with
  | nil => simp [setKey, lookupS]
  | cons kv rest ih =>
    obtain ⟨k', v'⟩ := kv
    by_cases hk : k' = k
    · subst hk; simp [setKey, lookupS]
    · simp [setKey, hk, lookupS, ih]

theorem lookupS_setKey_other {k k' : Scalar} {v : Val} (l : List (Scalar × Val))
    (h : k' ≠ k) : lookupS k' (setKey l k v) = lookupS k' l := by
  have hkk : k ≠ k' := fun he => h he.symm
  induction l with
  | nil => simp [setKey, lookupS, hkk]
  | cons kv rest ih =>
    obtain ⟨k'', v''⟩ := kv
    by_cases hk : k'' = k
    · subst hk
      simp [setKey, lookupS, hkk]
    · rw [setKey, if_neg hk]
      by_cases hk2 : k'' = k'
      · rw [lookupS, if_pos hk2, lookupS, if_pos hk2]
      · rw [lookupS, if_neg hk2, lookupS, if_neg hk2]
        exact ih

theorem removeKey_eq_none {k : Scalar} {l : List (Scalar × Val)} :
    removeKey k l = none ↔ lookupS k l = none := by
  induction l with
  | nil => simp [removeKey, lookupS]
  | cons kv rest ih =>
    obtain ⟨k', v'⟩ := kv
    by_cases hk : k' = k
    · subst hk; simp [removeKey, lookupS]
    · simp [removeKey, lookupS, hk, ih, Option.map_eq_none']

theorem removeKey_of_lookup_some {k : Scalar} {v : Val} {l : List (Scalar × Val)}
    (h : lookupS k l = some v) :
    ∃ r, removeKey k l = some r ∧ r.length + 1 = l.length ∧
      (∀ k', k' ≠ k → lookupS k' r = lookupS k' l) ∧
      (nodupKeysB l = true → nodupKeysB r = true ∧ lookupS k r = none) ∧
      (∀ kv ∈ r, kv ∈ l) := by
  induction l with
  | nil => simp [lookupS] at h
  | cons kv rest ih =>
    obtain ⟨k', v'⟩ := kv
    by_cases hk : k' = k
    · subst hk
      refine ⟨rest, by simp [removeKey], by simp, ?_, ?_, ?_⟩
      · intro k'' hne
        rw [lookupS, if_neg (fun he : k' = k'' => hne he.symm)]
      · intro hnd
        rw [nodupKeysB_cons] at hnd
        refine ⟨hnd.2, ?_⟩
        rw [lookupS_eq_none]
        exact hnd.1
      · intro kv hkv; exact List.mem_cons_of_mem _ hkv
    · rw [lookupS, if_neg hk] at h
      obtain ⟨r, hr, hlen, hlk, hnd, hsub⟩ := ih h
      refine ⟨(k', v') :: r, by simp [removeKey, hk, hr], by simp [← hlen], ?_, ?_, ?_⟩
      · intro k'' hne
        by_cases hk2 : k' = k''
        · rw [lookupS, if_pos hk2, lookupS, if_pos hk2]
        · rw [lookupS, if_neg hk2, lookupS, if_neg hk2]
          exact hlk k'' hne
      · intro hnd2
        rw [nodupKeysB_cons] at hnd2
        obtain ⟨hr1, hr2⟩ := hnd hnd2.2
        refine ⟨nodupKeysB_cons.2 ⟨fun kv hkv => hnd2.1 kv (hsub kv hkv), hr1⟩, ?_⟩
        rw [lookupS, if_neg hk]
        exact hr2
      · intro kv hkv
        rcases List.mem_cons.1 hkv with h1 | h1
        · simp [h1]
        · exact List.mem_cons_of_mem _ (hsub kv h1)

theorem wfL_mem {xs : List Val} (h : wfL xs = true) {x : Val} (hx : x ∈ xs) :
    wfV x = true := by
  induction xs with
  | nil => simp at hx
  | cons y ys ih =>
    rw [wfL, Bool.and_eq_true] at h
    rcases List.mem_cons.1 hx with h1 | h1
    · subst h1; exact h.1
    · exact ih h.2 h1

theorem wfD_mem {l : List (Scalar × Val)} (h : wfD l = true) {kv : Scalar × Val}
    (hkv : kv ∈ l) : kv.1.isSym = false ∧ wfV kv.2 = true := by
  induction l with
  | nil => simp at hkv
  | cons kv' rest ih =>
    obtain ⟨k', v'⟩ := kv'
    simp only [wfD, Bool.and_eq_true, Bool.not_eq_true'] at h
    rcases List.mem_cons.1 hkv with h1 | h1
    · subst h1
      exact ⟨h.1.1, h.1.2⟩
    · exact ih h.2 h1

theorem wfV_dict {kvs : List (Scalar × Val)} (h : wfV (.dict kvs) = true) :
    nodupKeysB kvs = true ∧ wfD kvs = true := by
  rw [wfV, Bool.and_eq_true] at h
  exact h

theorem wfV_list {xs : List Val} (h : wfV (.list xs) = true) : wfL xs = true := h

theorem wfV_set {xs : List Scalar} (h : wfV (.set xs) = true) :
    nodupSc xs = true ∧ ∀ x ∈ xs, x.isSym = false := by
  rw [wfV, Bool.and_eq_true, List.all_eq_true] at h
  exact ⟨h.1, fun x hx => by simpa using h.2 x hx⟩

theorem nodupSc_iff {xs : List Scalar} : nodupSc xs = true ↔ xs.Nodup := by
  induction xs with
  | nil => simp [nodupSc]
  | cons x rest ih => simp [nodupSc, ih]


/-! ## Reflexivity of Python equality on well-formed values -/

mutual
theorem beqV_refl : (v : Val) → wfV v = true → beqV v v = true
  | .scalar s, _ => by simp [beqV]
  | .list xs, h => by
      rw [beqV]
      exact beqL_refl xs (wfV_list h)
  | .set xs, _ => by
      simp [beqV, List.all_eq_true]
  | .dict kvs, h => by
      rw [beqV]
      obtain ⟨hnd, hwf⟩ := wfV_dict h
      rw [beqD_of_lookup kvs kvs hwf (fun kv hkv => lookupS_self_of_nodup hnd hkv)]
      simp
theorem beqL_refl : (xs : List Val) → wfL xs = true → beqL xs xs = true
  | [], _ => rfl
  | x :: xs, h => by
      rw [beqL]
      rw [wfL, Bool.and_eq_true] at h
      rw [beqV_refl x h.1, beqL_refl xs h.2]
      rfl
theorem beqD_of_lookup : (xs ys : List (Scalar × Val)) → wfD xs = true →
    (∀ kv ∈ xs, lookupS kv.1 ys = some kv.2) → beqD xs ys = true
  | [], _, _, _ => rfl
  | (k, v) :: rest, ys, hwf, hl => by
      have h1 := hl (k, v) (List.mem_cons_self _ _)
      simp only [wfD, Bool.and_eq_true] at hwf
      rw [beqD]
      simp only [h1]
      rw [beqV_refl v hwf.1.2,
        beqD_of_lookup rest ys hwf.2 (fun kv hkv => hl kv (List.mem_cons_of_mem _ hkv))]
      rfl
end


/-! ## Structure of the backtracked edit script -/

/-- Valid edit scripts from `(0,0)` to `(i,j)`: each step consumes the current
last element of `X.take i`, of `Y.take j`, or both (a diagonal match whose
payload and similarity are the nested diff of the matched pair). `_list_diff_0`
only produces such scripts (`listBack_spec`). -/
inductive Scr (rec : Val → Val → Val × ℚ) (X Y : List Val) :
    Nat → Nat → List Edit → Prop where
  | nil : Scr rec X Y 0 0 []
  | diag {i j : Nat} {S : List Edit} (h : Scr rec X Y i j S) (hi : i < X.length)
      (hj : j < Y.length) :
      Scr rec X Y (i+1) (j+1)
        (S ++ [⟨0, (rec (X.getD i (.scalar .null)) (Y.getD j (.scalar .null))).1, j,
               (rec (X.getD i (.scalar .null)) (Y.getD j (.scalar .null))).2⟩])
  | ins {i j : Nat} {S : List Edit} (h : Scr rec X Y i j S) (hj : j < Y.length) :
      Scr rec X Y i (j+1) (S ++ [⟨1, Y.getD j (.scalar .null), j, 0⟩])
  | del {i j : Nat} {S : List Edit} (h : Scr rec X Y i j S) (hi : i < X.length) :
      Scr rec X Y (i+1) j (S ++ [⟨-1, X.getD i (.scalar .null), i, 0⟩])

theorem listBack_spec (rec : Val → Val → Val × ℚ) (C : List (List ℚ)) (X Y : List Val) :
    ∀ (fuel i j : Nat) (r : List Edit), i + j ≤ fuel → i ≤ X.length → j ≤ Y.length →
    ∃ S, listBack rec C X Y fuel i j r = S ++ r ∧ Scr rec X Y i j S := by
  intro fuel
  induction fuel with
  | zero =>
    intro i j r hf hi hj
    have hi0 : i = 0 := by omega
    have hj0 : j = 0 := by omega
    subst hi0; subst hj0
    exact ⟨[], rfl, Scr.nil⟩
  | succ fuel ih =>
    intro i j r hf hi hj
    rw [listBack]
    by_cases hij : 0 < i ∧ 0 < j
    · by_cases hd : 0 < (rec (X.getD (i-1) (.scalar .null)) (Y.getD (j-1) (.scalar .null))).2 ∧
          Cget C i j = Cget C (i-1) (j-1) +
            (rec (X.getD (i-1) (.scalar .null)) (Y.getD (j-1) (.scalar .null))).2
      · simp only [if_pos hij, if_pos hd]
        obtain ⟨S, hS, hscr⟩ := ih (i-1) (j-1)
          (⟨0, (rec (X.getD (i-1) (.scalar .null)) (Y.getD (j-1) (.scalar .null))).1, j-1,
            (rec (X.getD (i-1) (.scalar .null)) (Y.getD (j-1) (.scalar .null))).2⟩ :: r)
          (by omega) (by omega) (by omega)
        have hstep := Scr.diag hscr (by omega) (by omega)
        have hi1 : i - 1 + 1 = i := by omega
        have hj1 : j - 1 + 1 = j := by omega
        rw [hi1, hj1] at hstep
        refine ⟨_, ?_, hstep⟩
        rw [hS]
        simp
      · simp only [if_pos hij, if_neg hd]
        have hins : 0 < j ∧ (i = 0 ∨ Cget C (i-1) j ≤ Cget C i (j-1)) ∨
            ¬(0 < j ∧ (i = 0 ∨ Cget C (i-1) j ≤ Cget C i (j-1))) := em _
        rcases hins with hins | hins
        · rw [if_pos hins]
          obtain ⟨S, hS, hscr⟩ := ih i (j-1)
            (⟨1, Y.getD (j-1) (.scalar .null), j-1, 0⟩ :: r) (by omega) hi (by omega)
          have hstep := Scr.ins hscr (by omega)
          have hj1 : j - 1 + 1 = j := by omega
          rw [hj1] at hstep
          refine ⟨_, ?_, hstep⟩
          rw [hS]
          simp
        · rw [if_neg hins]
          have hdel : 0 < i ∧ (j = 0 ∨ Cget C i (j-1) < Cget C (i-1) j) := by
            refine ⟨hij.1, Or.inr ?_⟩
            rcases not_and_or.1 hins with h1 | h1
            · omega
            · rcases not_or.1 h1 with ⟨h2, h3⟩
              exact lt_of_not_le h3
          rw [if_pos hdel]
          obtain ⟨S, hS, hscr⟩ := ih (i-1) j
            (⟨-1, X.getD (i-1) (.scalar .null), i-1, 0⟩ :: r) (by omega) (by omega) hj
          have hstep := Scr.del hscr (by omega)
          have hi1 : i - 1 + 1 = i := by omega
          rw [hi1] at hstep
          refine ⟨_, ?_, hstep⟩
          rw [hS]
          simp
    · simp only [if_neg hij]
      by_cases hj0 : 0 < j
      · have hins : 0 < j ∧ (i = 0 ∨ Cget C (i-1) j ≤ Cget C i (j-1)) := by
          refine ⟨hj0, Or.inl ?_⟩
          omega
        rw [if_pos hins]
        obtain ⟨S, hS, hscr⟩ := ih i (j-1)
          (⟨1, Y.getD (j-1) (.scalar .null), j-1, 0⟩ :: r) (by omega) hi (by omega)
        have hstep := Scr.ins hscr (by omega)
        have hj1 : j - 1 + 1 = j := by omega
        rw [hj1] at hstep
        refine ⟨_, ?_, hstep⟩
        rw [hS]
        simp
      · by_cases hi0 : 0 < i
        · have hins : ¬(0 < j ∧ (i = 0 ∨ Cget C (i-1) j ≤ Cget C i (j-1))) := by
            intro hc; omega
          rw [if_neg hins]
          have hdel : 0 < i ∧ (j = 0 ∨ Cget C i (j-1) < Cget C (i-1) j) := ⟨hi0, Or.inl (by omega)⟩
          rw [if_pos hdel]
          obtain ⟨S, hS, hscr⟩ := ih (i-1) j
            (⟨-1, X.getD (i-1) (.scalar .null), i-1, 0⟩ :: r) (by omega) (by omega) hj
          have hstep := Scr.del hscr (by omega)
          have hi1 : i - 1 + 1 = i := by omega
          rw [hi1] at hstep
          refine ⟨_, ?_, hstep⟩
          rw [hS]
          simp
        · have hins : ¬(0 < j ∧ (i = 0 ∨ Cget C (i-1) j ≤ Cget C i (j-1))) := by
            intro hc; omega
          have hdel : ¬(0 < i ∧ (j = 0 ∨ Cget C i (j-1) < Cget C (i-1) j)) := by
            intro hc; omega
          rw [if_neg hins, if_neg hdel]
          have hi' : i = 0 := by omega
          have hj' : j = 0 := by omega
          subst hi'; subst hj'
          exact ⟨[], rfl, Scr.nil⟩


/-! ## Aggregation of an edit script -/

theorem listAgg_diag (S : List Edit) (d : Val) (p : Nat) (sv : ℚ) :
    listAgg (S ++ [⟨0, d, p, sv⟩]) =
      ((listAgg S).1, (listAgg S).2.1,
       (if sv < 1 then setKey (listAgg S).2.2.1 (.num (p : Int)) d
        else (listAgg S).2.2.1),
       (listAgg S).2.2.2 + sv) := by
  simp only [listAgg, List.foldl_append, List.foldl_cons, List.foldl_nil]
  norm_num
  split_ifs <;> rfl

theorem listAgg_ins (S : List Edit) (v : Val) (p : Nat) :
    listAgg (S ++ [⟨1, v, p, 0⟩]) =
      ((listAgg S).1 ++ [(p, v)], (listAgg S).2.1, (listAgg S).2.2.1,
       (listAgg S).2.2.2) := by
  simp only [listAgg, List.foldl_append, List.foldl_cons, List.foldl_nil]
  norm_num

theorem listAgg_del (S : List Edit) (v : Val) (p : Nat) :
    listAgg (S ++ [⟨-1, v, p, 0⟩]) =
      ((listAgg S).1, (p, v) :: (listAgg S).2.1, (listAgg S).2.2.1,
       (listAgg S).2.2.2) := by
  simp only [listAgg, List.foldl_append, List.foldl_cons, List.foldl_nil]
  norm_num

theorem listAgg_nil : listAgg [] = ([], [], [], 0) := rfl

/-- Counting facts about an edit script: with `nd` diagonal steps, the script
has `j - nd` insertions and `i - nd` deletions, and (when the nested
similarities lie in `[0,1]`) the accumulated `tot_s` lies in `[0, nd]`. -/
theorem scr_counts {rec : Val → Val → Val × ℚ} {X Y : List Val}
    (hb : ∀ v w, 0 ≤ (rec v w).2 ∧ (rec v w).2 ≤ 1) :
    ∀ {i j : Nat} {S : List Edit}, Scr rec X Y i j S →
    ∃ nd : Nat, (listAgg S).1.length + nd = j ∧ (listAgg S).2.1.length + nd = i ∧
      0 ≤ (listAgg S).2.2.2 ∧ (listAgg S).2.2.2 ≤ (nd : ℚ) := by
  intro i j S h
  induction h with
  | nil => exact ⟨0, by simp [listAgg_nil], by simp [listAgg_nil],
      by simp [listAgg_nil], by simp [listAgg_nil]⟩
  | @diag i j S h hi hj ih =>
    obtain ⟨nd, h1, h2, h3, h4⟩ := ih
    have hbd := hb (X.getD i (.scalar .null)) (Y.getD j (.scalar .null))
    refine ⟨nd + 1, ?_, ?_, ?_, ?_⟩ <;> rw [listAgg_diag]
    · simp only
      omega
    · simp only
      omega
    · simp only
      linarith [hbd.1]
    · simp only
      push_cast
      linarith [hbd.2]
  | @ins i j S h hj ih =>
    obtain ⟨nd, h1, h2, h3, h4⟩ := ih
    refine ⟨nd, ?_, ?_, ?_, ?_⟩ <;> rw [listAgg_ins]
    · simp only [List.length_append, List.length_cons, List.length_nil]
      omega
    · simpa using h2
    · simpa using h3
    · simpa using h4
  | @del i j S h hi ih =>
    obtain ⟨nd, h1, h2, h3, h4⟩ := ih
    refine ⟨nd, ?_, ?_, ?_, ?_⟩ <;> rw [listAgg_del]
    · simpa using h1
    · simp only [List.length_cons]
      omega
    · simpa using h3
    · simpa using h4


/-! ## Similarity bounds -/

theorem dictDiffLoop_sm {rec : Val → Val → Val × ℚ}
    (hb : ∀ v w, 0 ≤ (rec v w).2 ∧ (rec v w).2 ≤ 1) (b : List (Scalar × Val)) :
    ∀ (l : List (Scalar × Val)) (st : DictSt),
      0 ≤ st.smatched → st.smatched ≤ (st.nmatched : ℚ) →
      0 ≤ (dictDiffLoop rec b l st).smatched ∧
        (dictDiffLoop rec b l st).smatched ≤ ((dictDiffLoop rec b l st).nmatched : ℚ) := by
  intro l
  induction l with
  | nil => intro st h1 h2; exact ⟨h1, h2⟩
  | cons kv rest ih =>
    intro st h1 h2
    obtain ⟨k, v⟩ := kv
    rw [dictDiffLoop]
    cases hlk : lookupS k b with
    | none => exact ih _ (by simpa) (by simpa)
    | some w =>
      simp only []
      by_cases hsym : isSymVal w = true
      · rw [if_pos hsym]
        by_cases hm : isMissing w = true
        · rw [if_pos hm]
          exact ih _ (by simpa) (by simpa)
        · rw [if_neg hm]
          exact ih _ h1 h2
      · rw [if_neg hsym]
        refine ih _ ?_ ?_
        · have := (hb v w).1
          simp only [DictSt.mk.injEq]
          linarith
        · have := (hb v w).2
          push_cast
          linarith

theorem dictDiff_snd (rec : Val → Val → Val × ℚ) (x y : List (Scalar × Val)) :
    (dictDiff rec x y).2 =
      (if (dictDiffLoop rec y x ⟨[], 0, 0, 0, []⟩).nremoved +
            (dictDiffLoop rec y x ⟨[], 0, 0, 0, []⟩).nmatched +
            (y.filter (fun kv => (lookupS kv.1 x).isNone)).length ≠ 0 then
        (dictDiffLoop rec y x ⟨[], 0, 0, 0, []⟩).smatched /
          ((dictDiffLoop rec y x ⟨[], 0, 0, 0, []⟩).nremoved +
            (dictDiffLoop rec y x ⟨[], 0, 0, 0, []⟩).nmatched +
            (y.filter (fun kv => (lookupS kv.1 x).isNone)).length : ℕ)
      else 1) := rfl

theorem dictDiff_bounds {rec : Val → Val → Val × ℚ}
    (hb : ∀ v w, 0 ≤ (rec v w).2 ∧ (rec v w).2 ≤ 1) (x y : List (Scalar × Val)) :
    0 ≤ (dictDiff rec x y).2 ∧ (dictDiff rec x y).2 ≤ 1 := by
  have hloop := dictDiffLoop_sm hb y x ⟨[], 0, 0, 0, []⟩ (by norm_num) (by norm_num)
  rw [dictDiff_snd]
  set st := dictDiffLoop rec y x ⟨[], 0, 0, 0, []⟩ with hst
  set nTot : ℕ := st.nremoved + st.nmatched + (y.filter (fun kv => (lookupS kv.1 x).isNone)).length with hnTot
  by_cases h : nTot ≠ 0
  · rw [if_pos h]
    have hpos : (0 : ℚ) < (nTot : ℚ) := by
      exact_mod_cast Nat.pos_of_ne_zero h
    constructor
    · exact div_nonneg hloop.1 (le_of_lt hpos)
    · rw [div_le_one hpos]
      calc st.smatched ≤ (st.nmatched : ℚ) := hloop.2
        _ ≤ (nTot : ℚ) := by
            have : st.nmatched ≤ nTot := by omega
            exact_mod_cast this
  · rw [if_neg h]
    norm_num

theorem listDiff_snd (rec : Val → Val → Val × ℚ) (X Y : List Val) :
    (listDiff rec X Y).2 =
      (if X.length + (listAgg (listBack rec (lcsTable rec X Y) X Y
            (X.length + Y.length) X.length Y.length [])).1.length = 0 then 1
       else (listAgg (listBack rec (lcsTable rec X Y) X Y
            (X.length + Y.length) X.length Y.length [])).2.2.2 /
          (X.length + (listAgg (listBack rec (lcsTable rec X Y) X Y
            (X.length + Y.length) X.length Y.length [])).1.length : ℕ)) := rfl

theorem listDiff_bounds {rec : Val → Val → Val × ℚ}
    (hb : ∀ v w, 0 ≤ (rec v w).2 ∧ (rec v w).2 ≤ 1) (X Y : List Val) :
    0 ≤ (listDiff rec X Y).2 ∧ (listDiff rec X Y).2 ≤ 1 := by
  obtain ⟨S, hS, hscr⟩ := listBack_spec rec (lcsTable rec X Y) X Y
    (X.length + Y.length) X.length Y.length [] (le_refl _) (le_refl _) (le_refl _)
  rw [List.append_nil] at hS
  obtain ⟨nd, h1, h2, h3, h4⟩ := scr_counts hb hscr
  rw [listDiff_snd, hS]
  by_cases h : X.length + (listAgg S).1.length = 0
  · rw [if_pos h]
    norm_num
  · rw [if_neg h]
    have hpos : (0 : ℚ) < ((X.length + (listAgg S).1.length : ℕ) : ℚ) := by
      exact_mod_cast Nat.pos_of_ne_zero h
    constructor
    · exact div_nonneg h3 (le_of_lt hpos)
    · rw [div_le_one hpos]
      calc (listAgg S).2.2.2 ≤ (nd : ℚ) := h4
        _ ≤ ((X.length + (listAgg S).1.length : ℕ) : ℚ) := by
            have : nd ≤ X.length + (listAgg S).1.length := by omega
            exact_mod_cast this

theorem greedyFold_inv :
    ∀ (ranking : List (ℚ × Scalar × Scalar)) (st : List Scalar × List Scalar × ℚ) (K : ℚ),
      (∀ t ∈ ranking, 0 ≤ t.1 ∧ t.1 ≤ 1) →
      0 ≤ st.2.2 → st.2.2 + (st.1.length : ℚ) ≤ K →
      0 ≤ (ranking.foldl greedyStep st).2.2 ∧
        (ranking.foldl greedyStep st).2.2 + ((ranking.foldl greedyStep st).1.length : ℚ) ≤ K := by
  intro ranking
  induction ranking with
  | nil => intro st K hr h1 h2; exact ⟨h1, h2⟩
  | cons t rest ih =>
    intro st K hr h1 h2
    rw [List.foldl_cons]
    refine ih (greedyStep st t) K (fun t' ht' => hr t' (List.mem_cons_of_mem _ ht')) ?_ ?_
    · rw [greedyStep]
      split
      · have := (hr t (List.mem_cons_self _ _)).1
        simp only []
        linarith
      · exact h1
    · rw [greedyStep]
      split
      next hc =>
        rw [Bool.and_eq_true] at hc
        have hmem : t.2.1 ∈ st.1 := by simpa using hc.1
        have hlen : (st.1.erase t.2.1).length = st.1.length - 1 :=
          List.length_erase_of_mem hmem
        have hlen1 : 1 ≤ st.1.length := List.length_pos_of_mem hmem
        have hts := (hr t (List.mem_cons_self _ _)).2
        simp only [hlen]
        have : ((st.1.length - 1 : ℕ) : ℚ) = (st.1.length : ℚ) - 1 := by
          push_cast [Nat.cast_sub hlen1]
          ring
        rw [this]
        linarith
      next => exact h2

theorem setRanking_bounds {rec : Val → Val → Val × ℚ}
    (hb : ∀ v w, 0 ≤ (rec v w).2 ∧ (rec v w).2 ≤ 1) (removed added : List Scalar) :
    ∀ t ∈ setRanking rec removed added, 0 ≤ t.1 ∧ t.1 ≤ 1 := by
  intro t ht
  rw [setRanking, List.mem_mergeSort, List.mem_flatten] at ht
  obtain ⟨row, hrow, htr⟩ := ht
  rw [List.mem_map] at hrow
  obtain ⟨x, hx, hxr⟩ := hrow
  subst hxr
  rw [List.mem_map] at htr
  obtain ⟨y, hy, hyt⟩ := htr
  subst hyt
  exact hb _ _

theorem setSim_bounds {rec : Val → Val → Val × ℚ}
    (hb : ∀ v w, 0 ≤ (rec v w).2 ∧ (rec v w).2 ≤ 1) (a b : List Scalar) :
    0 ≤ setSim rec a b ∧ setSim rec a b ≤ 1 := by
  rw [setSim]
  set removed := a.filter (fun x => !(b.contains x)) with hrem
  set added := b.filter (fun x => !(a.contains x)) with hadd
  have hremlen : removed.length ≤ a.length := by
    rw [hrem]; exact List.length_filter_le _ _
  have hs1 : (0 : ℚ) ≤ (a.length : ℚ) - removed.length := by
    have : ((removed.length : ℕ) : ℚ) ≤ ((a.length : ℕ) : ℚ) := by exact_mod_cast hremlen
    linarith
  have hs2 : ((a.length : ℚ) - removed.length) + ((removed, added,
      ((a.length : ℚ) - removed.length)).1.length : ℚ) ≤ (a.length : ℚ) := by
    simp only []
    linarith
  have hinv := greedyFold_inv (setRanking rec removed added)
    (removed, added, ((a.length : ℚ) - removed.length)) ((a.length : ℚ))
    (setRanking_bounds hb removed added) hs1 hs2
  set fin := (setRanking rec removed added).foldl greedyStep
    (removed, added, ((a.length : ℚ) - removed.length)) with hfin
  by_cases h : a.length + added.length ≠ 0
  · rw [if_pos h]
    have hpos : (0 : ℚ) < ((a.length + added.length : ℕ) : ℚ) := by
      exact_mod_cast Nat.pos_of_ne_zero h
    constructor
    · exact div_nonneg hinv.1 (le_of_lt hpos)
    · rw [div_le_one hpos]
      have hfl : (0 : ℚ) ≤ (fin.1.length : ℚ) := by positivity
      have hle : ((a.length : ℕ) : ℚ) ≤ ((a.length + added.length : ℕ) : ℚ) := by
        have : a.length ≤ a.length + added.length := Nat.le_add_right _ _
        exact_mod_cast this
      linarith [hinv.2]
  · rw [if_neg h]
    norm_num

theorem setDiff_bounds {rec : Val → Val → Val × ℚ}
    (hb : ∀ v w, 0 ≤ (rec v w).2 ∧ (rec v w).2 ≤ 1) (a b : List Scalar) :
    0 ≤ (setDiff rec a b).2 ∧ (setDiff rec a b).2 ≤ 1 := by
  rw [setDiff]
  split
  · norm_num
  · exact setSim_bounds hb a b

theorem objDiff_succ_dict (fuel : Nat) (x y : List (Scalar × Val)) :
    objDiff (fuel+1) (.dict x) (.dict y) = dictDiff (objDiff fuel) x y := rfl

theorem objDiff_succ_list (fuel : Nat) (x y : List Val) :
    objDiff (fuel+1) (.list x) (.list y) = listDiff (objDiff fuel) x y := rfl

theorem objDiff_succ_set (fuel : Nat) (x y : List Scalar) :
    objDiff (fuel+1) (.set x) (.set y) = setDiff (objDiff fuel) x y := rfl

theorem objDiff_bounds : ∀ (fuel : Nat) (a b : Val),
    0 ≤ (objDiff fuel a b).2 ∧ (objDiff fuel a b).2 ≤ 1 := by
  intro fuel
  induction fuel with
  | zero => intro a b; simp [objDiff]
  | succ fuel ih =>
    intro a b
    cases a <;> cases b <;>
      first
        | (rw [objDiff_succ_dict]; exact dictDiff_bounds ih _ _)
        | (rw [objDiff_succ_list]; exact listDiff_bounds ih _ _)
        | (rw [objDiff_succ_set]; exact setDiff_bounds ih _ _)
        | (simp only [objDiff]; split <;> norm_num)


/-! ## The alignment table satisfies the textbook recurrence -/

theorem lcsRowGo_spec (rec : Val → Val → Val × ℚ) (x : Val) :
    ∀ (ys : List Val) (prev : List ℚ) (last : ℚ),
      ys.length + 1 ≤ prev.length →
      (lcsRowGo rec x ys prev last).length = ys.length ∧
      ∀ t, t < ys.length →
        (lcsRowGo rec x ys prev last).getD t 0 =
          max (if t = 0 then last else (lcsRowGo rec x ys prev last).getD (t-1) 0)
            (max (prev.getD (t+1) 0)
              (prev.getD t 0 + (rec x (ys.getD t (.scalar .null))).2)) := by
  intro ys
  induction ys with
  | nil => intro prev last h; exact ⟨rfl, fun t ht => by simp at ht⟩
  | cons y ys ih =>
    intro prev last h
    match prev, h with
    | p0 :: p1 :: rest, h =>
      rw [lcsRowGo]
      have hlen : ys.length + 1 ≤ (p1 :: rest).length := by
        simpa using Nat.le_of_succ_le_succ (by simpa using h)
      obtain ⟨ihlen, ihget⟩ := ih (p1 :: rest) (max last (max p1 (p0 + (rec x y).2))) hlen
      constructor
      · simp [ihlen]
      · intro t ht
        cases t with
        | zero => simp
        | succ t =>
          have ht' : t < ys.length := by simpa using ht
          have hmain := ihget t ht'
          simp only [List.getD_cons_succ]
          rw [hmain]
          cases t with
          | zero => simp
          | succ t => simp

theorem lcsRows_getD (rec : Val → Val → Val × ℚ) (Y : List Val) :
    ∀ (xs : List Val) (prev : List ℚ) (t : Nat), t < xs.length →
      (lcsRows rec Y xs prev).getD t [] =
        0 :: lcsRowGo rec (xs.getD t (.scalar .null)) Y
          (if t = 0 then prev else (lcsRows rec Y xs prev).getD (t-1) []) 0 := by
  intro xs
  induction xs with
  | nil => intro prev t ht; simp at ht
  | cons x xs ih =>
    intro prev t ht
    rw [lcsRows]
    cases t with
    | zero => simp
    | succ t =>
      have ht' : t < xs.length := by simpa using ht
      have := ih (0 :: lcsRowGo rec x Y prev 0) t ht'
      simp only [List.getD_cons_succ]
      rw [this]
      cases t with
      | zero => simp
      | succ t => simp

theorem lcsRows_length_rows (rec : Val → Val → Val × ℚ) (Y : List Val) :
    ∀ (xs : List Val) (prev : List ℚ), prev.length = Y.length + 1 →
      ∀ t, t < xs.length → ((lcsRows rec Y xs prev).getD t []).length = Y.length + 1 := by
  intro xs
  induction xs with
  | nil => intro prev hprev t ht; simp at ht
  | cons x xs ih =>
    intro prev hprev t ht
    rw [lcsRows]
    cases t with
    | zero =>
      simp only [List.getD_cons_zero, List.length_cons]
      rw [(lcsRowGo_spec rec x Y prev 0 (by omega)).1]
    | succ t =>
      have ht' : t < xs.length := by simpa using ht
      simp only [List.getD_cons_succ]
      refine ih (0 :: lcsRowGo rec x Y prev 0) ?_ t ht'
      simp only [List.length_cons]
      rw [(lcsRowGo_spec rec x Y prev 0 (by omega)).1]

theorem Cget_row0 (rec : Val → Val → Val × ℚ) (X Y : List Val) (j : Nat) :
    Cget (lcsTable rec X Y) 0 j = 0 := by
  rw [lcsTable, Cget]
  simp [List.getD]

theorem Cget_col0 (rec : Val → Val → Val × ℚ) (X Y : List Val) (i : Nat)
    (hi : i ≤ X.length) : Cget (lcsTable rec X Y) i 0 = 0 := by
  cases i with
  | zero => exact Cget_row0 rec X Y 0
  | succ i =>
    rw [lcsTable, Cget]
    simp only [List.getD_cons_succ]
    rw [lcsRows_getD rec Y X _ i (by omega)]
    rfl

theorem Cget_succ (rec : Val → Val → Val × ℚ) (X Y : List Val) (i j : Nat)
    (hi : i < X.length) (hj : j < Y.length) :
    Cget (lcsTable rec X Y) (i+1) (j+1) =
      max (Cget (lcsTable rec X Y) (i+1) j)
        (max (Cget (lcsTable rec X Y) i (j+1))
          (Cget (lcsTable rec X Y) i j +
            (rec (X.getD i (.scalar .null)) (Y.getD j (.scalar .null))).2)) := by
  have hrow : ∀ t, t < X.length →
      (lcsRows rec Y X (List.replicate (Y.length + 1) 0)).getD t [] =
        0 :: lcsRowGo rec (X.getD t (.scalar .null)) Y
          (if t = 0 then List.replicate (Y.length + 1) 0
           else (lcsRows rec Y X (List.replicate (Y.length + 1) 0)).getD (t-1) []) 0 :=
    fun t ht => lcsRows_getD rec Y X (List.replicate (Y.length + 1) 0) t ht
  have hprevlen : (if i = 0 then List.replicate (Y.length + 1) 0
      else (lcsRows rec Y X (List.replicate (Y.length + 1) 0)).getD (i-1) []).length
      = Y.length + 1 := by
    split
    · simp
    · exact lcsRows_length_rows rec Y X _ (by simp) (i-1) (by omega)
  set prevRow := (if i = 0 then List.replicate (Y.length + 1) 0
      else (lcsRows rec Y X (List.replicate (Y.length + 1) 0)).getD (i-1) []) with hprev
  obtain ⟨hglen, hgget⟩ := lcsRowGo_spec rec (X.getD i (.scalar .null)) Y prevRow 0 (by omega)
  have hCrow : ∀ j', Cget (lcsTable rec X Y) (i+1) j' =
      (0 :: lcsRowGo rec (X.getD i (.scalar .null)) Y prevRow 0).getD j' 0 := by
    intro j'
    rw [lcsTable, Cget]
    simp only [List.getD_cons_succ]
    rw [hrow i hi]
  have hCprev : ∀ j', Cget (lcsTable rec X Y) i j' = prevRow.getD j' 0 := by
    intro j'
    cases i with
    | zero =>
      rw [hprev]
      simp only [if_pos rfl]
      rw [Cget_row0]
      rw [List.getD_eq_getElem?_getD]
      rcases lt_or_le j' (Y.length + 1) with h | h
      · simp [List.getElem?_replicate, h]
      · rw [List.getElem?_eq_none (by simpa using h)]
        rfl
    | succ i' =>
      rw [hprev]
      simp only [Nat.succ_ne_zero, if_neg, Nat.add_sub_cancel]
      rw [lcsTable, Cget]
      simp only [List.getD_cons_succ]
      rfl
  rw [hCrow (j+1), hCrow j, hCprev (j+1), hCprev j]
  have := hgget j hj
  simp only [List.getD_cons_succ] at this ⊢
  rw [this]
  cases j with
  | zero => simp
  | succ j => simp


/-! ## Assorted helper lemmas -/

theorem lookupS_append_none {k : Scalar} {l1 l2 : List (Scalar × Val)}
    (h : lookupS k l1 = none) : lookupS k (l1 ++ l2) = lookupS k l2 := by
  induction l1 with
  | nil => rfl
  | cons kv rest ih =>
    obtain ⟨k', v'⟩ := kv
    by_cases hk : k' = k
    · subst hk; simp [lookupS] at h
    · rw [lookupS, if_neg hk] at h
      rw [List.cons_append, lookupS, if_neg hk]
      exact ih h

theorem lookupS_append_some {k : Scalar} {l1 l2 : List (Scalar × Val)} {v : Val}
    (h : lookupS k l1 = some v) : lookupS k (l1 ++ l2) = some v := by
  induction l1 with
  | nil => simp [lookupS] at h
  | cons kv rest ih =>
    obtain ⟨k', v'⟩ := kv
    by_cases hk : k' = k
    · subst hk
      rw [lookupS, if_pos rfl] at h
      rw [List.cons_append, lookupS, if_pos rfl]
      exact h
    · rw [lookupS, if_neg hk] at h
      rw [List.cons_append, lookupS, if_neg hk]
      exact ih h

theorem nodupKeysB_iff_nodup {l : List (Scalar × Val)} :
    nodupKeysB l = true ↔ (l.map Prod.fst).Nodup := by
  induction l with
  | nil => simp [nodupKeysB]
  | cons kv rest ih =>
    obtain ⟨k, v⟩ := kv
    rw [nodupKeysB_cons]
    simp only [List.map_cons, List.nodup_cons, ih]
    constructor
    · rintro ⟨h1, h2⟩
      refine ⟨?_, h2⟩
      intro hmem
      obtain ⟨kv, hkv, hfst⟩ := List.mem_map.1 hmem
      exact h1 kv hkv hfst
    · rintro ⟨h1, h2⟩
      exact ⟨fun kv hkv hfst => h1 (List.mem_map.2 ⟨kv, hkv, hfst⟩), h2⟩

/-- Pigeonhole for duplicate-free lists: a subset of no smaller cardinality is
mutually inclusive. -/
theorem nodup_subset_length {l1 l2 : List Scalar} (h1 : l1.Nodup)
    (hsub : ∀ x ∈ l1, x ∈ l2) (hlen : l2.length ≤ l1.length) :
    ∀ x ∈ l2, x ∈ l1 := by
  intro x hx
  have hfin : l1.toFinset ⊆ l2.toFinset := by
    intro y hy
    rw [List.mem_toFinset] at hy ⊢
    exact hsub y hy
  have hcard1 : l1.toFinset.card = l1.length := List.toFinset_card_of_nodup h1
  have hcard2 : l2.toFinset.card ≤ l2.length := List.toFinset_card_le l2
  have heq : l1.toFinset = l2.toFinset := by
    apply Finset.eq_of_subset_of_card_le hfin
    omega
  rw [← List.mem_toFinset, ← heq, List.mem_toFinset] at hx
  exact hx

theorem beqL_length : ∀ {xs ys : List Val}, beqL xs ys = true → xs.length = ys.length
  | [], [], _ => rfl
  | [], _ :: _, h => by simp [beqL] at h
  | _ :: _, [], h => by simp [beqL] at h
  | x :: xs, y :: ys, h => by
    rw [beqL, Bool.and_eq_true] at h
    simp [beqL_length h.2]

theorem beqL_getD : ∀ {xs ys : List Val}, beqL xs ys = true → ∀ t, t < xs.length →
    beqV (xs.getD t (.scalar .null)) (ys.getD t (.scalar .null)) = true
  | [], [], _, t, ht => by simp at ht
  | [], _ :: _, h, _, _ => by simp [beqL] at h
  | _ :: _, [], h, _, _ => by simp [beqL] at h
  | x :: xs, y :: ys, h, t, ht => by
    rw [beqL, Bool.and_eq_true] at h
    cases t with
    | zero => simpa using h.1
    | succ t => simpa using beqL_getD h.2 t (by simpa using ht)

theorem beqL_append_one {xs ys : List Val} {x y : Val} (h : beqL xs ys = true)
    (hxy : beqV x y = true) : beqL (xs ++ [x]) (ys ++ [y]) = true := by
  induction xs generalizing ys with
  | nil =>
    cases ys with
    | nil => simpa [beqL] using hxy
    | cons b bs => simp [beqL] at h
  | cons a as ih =>
    cases ys with
    | nil => simp [beqL] at h
    | cons b bs =>
      rw [beqL, Bool.and_eq_true] at h
      simpa [beqL, h.1] using ih h.2

/-- `Cget` is zero outside the table. -/
theorem Cget_big_col (rec : Val → Val → Val × ℚ) (X Y : List Val) (i j : Nat)
    (hi : i ≤ X.length) (hj : Y.length + 1 ≤ j) : Cget (lcsTable rec X Y) i j = 0 := by
  cases i with
  | zero =>
    rw [lcsTable, Cget]
    simp only [List.getD_cons_zero]
    rw [List.getD_eq_default]
    simpa using hj
  | succ i =>
    rw [lcsTable, Cget]
    simp only [List.getD_cons_succ]
    rw [List.getD_eq_default]
    rw [lcsRows_length_rows rec Y X _ (by simp) i (by omega)]
    exact hj

/-- The table entries are bounded by both indices when every nested similarity
is at most 1. -/
theorem Cget_le_min (rec : Val → Val → Val × ℚ) (X Y : List Val)
    (hb : ∀ v w, 0 ≤ (rec v w).2 ∧ (rec v w).2 ≤ 1) :
    ∀ i, i ≤ X.length → ∀ j, Cget (lcsTable rec X Y) i j ≤ (i : ℚ) ∧
      Cget (lcsTable rec X Y) i j ≤ (j : ℚ) := by
  intro i
  induction i with
  | zero =>
    intro _ j
    rw [Cget_row0]
    constructor <;> positivity
  | succ i ih =>
    intro hi j
    induction j with
    | zero =>
      rw [Cget_col0 rec X Y _ hi]
      constructor <;> positivity
    | succ j ihj =>
      rcases le_or_lt (Y.length + 1) (j + 1) with hj | hj
      · rw [Cget_big_col rec X Y _ _ hi hj]
        constructor <;> positivity
      · rw [Cget_succ rec X Y i j (by omega) (by omega)]
        obtain ⟨ha1, ha2⟩ := ihj
        obtain ⟨hb1, hb2⟩ := ih (by omega) (j+1)
        obtain ⟨hc1, hc2⟩ := ih (by omega) j
        have hs := hb (X.getD i (.scalar .null)) (Y.getD j (.scalar .null))
        push_cast at ha1 ha2 hb1 hb2 hc1 hc2
        constructor
        · apply max_le
          · push_cast; linarith
          · apply max_le
            · push_cast; linarith
            · push_cast; linarith
        · apply max_le
          · push_cast; linarith
          · apply max_le
            · push_cast; linarith
            · push_cast; linarith


/-! ## Characterization of the dict-diff loop -/

/-- The matched pairs of `_dict_diff`: entries of `a` whose key is present in
`b`, together with the corresponding `b` value. -/
def dmatched (b l : List (Scalar × Val)) : List ((Scalar × Val) × Val) :=
  l.filterMap (fun kv => (lookupS kv.1 b).map (fun w => (kv, w)))

/-- The `changed` mapping accumulated by `_dict_diff`: nested deltas of matched
pairs whose similarity is below 1. -/
def dchanged (rec : Val → Val → Val × ℚ) (b l : List (Scalar × Val)) :
    List (Scalar × Val) :=
  (dmatched b l).filterMap
    (fun p => if (rec p.1.2 p.2).2 < 1 then some (p.1.1, (rec p.1.2 p.2).1) else none)

/-- The matched-weight total of `_dict_diff`: each matched pair contributes
`0.5 + 0.5 * s`. -/
def dweight (rec : Val → Val → Val × ℚ) (b l : List (Scalar × Val)) : ℚ :=
  ((dmatched b l).map (fun p => 1/2 + (rec p.1.2 p.2).2 / 2)).sum

theorem dictDiffLoop_spec (rec : Val → Val → Val × ℚ) (b : List (Scalar × Val))
    (hbv : ∀ kv ∈ b, isSymVal kv.2 = false) :
    ∀ (l : List (Scalar × Val)) (st : DictSt),
      (∀ kv ∈ l, lookupS kv.1 st.changed = none) → nodupKeysB l = true →
      dictDiffLoop rec b l st =
        ⟨st.removed ++ l.filter (fun kv => (lookupS kv.1 b).isNone),
         st.nremoved + (l.filter (fun kv => (lookupS kv.1 b).isNone)).length,
         st.nmatched + (dmatched b l).length,
         st.smatched + dweight rec b l,
         st.changed ++ dchanged rec b l⟩ := by
  intro l
  induction l with
  | nil =>
    intro st _ _
    simp [dictDiffLoop, dmatched, dchanged, dweight]
  | cons kv rest ih =>
    intro st hfresh hnd
    obtain ⟨k, v⟩ := kv
    rw [nodupKeysB_cons] at hnd
    rw [dictDiffLoop]
    cases hlk : lookupS k b with
    | none =>
      rw [ih ⟨st.removed ++ [(k, v)], st.nremoved + 1, st.nmatched, st.smatched, st.changed⟩
        (fun kv hkv => hfresh kv (List.mem_cons_of_mem _ hkv)) hnd.2]
      dsimp only
      have hfl : List.filter (fun kv => (lookupS kv.1 b).isNone) ((k, v) :: rest) =
          (k, v) :: List.filter (fun kv => (lookupS kv.1 b).isNone) rest := by
        rw [List.filter_cons_of_pos]
        simp [hlk]
      have hdm : dmatched b ((k, v) :: rest) = dmatched b rest := by
        rw [dmatched, List.filterMap_cons]
        simp [hlk, dmatched]
      have hdc : dchanged rec b ((k, v) :: rest) = dchanged rec b rest := by
        rw [dchanged, hdm]
        rfl
      have hdw : dweight rec b ((k, v) :: rest) = dweight rec b rest := by
        rw [dweight, hdm]
        rfl
      rw [hfl, hdm, hdc, hdw, DictSt.mk.injEq]
      refine ⟨by simp, by simp [List.length_cons]; omega, rfl, rfl, rfl⟩
    | some w =>
      simp only []
      have hw : isSymVal w = false := hbv _ (lookupS_mem hlk)
      rw [hw]
      simp only [Bool.false_eq_true, if_false]
      have hfl : List.filter (fun kv => (lookupS kv.1 b).isNone) ((k, v) :: rest) =
          List.filter (fun kv => (lookupS kv.1 b).isNone) rest := by
        rw [List.filter_cons_of_neg]
        simp [hlk]
      have hdm : dmatched b ((k, v) :: rest) = ((k, v), w) :: dmatched b rest := by
        rw [dmatched, List.filterMap_cons]
        simp [hlk, dmatched]
      have hchg : setKey st.changed k (rec v w).1 = st.changed ++ [(k, (rec v w).1)] :=
        setKey_of_lookup_none (hfresh (k, v) (List.mem_cons_self _ _))
      have hfresh' : ∀ kv ∈ rest,
          lookupS kv.1 (if (rec v w).2 < 1 then setKey st.changed k (rec v w).1
            else st.changed) = none := by
        intro kv hkv
        split
        · rw [hchg, lookupS_append_none (hfresh kv (List.mem_cons_of_mem _ hkv))]
          rw [lookupS, if_neg (fun he => (hnd.1 kv hkv) he.symm)]
          rfl
        · exact hfresh kv (List.mem_cons_of_mem _ hkv)
      rw [ih ⟨st.removed, st.nremoved, st.nmatched + 1, st.smatched + (1/2 + (rec v w).2 / 2),
          if (rec v w).2 < 1 then setKey st.changed k (rec v w).1 else st.changed⟩
        hfresh' hnd.2]
      dsimp only
      have hdw : dweight rec b ((k, v) :: rest) =
          (1/2 + (rec v w).2 / 2) + dweight rec b rest := by
        rw [dweight, hdm, List.map_cons, List.sum_cons]
        rfl
      have hdc : dchanged rec b ((k, v) :: rest) =
          (if (rec v w).2 < 1 then (k, (rec v w).1) :: dchanged rec b rest
           else dchanged rec b rest) := by
        rw [dchanged, hdm, List.filterMap_cons]
        dsimp only
        by_cases hlt : (rec v w).2 < 1
        · rw [if_pos hlt, if_pos hlt]
          rfl
        · rw [if_neg hlt, if_neg hlt]
          rfl
      rw [hfl, hdm, hdw, hdc, DictSt.mk.injEq]
      refine ⟨rfl, rfl, by simp only [List.length_cons]; omega, by ring, ?_⟩
      split
      · rw [hchg]
        simp
      · rfl


/-- The similarity computed by `_dict_diff`: the matched weight over the number
of removed plus matched plus added keys, or 1 on an empty key union. -/
def dictSim (rec : Val → Val → Val × ℚ) (a b : List (Scalar × Val)) : ℚ :=
  let nTot := (a.filter (fun kv => (lookupS kv.1 b).isNone)).length +
    (dmatched b a).length + (b.filter (fun kv => (lookupS kv.1 a).isNone)).length
  if nTot ≠ 0 then dweight rec b a / nTot else 1

theorem dictDiff_eq (rec : Val → Val → Val × ℚ) (a b : List (Scalar × Val))
    (hbv : ∀ kv ∈ b, isSymVal kv.2 = false) (hnd : nodupKeysB a = true) :
    dictDiff rec a b =
      (emit_dict_diff (.dict a) (.dict b) (dictSim rec a b)
        (b.filter (fun kv => (lookupS kv.1 a).isNone)) (dchanged rec b a)
        (a.filter (fun kv => (lookupS kv.1 b).isNone)),
       dictSim rec a b) := by
  rw [dictDiff, dictDiffLoop_spec rec b hbv a ⟨[], 0, 0, 0, []⟩
    (fun kv _ => rfl) hnd]
  simp only [dictSim, List.nil_append, Nat.zero_add, zero_add]

theorem wfV_not_symVal {v : Val} (h : wfV v = true) : isSymVal v = false := by
  cases v with
  | scalar s =>
    cases s with
    | sym s => simp [wfV, Scalar.isSym] at h
    | _ => rfl
  | _ => rfl

theorem beqD_mem {xs ys : List (Scalar × Val)} (h : beqD xs ys = true)
    {kv : Scalar × Val} (hkv : kv ∈ xs) :
    ∃ w, lookupS kv.1 ys = some w ∧ beqV kv.2 w = true := by
  induction xs with
  | nil => simp at hkv
  | cons kv' rest ih =>
    obtain ⟨k', v'⟩ := kv'
    rw [beqD, Bool.and_eq_true] at h
    rcases List.mem_cons.1 hkv with h1 | h1
    · subst h1
      cases hlk : lookupS k' ys with
      | none => rw [hlk] at h; simp at h
      | some w =>
        rw [hlk] at h
        exact ⟨w, rfl, h.1⟩
    · exact ih h.2 h1

theorem dmatched_mem {b l : List (Scalar × Val)} {p : (Scalar × Val) × Val}
    (h : p ∈ dmatched b l) : p.1 ∈ l ∧ lookupS p.1.1 b = some p.2 := by
  rw [dmatched, List.mem_filterMap] at h
  obtain ⟨kv, hkv, hp⟩ := h
  cases hlk : lookupS kv.1 b with
  | none => rw [hlk] at hp; simp at hp
  | some w =>
    rw [hlk] at hp
    simp only [Option.map_some', Option.some.injEq] at hp
    subst hp
    exact ⟨hkv, hlk⟩

theorem dmatched_length_eq {b l : List (Scalar × Val)}
    (h : ∀ kv ∈ l, (lookupS kv.1 b).isSome) : (dmatched b l).length = l.length := by
  induction l with
  | nil => rfl
  | cons kv rest ih =>
    rw [dmatched, List.filterMap_cons]
    cases hlk : lookupS kv.1 b with
    | none =>
      have := h kv (List.mem_cons_self _ _)
      rw [hlk] at this
      simp at this
    | some w =>
      simp only [Option.map_some']
      rw [List.length_cons, ← dmatched,
        ih (fun kv' hkv' => h kv' (List.mem_cons_of_mem _ hkv'))]
      simp

theorem sum_map_one {α : Type} (l : List α) :
    (l.map (fun _ => (1 : ℚ))).sum = (l.length : ℚ) := by
  induction l with
  | nil => rfl
  | cons x rest ih =>
    simp [ih]
    ring


/-! ## The backtrack on two pointwise-equal sequences is all-diagonal -/

theorem listBack_diagOnly (rec : Val → Val → Val × ℚ) (C : List (List ℚ))
    (X Y : List Val) :
    ∀ (k : Nat),
      (∀ t, t < k → rec (X.getD t (.scalar .null)) (Y.getD t (.scalar .null)) =
        (.dict [], 1)) →
      (∀ t, t ≤ k → Cget C t t = (t : ℚ)) →
      ∀ (fuel : Nat) (r : List Edit), 2 * k ≤ fuel →
      listBack rec C X Y fuel k k r =
        ((List.range k).map (fun t => ⟨0, .dict [], t, 1⟩)) ++ r := by
  intro k
  induction k with
  | zero =>
    intro _ _ fuel r _
    cases fuel with
    | zero => simp [listBack]
    | succ fuel => simp [listBack]
  | succ k ih =>
    intro hdiag hC fuel r hf
    obtain ⟨f', rfl⟩ : ∃ f', fuel = f' + 1 := ⟨fuel - 1, by omega⟩
    rw [listBack]
    have hp : rec (X.getD (k+1-1) (.scalar .null)) (Y.getD (k+1-1) (.scalar .null)) =
        (.dict [], 1) := by
      simpa using hdiag k (by omega)
    rw [if_pos ⟨Nat.succ_pos k, Nat.succ_pos k⟩, hp]
    have hcond : (0:ℚ) < ((Val.dict [], (1:ℚ))).2 ∧
        Cget C (k+1) (k+1) = Cget C (k+1-1) (k+1-1) + ((Val.dict [], (1:ℚ))).2 := by
      refine ⟨by norm_num, ?_⟩
      simp only [Nat.add_sub_cancel]
      rw [hC (k+1) (le_refl _), hC k (by omega)]
      push_cast
      ring
    rw [if_pos hcond]
    dsimp only
    simp only [Nat.add_sub_cancel]
    rw [ih (fun t ht => hdiag t (by omega)) (fun t ht => hC t (by omega)) f'
      (⟨0, Val.dict [], k, 1⟩ :: r) (by omega)]
    rw [List.range_succ, List.map_append]
    simp

theorem listAgg_range (k : Nat) :
    listAgg ((List.range k).map (fun t => (⟨0, .dict [], t, 1⟩ : Edit))) =
      ([], [], [], (k : ℚ)) := by
  induction k with
  | zero => rfl
  | succ k ih =>
    rw [List.range_succ, List.map_append]
    simp only [List.map_cons, List.map_nil]
    rw [listAgg_diag, ih]
    norm_num

theorem listDiff_beq (rec : Val → Val → Val × ℚ) (X Y : List Val)
    (hb : ∀ v w, 0 ≤ (rec v w).2 ∧ (rec v w).2 ≤ 1)
    (hlen : X.length = Y.length)
    (hdiag : ∀ t, t < X.length →
      rec (X.getD t (.scalar .null)) (Y.getD t (.scalar .null)) = (.dict [], 1)) :
    listDiff rec X Y = (.dict [], 1) := by
  have hCtt : ∀ t, t ≤ X.length → Cget (lcsTable rec X Y) t t = (t : ℚ) := by
    intro t
    induction t with
    | zero => intro _; exact Cget_col0 rec X Y 0 (by omega)
    | succ t iht =>
      intro ht
      rw [Cget_succ rec X Y t t (by omega) (by omega), hdiag t (by omega),
        iht (by omega)]
      have h1 : Cget (lcsTable rec X Y) (t+1) t ≤ (t : ℚ) :=
        (Cget_le_min rec X Y hb (t+1) (by omega) t).2
      have h2 : Cget (lcsTable rec X Y) t (t+1) ≤ (t : ℚ) :=
        (Cget_le_min rec X Y hb t (by omega) (t+1)).1
      have h3 : ((Val.dict [], (1:ℚ))).2 = 1 := rfl
      rw [h3]
      rw [max_eq_right (show Cget (lcsTable rec X Y) t (t+1) ≤ (t : ℚ) + 1 by linarith)]
      rw [max_eq_right (show Cget (lcsTable rec X Y) (t+1) t ≤ (t : ℚ) + 1 by linarith)]
      push_cast
      ring
  rw [listDiff, ← hlen]
  rw [listBack_diagOnly rec (lcsTable rec X Y) X Y X.length hdiag hCtt
    (X.length + X.length) [] (by omega)]
  rw [List.append_nil, listAgg_range]
  simp only [List.length_nil, Nat.add_zero]
  by_cases h : X.length = 0
  · rw [if_pos h]
    rw [emit_list_diff, if_neg one_ne_zero, if_pos rfl]
  · rw [if_neg h]
    have : ((X.length : ℚ)) / ((X.length : ℚ)) = 1 := by
      rw [div_self]
      exact_mod_cast h
    rw [this]
    rw [emit_list_diff, if_neg one_ne_zero, if_pos rfl]


theorem setDiff_beq (rec : Val → Val → Val × ℚ) (xs ys : List Scalar)
    (hnx : nodupSc xs = true) (hlen : xs.length = ys.length)
    (hsub : ∀ x ∈ xs, x ∈ ys) : setDiff rec xs ys = (.dict [], 1) := by
  have hrem : xs.filter (fun x => !(ys.contains x)) = [] := by
    rw [List.filter_eq_nil_iff]
    intro x hx
    simp [hsub x hx]
  have hsub2 := nodup_subset_length (nodupSc_iff.1 hnx) hsub (by omega)
  have hadd : ys.filter (fun x => !(xs.contains x)) = [] := by
    rw [List.filter_eq_nil_iff]
    intro y hy
    simp [hsub2 y hy]
  rw [setDiff]
  rw [if_pos (by rw [hrem, hadd]; rfl)]

theorem objDiff_beq : ∀ (fuel : Nat) (a b : Val), sizeOf a ≤ fuel →
    wfV a = true → wfV b = true → beqV a b = true →
    objDiff fuel a b = (.dict [], 1) := by
  intro fuel
  induction fuel with
  | zero =>
    intro a b hsz _ _ _
    exfalso
    have : 0 < sizeOf a := by cases a <;> simp_arith
    omega
  | succ fuel ih =>
    intro a b hsz hwa hwb hbeq
    cases a with
    | scalar sa =>
      cases b with
      | scalar sb =>
        simp only [objDiff]
        rw [if_pos hbeq, emit_value_diff, if_pos rfl]
      | list ys => simp [beqV] at hbeq
      | set ys => simp [beqV] at hbeq
      | dict ys => simp [beqV] at hbeq
    | list xs =>
      cases b with
      | scalar sb => simp [beqV] at hbeq
      | set ys => simp [beqV] at hbeq
      | dict ys => simp [beqV] at hbeq
      | list ys =>
        rw [objDiff_succ_list]
        have hL : beqL xs ys = true := hbeq
        refine listDiff_beq (objDiff fuel) xs ys (objDiff_bounds fuel)
          (beqL_length hL) ?_
        intro t ht
        have hmx : xs.getD t (.scalar .null) ∈ xs := by
          rw [List.getD_eq_getElem?_getD, List.getElem?_eq_getElem ht]
          exact List.getElem_mem ht
        have hty : t < ys.length := by rw [← beqL_length hL]; exact ht
        have hmy : ys.getD t (.scalar .null) ∈ ys := by
          rw [List.getD_eq_getElem?_getD, List.getElem?_eq_getElem hty]
          exact List.getElem_mem hty
        refine ih _ _ ?_ (wfL_mem (wfV_list hwa) hmx) (wfL_mem (wfV_list hwb) hmy)
          (beqL_getD hL t ht)
        have h1 := List.sizeOf_lt_of_mem hmx
        have h2 : sizeOf (Val.list xs) = 1 + sizeOf xs := by
          simp [Val.list.sizeOf_spec]
        omega
    | set xs =>
      cases b with
      | scalar sb => simp [beqV] at hbeq
      | list ys => simp [beqV] at hbeq
      | dict ys => simp [beqV] at hbeq
      | set ys =>
        rw [objDiff_succ_set]
        simp only [beqV, Bool.and_eq_true, decide_eq_true_eq, List.all_eq_true] at hbeq
        refine setDiff_beq (objDiff fuel) xs ys (wfV_set hwa).1 hbeq.1 ?_
        intro x hx
        simpa using hbeq.2 x hx
    | dict xkvs =>
      cases b with
      | scalar sb => simp [beqV] at hbeq
      | list ys => simp [beqV] at hbeq
      | set ys => simp [beqV] at hbeq
      | dict ykvs =>
        rw [objDiff_succ_dict]
        simp only [beqV, Bool.and_eq_true, decide_eq_true_eq] at hbeq
        obtain ⟨hlen, hD⟩ := hbeq
        obtain ⟨hndx, hwdx⟩ := wfV_dict hwa
        obtain ⟨hndy, hwdy⟩ := wfV_dict hwb
        have hbv : ∀ kv ∈ ykvs, isSymVal kv.2 = false :=
          fun kv hkv => wfV_not_symVal (wfD_mem hwdy hkv).2
        rw [dictDiff_eq (objDiff fuel) xkvs ykvs hbv hndx]
        have hrem : xkvs.filter (fun kv => (lookupS kv.1 ykvs).isNone) = [] := by
          rw [List.filter_eq_nil_iff]
          intro kv hkv
          obtain ⟨w, hw, _⟩ := beqD_mem hD hkv
          simp [hw]
        have hsome : ∀ kv ∈ xkvs, (lookupS kv.1 ykvs).isSome := by
          intro kv hkv
          obtain ⟨w, hw, _⟩ := beqD_mem hD hkv
          simp [hw]
        have hmlen : (dmatched ykvs xkvs).length = xkvs.length :=
          dmatched_length_eq hsome
        have hadded : ykvs.filter (fun kv => (lookupS kv.1 xkvs).isNone) = [] := by
          rw [List.filter_eq_nil_iff]
          intro kv hkv
          have hsubk : ∀ k ∈ xkvs.map Prod.fst, k ∈ ykvs.map Prod.fst := by
            intro k hk
            obtain ⟨kv', hkv', hfst⟩ := List.mem_map.1 hk
            obtain ⟨w, hw, _⟩ := beqD_mem hD hkv'
            subst hfst
            exact List.mem_map.2 ⟨(kv'.1, w), lookupS_mem hw, rfl⟩
          have hkeys := nodup_subset_length (nodupKeysB_iff_nodup.1 hndx) hsubk
            (by simp [hlen]) kv.1 (List.mem_map.2 ⟨kv, hkv, rfl⟩)
          obtain ⟨kv', hkv', hfst⟩ := List.mem_map.1 hkeys
          have := @lookupS_isSome_of_mem kv.1 kv'.2 _
            (by rw [← hfst]; exact hkv')
          simp only [Option.isNone_iff_eq_none]
          intro hc
          rw [hc] at this
          simp at this
        have hpair : ∀ p ∈ dmatched ykvs xkvs, objDiff fuel p.1.2 p.2 = (.dict [], 1) := by
          intro p hp
          obtain ⟨hmem, hlk⟩ := dmatched_mem hp
          obtain ⟨w, hw, hbw⟩ := beqD_mem hD hmem
          rw [hw] at hlk
          have hweq : w = p.2 := by simpa using hlk
          subst hweq
          refine ih _ _ ?_ (wfD_mem hwdx hmem).2 (wfD_mem hwdy (lookupS_mem hw)).2 hbw
          have h1 := List.sizeOf_lt_of_mem hmem
          have h2 : sizeOf p.1 = 1 + sizeOf p.1.1 + sizeOf p.1.2 := by
            obtain ⟨q1, q2⟩ := p.1
            rfl
          have h3 : sizeOf (Val.dict xkvs) = 1 + sizeOf xkvs := by
            simp [Val.dict.sizeOf_spec]
          omega
        have hchg : dchanged (objDiff fuel) ykvs xkvs = [] := by
          rw [dchanged, List.filterMap_eq_nil_iff]
          intro p hp
          rw [hpair p hp]
          norm_num
        have hwgt : dweight (objDiff fuel) ykvs xkvs = (xkvs.length : ℚ) := by
          rw [dweight]
          rw [show List.map (fun p => (1:ℚ)/2 + (objDiff fuel p.1.2 p.2).2 / 2)
              (dmatched ykvs xkvs) = List.map (fun _ => (1:ℚ)) (dmatched ykvs xkvs) from
            List.map_congr_left (fun p hp => by rw [hpair p hp]; norm_num)]
          rw [sum_map_one, hmlen]
        have hsim : dictSim (objDiff fuel) xkvs ykvs = 1 := by
          rw [dictSim]
          rw [hrem, hadded, hmlen, hwgt]
          simp only [List.length_nil, Nat.zero_add, Nat.add_zero]
          by_cases h : xkvs.length = 0
          · rw [if_neg (by omega)]
          · rw [if_pos (by omega), div_self (by exact_mod_cast h)]
        rw [hsim, emit_dict_diff, if_neg one_ne_zero, if_pos rfl]


/-! ## Helpers for the rigidity argument: similarity 1 forces equality -/

theorem sum_le_card {α : Type} {l : List α} {f : α → ℚ} (hle : ∀ x ∈ l, f x ≤ 1) :
    (l.map f).sum ≤ (l.length : ℚ) := by
  induction l with
  | nil => simp
  | cons x rest ih =>
    simp only [List.map_cons, List.sum_cons, List.length_cons]
    have h1 := hle x (List.mem_cons_self _ _)
    have h2 := ih (fun y hy => hle y (List.mem_cons_of_mem _ hy))
    push_cast
    linarith

theorem sum_eq_card_imp {α : Type} {l : List α} {f : α → ℚ}
    (hle : ∀ x ∈ l, f x ≤ 1) (hsum : (l.map f).sum = (l.length : ℚ)) :
    ∀ x ∈ l, f x = 1 := by
  induction l with
  | nil => simp
  | cons x rest ih =>
    simp only [List.map_cons, List.sum_cons, List.length_cons] at hsum
    have h1 := hle x (List.mem_cons_self _ _)
    have h2 := sum_le_card (fun y hy => hle y (List.mem_cons_of_mem _ hy))
    push_cast at hsum
    have hx : f x = 1 := by linarith
    have hrest : (rest.map f).sum = (rest.length : ℚ) := by linarith
    intro y hy
    rcases List.mem_cons.1 hy with h | h
    · subst h; exact hx
    · exact ih (fun z hz => hle z (List.mem_cons_of_mem _ hz)) hrest y h

theorem dmatched_partition (b : List (Scalar × Val)) :
    ∀ l : List (Scalar × Val),
      (l.filter (fun kv => (lookupS kv.1 b).isNone)).length +
        (dmatched b l).length = l.length := by
  intro l
  induction l with
  | nil => rfl
  | cons kv rest ih =>
    rw [dmatched, List.filterMap_cons]
    have htail : List.filterMap
        (fun kv => Option.map (fun w => (kv, w)) (lookupS kv.1 b)) rest =
        dmatched b rest := rfl
    cases hlk : lookupS kv.1 b with
    | none =>
      rw [List.filter_cons_of_pos (by simp [hlk])]
      simp only [Option.map_none', List.length_cons, htail]
      omega
    | some w =>
      rw [List.filter_cons_of_neg (by simp [hlk])]
      simp only [Option.map_some', List.length_cons, htail]
      omega

theorem dmatched_mem_of {b l : List (Scalar × Val)} {kv : Scalar × Val} {w : Val}
    (hmem : kv ∈ l) (hlk : lookupS kv.1 b = some w) : (kv, w) ∈ dmatched b l := by
  rw [dmatched, List.mem_filterMap]
  exact ⟨kv, hmem, by rw [hlk]; rfl⟩

theorem beqD_intro : ∀ (xs ys : List (Scalar × Val)),
    (∀ kv ∈ xs, ∃ w, lookupS kv.1 ys = some w ∧ beqV kv.2 w = true) →
    beqD xs ys = true := by
  intro xs ys
  induction xs with
  | nil => intro _; rfl
  | cons kv rest ih =>
    intro h
    obtain ⟨k, v⟩ := kv
    obtain ⟨w, hw, hbw⟩ := h (k, v) (List.mem_cons_self _ _)
    dsimp only at hw hbw
    rw [beqD, hw]
    dsimp only
    rw [hbw, ih (fun kv' hkv' => h kv' (List.mem_cons_of_mem _ hkv'))]
    rfl

theorem nodup_length_le {l1 l2 : List Scalar} (h1 : l1.Nodup)
    (hsub : ∀ x ∈ l1, x ∈ l2) : l1.length ≤ l2.length := by
  have hfin : l1.toFinset ⊆ l2.toFinset := by
    intro y hy
    rw [List.mem_toFinset] at hy ⊢
    exact hsub y hy
  have hcard1 : l1.toFinset.card = l1.length := List.toFinset_card_of_nodup h1
  have hcard2 : l2.toFinset.card ≤ l2.length := List.toFinset_card_le l2
  have := Finset.card_le_card hfin
  omega

/-- A script with no insertions and no deletions whose accumulated similarity
reaches `j` aligns equal prefixes. -/
theorem scr_perfect {rec : Val → Val → Val × ℚ} {X Y : List Val}
    (hb : ∀ v w, 0 ≤ (rec v w).2 ∧ (rec v w).2 ≤ 1)
    (h1 : ∀ i j, i < X.length → j < Y.length →
      (rec (X.getD i (.scalar .null)) (Y.getD j (.scalar .null))).2 = 1 →
      beqV (X.getD i (.scalar .null)) (Y.getD j (.scalar .null)) = true) :
    ∀ {i j : Nat} {S : List Edit}, Scr rec X Y i j S →
      (listAgg S).1.length = 0 → (listAgg S).2.1.length = 0 →
      (j : ℚ) ≤ (listAgg S).2.2.2 →
      beqL (X.take i) (Y.take j) = true ∧ i = j := by
  intro i j S h
  induction h with
  | nil => intro _ _ _; exact ⟨rfl, rfl⟩
  | @diag i j S hs hi hj ih =>
    intro hins hdel htot
    rw [listAgg_diag] at hins hdel htot
    simp only [] at hins hdel htot
    obtain ⟨nd, hc1, hc2, hc3, hc4⟩ := scr_counts hb hs
    have hnd : nd = j := by omega
    have hsv := hb (X.getD i (.scalar .null)) (Y.getD j (.scalar .null))
    have htot' : (j : ℚ) ≤ (listAgg S).2.2.2 := by
      push_cast at htot
      rw [hnd] at hc4
      linarith
    obtain ⟨hbeq, hij⟩ := ih hins hdel htot'
    have hsv1 : (rec (X.getD i (.scalar .null)) (Y.getD j (.scalar .null))).2 = 1 := by
      rw [hnd] at hc4
      push_cast at htot
      linarith
    have hx : X.take (i+1) = X.take i ++ [X.getD i (.scalar .null)] := by
      rw [List.take_succ, List.getD_eq_getElem?_getD, List.getElem?_eq_getElem hi]
      rfl
    have hy : Y.take (j+1) = Y.take j ++ [Y.getD j (.scalar .null)] := by
      rw [List.take_succ, List.getD_eq_getElem?_getD, List.getElem?_eq_getElem hj]
      rfl
    refine ⟨?_, by omega⟩
    rw [hx, hy]
    exact beqL_append_one hbeq (h1 i j hi hj hsv1)
  | @ins i j S hs hj ih =>
    intro hins _ _
    rw [listAgg_ins] at hins
    simp at hins
  | @del i j S hs hi ih =>
    intro _ hdel _
    rw [listAgg_del] at hdel
    simp at hdel

theorem greedy_no_added : ∀ (ranking : List (ℚ × Scalar × Scalar))
    (st : List Scalar × List Scalar × ℚ), st.2.1 = [] →
    ranking.foldl greedyStep st = st := by
  intro ranking
  induction ranking with
  | nil => intro st _; rfl
  | cons t rest ih =>
    intro st hst
    rw [List.foldl_cons]
    have : greedyStep st t = st := by
      rw [greedyStep, hst]
      simp
    rw [this]
    exact ih st hst


/-! ## Similarity 1 implies Python equality -/

theorem objDiff_s1_beq : ∀ (fuel : Nat) (a b : Val), wfV a = true → wfV b = true →
    (objDiff fuel a b).2 = 1 → beqV a b = true := by
  intro fuel
  induction fuel with
  | zero => intro a b _ _ hs; simp [objDiff] at hs
  | succ fuel ih =>
    intro a b hwa hwb hs
    cases a with
    | scalar sa =>
      cases b with
      | scalar sb =>
        by_cases hbq : beqV (Val.scalar sa) (Val.scalar sb) = true
        · exact hbq
        · simp only [objDiff] at hs
          rw [if_neg hbq] at hs
          norm_num at hs
      | list ys => simp [objDiff, beqV] at hs
      | set ys => simp [objDiff, beqV] at hs
      | dict ys => simp [objDiff, beqV] at hs
    | list xs =>
      cases b with
      | scalar sb => simp [objDiff, beqV] at hs
      | set ys => simp [objDiff, beqV] at hs
      | dict ys => simp [objDiff, beqV] at hs
      | list ys =>
        rw [objDiff_succ_list, listDiff_snd] at hs
        obtain ⟨S, hS, hscr⟩ := listBack_spec (objDiff fuel)
          (lcsTable (objDiff fuel) xs ys) xs ys
          (xs.length + ys.length) xs.length ys.length [] (le_refl _) (le_refl _) (le_refl _)
        rw [List.append_nil] at hS
        rw [hS] at hs
        obtain ⟨nd, hc1, hc2, hc3, hc4⟩ := scr_counts (objDiff_bounds fuel) hscr
        by_cases h0 : xs.length + (listAgg S).1.length = 0
        · rw [if_pos h0] at hs
          have hxs : xs = [] := List.length_eq_zero.1 (by omega)
          have hys : ys = [] := List.length_eq_zero.1 (by omega)
          subst hxs; subst hys
          rfl
        · rw [if_neg h0] at hs
          have hpos : (0:ℚ) < ((xs.length + (listAgg S).1.length : ℕ) : ℚ) := by
            exact_mod_cast Nat.pos_of_ne_zero h0
          have htots : (listAgg S).2.2.2 = ((xs.length + (listAgg S).1.length : ℕ) : ℚ) :=
            (div_eq_one_iff_eq (ne_of_gt hpos)).1 hs
          have hcast : xs.length + (listAgg S).1.length ≤ nd := by
            have : ((xs.length + (listAgg S).1.length : ℕ) : ℚ) ≤ (nd : ℚ) := by
              rw [← htots]; exact hc4
            exact_mod_cast this
          have hI : (listAgg S).1.length = 0 := by omega
          have hD : (listAgg S).2.1.length = 0 := by omega
          have hxy : xs.length = ys.length := by omega
          have hyle : (ys.length : ℚ) ≤ (listAgg S).2.2.2 := by
            rw [htots]
            have : ys.length ≤ xs.length + (listAgg S).1.length := by omega
            exact_mod_cast this
          have hdiagbeq : ∀ i j, i < xs.length → j < ys.length →
              (objDiff fuel (xs.getD i (.scalar .null)) (ys.getD j (.scalar .null))).2 = 1 →
              beqV (xs.getD i (.scalar .null)) (ys.getD j (.scalar .null)) = true := by
            intro i j hi hj h1
            have hmx : xs.getD i (.scalar .null) ∈ xs := by
              rw [List.getD_eq_getElem?_getD, List.getElem?_eq_getElem hi]
              exact List.getElem_mem hi
            have hmy : ys.getD j (.scalar .null) ∈ ys := by
              rw [List.getD_eq_getElem?_getD, List.getElem?_eq_getElem hj]
              exact List.getElem_mem hj
            exact ih _ _ (wfL_mem (wfV_list hwa) hmx) (wfL_mem (wfV_list hwb) hmy) h1
          obtain ⟨hbl, _⟩ := scr_perfect (objDiff_bounds fuel) hdiagbeq hscr hI hD hyle
          rw [List.take_length, List.take_length] at hbl
          exact hbl
    | set xs =>
      cases b with
      | scalar sb => simp [objDiff, beqV] at hs
      | list ys => simp [objDiff, beqV] at hs
      | dict ys => simp [objDiff, beqV] at hs
      | set ys =>
        rw [objDiff_succ_set, setDiff] at hs
        by_cases hcond : ((xs.filter (fun x => !(ys.contains x))).isEmpty &&
            (ys.filter (fun x => !(xs.contains x))).isEmpty) = true
        · rw [Bool.and_eq_true, List.isEmpty_iff, List.isEmpty_iff] at hcond
          have hxsub : ∀ x ∈ xs, x ∈ ys := by
            intro x hx
            by_contra hc
            have : x ∈ xs.filter (fun x => !(ys.contains x)) :=
              List.mem_filter.2 ⟨hx, by simp [hc]⟩
            rw [hcond.1] at this
            simp at this
          have hysub : ∀ y ∈ ys, y ∈ xs := by
            intro y hy
            by_contra hc
            have : y ∈ ys.filter (fun x => !(xs.contains x)) :=
              List.mem_filter.2 ⟨hy, by simp [hc]⟩
            rw [hcond.2] at this
            simp at this
          have hlen : xs.length = ys.length :=
            le_antisymm (nodup_length_le (nodupSc_iff.1 (wfV_set hwa).1) hxsub)
              (nodup_length_le (nodupSc_iff.1 (wfV_set hwb).1) hysub)
          simp only [beqV, Bool.and_eq_true, decide_eq_true_eq, List.all_eq_true]
          exact ⟨hlen, fun x hx => by simpa using hxsub x hx⟩
        · rw [if_neg hcond] at hs
          exfalso
          rw [setSim] at hs
          dsimp only at hs
          set removed := xs.filter (fun x => !(ys.contains x)) with hrem
          set added := ys.filter (fun x => !(xs.contains x)) with hadd
          by_cases hA : added = []
          · have hremne : ¬ removed.isEmpty = true := by
              intro hre
              rw [Bool.and_eq_true] at hcond
              exact hcond ⟨hre, by rw [hA]; rfl⟩
            have hfold := greedy_no_added (setRanking (objDiff fuel) removed added)
              (removed, added, ((xs.length : ℚ) - removed.length)) (by simpa using hA)
            rw [hfold] at hs
            have hlen0 : 0 < removed.length := by
              cases hr : removed with
              | nil => rw [hr] at hremne; simp at hremne
              | cons z zs => simp [hr]
            have hrle : removed.length ≤ xs.length := by
              rw [hrem]; exact List.length_filter_le _ _
            rw [hA] at hs
            simp only [List.length_nil, Nat.add_zero] at hs
            have hxpos : xs.length ≠ 0 := by omega
            rw [if_pos hxpos] at hs
            have hxq : (0:ℚ) < (xs.length : ℚ) := by
              exact_mod_cast Nat.pos_of_ne_zero hxpos
            have := (div_eq_one_iff_eq (ne_of_gt hxq)).1 hs
            have hcontra : ((removed.length : ℚ)) = 0 := by linarith
            have : removed.length = 0 := by exact_mod_cast hcontra
            omega
          · have hinv := greedyFold_inv (setRanking (objDiff fuel) removed added)
              (removed, added, ((xs.length : ℚ) - removed.length)) ((xs.length : ℚ))
              (setRanking_bounds (objDiff_bounds fuel) removed added)
              (by
                have : removed.length ≤ xs.length := by
                  rw [hrem]; exact List.length_filter_le _ _
                have h2 : ((removed.length : ℕ) : ℚ) ≤ ((xs.length : ℕ) : ℚ) := by
                  exact_mod_cast this
                dsimp only
                linarith)
              (by dsimp only; linarith)
            have haddpos : 0 < added.length := by
              cases ha : added with
              | nil => exact absurd ha hA
              | cons z zs => simp [ha]
            have hntot : xs.length + added.length ≠ 0 := by omega
            rw [if_pos hntot] at hs
            have hnq : (0:ℚ) < ((xs.length + added.length : ℕ) : ℚ) := by
              exact_mod_cast Nat.pos_of_ne_zero hntot
            have heq := (div_eq_one_iff_eq (ne_of_gt hnq)).1 hs
            have h1 := hinv.2
            have hflen : (0:ℚ) ≤ (((setRanking (objDiff fuel) removed added).foldl greedyStep
                (removed, added, ((xs.length : ℚ) - removed.length))).1.length : ℚ) := by
              positivity
            have haq : (1:ℚ) ≤ ((added.length : ℕ) : ℚ) := by
              exact_mod_cast haddpos
            push_cast at heq h1 haq
            linarith
    | dict xkvs =>
      cases b with
      | scalar sb => simp [objDiff, beqV] at hs
      | list ys => simp [objDiff, beqV] at hs
      | set ys => simp [objDiff, beqV] at hs
      | dict ykvs =>
        obtain ⟨hndx, hwdx⟩ := wfV_dict hwa
        obtain ⟨hndy, hwdy⟩ := wfV_dict hwb
        have hbv : ∀ kv ∈ ykvs, isSymVal kv.2 = false :=
          fun kv hkv => wfV_not_symVal (wfD_mem hwdy hkv).2
        rw [objDiff_succ_dict, dictDiff_eq (objDiff fuel) xkvs ykvs hbv hndx] at hs
        rw [dictSim] at hs
        set R := xkvs.filter (fun kv => (lookupS kv.1 ykvs).isNone) with hR
        set A := ykvs.filter (fun kv => (lookupS kv.1 xkvs).isNone) with hA
        set M := dmatched ykvs xkvs with hM
        have hpart : R.length + M.length = xkvs.length := by
          rw [hR, hM]; exact dmatched_partition ykvs xkvs
        have hparty : A.length + (dmatched xkvs ykvs).length = ykvs.length := by
          rw [hA]; exact dmatched_partition xkvs ykvs
        have hble : ∀ p ∈ M, (1:ℚ)/2 + (objDiff fuel p.1.2 p.2).2 / 2 ≤ 1 := by
          intro p _
          have := (objDiff_bounds fuel p.1.2 p.2).2
          linarith
        by_cases h0 : R.length + M.length + A.length ≠ 0
        · rw [if_pos h0] at hs
          have hnq : (0:ℚ) < ((R.length + M.length + A.length : ℕ) : ℚ) := by
            exact_mod_cast Nat.pos_of_ne_zero h0
          have heq := (div_eq_one_iff_eq (ne_of_gt hnq)).1 hs
          have hsumle : dweight (objDiff fuel) ykvs xkvs ≤ (M.length : ℚ) := by
            rw [dweight, ← hM]
            exact sum_le_card hble
          have hR0 : R.length = 0 ∧ A.length = 0 := by
            constructor <;>
            · by_contra hc
              have : (M.length : ℚ) < ((R.length + M.length + A.length : ℕ) : ℚ) := by
                have : M.length < R.length + M.length + A.length := by omega
                exact_mod_cast this
              linarith [heq, hsumle]
          have hsum : dweight (objDiff fuel) ykvs xkvs = (M.length : ℚ) := by
            rw [heq]
            congr 1
            omega
          have hall : ∀ p ∈ M, (1:ℚ)/2 + (objDiff fuel p.1.2 p.2).2 / 2 = 1 := by
            have := @sum_eq_card_imp _ M
              (fun p => (1:ℚ)/2 + (objDiff fuel p.1.2 p.2).2 / 2) hble
            refine this ?_
            rw [← hsum, dweight, ← hM]
          have hpairbeq : ∀ p ∈ M, beqV p.1.2 p.2 = true := by
            intro p hp
            have hp1 := hall p hp
            have hs1 : (objDiff fuel p.1.2 p.2).2 = 1 := by linarith
            obtain ⟨hmem, hlk⟩ := dmatched_mem (hM ▸ hp)
            exact ih _ _ (wfD_mem hwdx hmem).2
              (wfD_mem hwdy (lookupS_mem hlk)).2 hs1
          have hxsome : ∀ kv ∈ xkvs, ∃ w, lookupS kv.1 ykvs = some w ∧ beqV kv.2 w = true := by
            intro kv hkv
            cases hlk : lookupS kv.1 ykvs with
            | none =>
              exfalso
              have : kv ∈ R := by
                rw [hR]
                exact List.mem_filter.2 ⟨hkv, by simp [hlk]⟩
              have := List.length_pos_of_mem this
              omega
            | some w =>
              refine ⟨w, rfl, ?_⟩
              have hpm : (kv, w) ∈ M := hM ▸ dmatched_mem_of hkv hlk
              exact hpairbeq (kv, w) hpm
          have hlen : xkvs.length = ykvs.length := by
            have hsub1 : ∀ k ∈ xkvs.map Prod.fst, k ∈ ykvs.map Prod.fst := by
              intro k hk
              obtain ⟨kv, hkv, hfst⟩ := List.mem_map.1 hk
              obtain ⟨w, hw, _⟩ := hxsome kv hkv
              subst hfst
              exact List.mem_map.2 ⟨(kv.1, w), lookupS_mem hw, rfl⟩
            have hsub2 : ∀ k ∈ ykvs.map Prod.fst, k ∈ xkvs.map Prod.fst := by
              intro k hk
              obtain ⟨kv, hkv, hfst⟩ := List.mem_map.1 hk
              have : ¬ kv ∈ A := by
                intro hc
                have := List.length_pos_of_mem hc
                omega
              rw [hA] at this
              have hlk : ¬ (lookupS kv.1 xkvs).isNone = true := by
                intro hc
                exact this (List.mem_filter.2 ⟨hkv, by simpa using hc⟩)
              cases hlk2 : lookupS kv.1 xkvs with
              | none => rw [hlk2] at hlk; simp at hlk
              | some v =>
                subst hfst
                exact List.mem_map.2 ⟨(kv.1, v), lookupS_mem hlk2, rfl⟩
            have h1 := nodup_length_le (nodupKeysB_iff_nodup.1 hndx) hsub1
            have h2 := nodup_length_le (nodupKeysB_iff_nodup.1 hndy) hsub2
            simp only [List.length_map] at h1 h2
            omega
          have hbd := beqD_intro xkvs ykvs hxsome
          simp [beqV, hlen, hbd]
        · rw [if_neg h0] at hs
          push_neg at h0
          have hx0 : xkvs = [] := List.length_eq_zero.1 (by omega)
          have hy0 : ykvs = [] := by
            refine List.length_eq_zero.1 ?_
            have hA0 : A.length = 0 := by omega
            subst hx0
            have : (dmatched [] ykvs).length = 0 := by
              rw [List.length_eq_zero, dmatched, List.filterMap_eq_nil_iff]
              intro kv _
              rfl
            omega
          subst hx0; subst hy0
          rfl


/-! ## Lemmas about the sequence-patch primitives -/

theorem pyPop_nat_lt {A : List Val} {p : Nat} (h : p < A.length) :
    pyPop A (p : Int) = some (A.take p ++ A.drop (p+1)) := by
  rw [pyPop]
  have h0 : ¬ ((p : Int) < 0) := by omega
  simp only [if_neg h0]
  rw [if_pos (by constructor <;> [omega; exact_mod_cast h])]
  congr 2 <;> simp

theorem pyPop_nat_some {A A' : List Val} {p : Nat}
    (h : pyPop A (p : Int) = some A') :
    p < A.length ∧ A' = A.take p ++ A.drop (p+1) := by
  rw [pyPop] at h
  have h0 : ¬ ((p : Int) < 0) := by omega
  simp only [if_neg h0] at h
  by_cases hlt : (0 : Int) ≤ (p : Int) ∧ (p : Int) < A.length
  · rw [if_pos hlt] at h
    have hp : p < A.length := by exact_mod_cast hlt.2
    refine ⟨hp, ?_⟩
    have : (Int.toNat p) = p := by omega
    rw [this] at h
    exact (Option.some.injEq _ _ ▸ h).symm
  · rw [if_neg hlt] at h
    simp at h

theorem pyPop_append {A A' : List Val} {p : Nat} {x : Val}
    (h : pyPop A (p : Int) = some A') :
    pyPop (A ++ [x]) (p : Int) = some (A' ++ [x]) := by
  obtain ⟨hp, rfl⟩ := pyPop_nat_some h
  rw [pyPop_nat_lt (by simp; omega)]
  rw [List.take_append_of_le_length (by omega),
    List.drop_append_of_le_length (by omega)]
  simp

theorem pyPop_last (A : List Val) (x : Val) :
    pyPop (A ++ [x]) ((A.length : Nat) : Int) = some A := by
  rw [pyPop_nat_lt (by simp)]
  rw [List.take_append_of_le_length (by omega)]
  simp

theorem popAll_append_last : ∀ (ds : List Val) (A M : List Val) (x : Val),
    (∀ d ∈ ds, ∃ p : Nat, d = vN p) →
    popAll A ds = some M → popAll (A ++ [x]) ds = some (M ++ [x]) := by
  intro ds
  induction ds with
  | nil =>
    intro A M x _ h
    rw [popAll] at h ⊢
    rw [Option.some.injEq] at h
    rw [h]
  | cons d rest ih =>
    intro A M x hnat h
    obtain ⟨p, rfl⟩ := hnat d (List.mem_cons_self _ _)
    rw [popAll] at h ⊢
    have hasI : asIdx (vN p) = some ((p : Nat) : Int) := rfl
    rw [hasI] at h ⊢
    simp only [Option.some_bind] at h ⊢
    cases hpop : pyPop A ((p : Nat) : Int) with
    | none => rw [hpop] at h; simp at h
    | some A1 =>
      rw [hpop] at h
      rw [pyPop_append hpop]
      simp only [Option.some_bind] at h ⊢
      exact ih A1 M x (fun d hd => hnat d (List.mem_cons_of_mem _ hd)) h

theorem popAll_cons_last (A : List Val) (x : Val) (ds : List Val) :
    popAll (A ++ [x]) (vN (A.length) :: ds) = popAll A ds := by
  rw [popAll]
  have hasI : asIdx (vN (A.length)) = some ((A.length : Nat) : Int) := rfl
  rw [hasI]
  simp only [Option.some_bind]
  rw [pyPop_last]
  simp only [Option.some_bind]

theorem pyInsertAt_nat_le {M : List Val} {p : Nat} (h : p ≤ M.length) (v : Val) :
    pyInsertAt M (p : Int) v = M.take p ++ v :: M.drop p := by
  rw [pyInsertAt]
  have h0 : ¬ ((p : Int) < 0) := by omega
  simp only [if_neg h0]
  have : min ((p : Nat) : Int) (M.length : Int) = (p : Int) := by omega
  rw [this]
  congr 2 <;> simp

theorem pyInsertAt_end (M : List Val) (v : Val) :
    pyInsertAt M ((M.length : Nat) : Int) v = M ++ [v] := by
  rw [pyInsertAt_nat_le (le_refl _)]
  simp

theorem pyInsertAt_append {M : List Val} {p : Nat} (h : p ≤ M.length) (v x : Val) :
    pyInsertAt (M ++ [x]) (p : Int) v = pyInsertAt M (p : Int) v ++ [x] := by
  rw [pyInsertAt_nat_le (by simp; omega), pyInsertAt_nat_le h]
  rw [List.take_append_of_le_length (by omega),
    List.drop_append_of_le_length (by omega)]
  simp

theorem pyInsertAt_nat_length {M : List Val} {p : Nat} (h : p ≤ M.length) (v : Val) :
    (pyInsertAt M (p : Int) v).length = M.length + 1 := by
  rw [pyInsertAt_nat_le h]
  simp
  omega

/-- Every insertion position fits the running length, so no clamping occurs. -/
def insFits : Nat → List (Nat × Val) → Prop
  | _, [] => True
  | len, (p, _) :: rest => p ≤ len ∧ insFits (len+1) rest

theorem insFits_mono : ∀ {l : List (Nat × Val)} {n m : Nat}, insFits n l → n ≤ m →
    insFits m l := by
  intro l
  induction l with
  | nil => intro n m _ _; trivial
  | cons pv rest ih =>
    intro n m h hnm
    obtain ⟨p, v⟩ := pv
    exact ⟨le_trans h.1 hnm, ih h.2 (by omega)⟩

theorem insFits_append : ∀ {l : List (Nat × Val)} {n p : Nat} {v : Val},
    insFits n l → p ≤ n + l.length → insFits n (l ++ [(p, v)]) := by
  intro l
  induction l with
  | nil => intro n p v _ hp; exact ⟨by simpa using hp, trivial⟩
  | cons pv rest ih =>
    intro n p v h hp
    obtain ⟨q, w⟩ := pv
    exact ⟨h.1, ih h.2 (by simp at hp ⊢; omega)⟩

def encPair (pv : Nat × Val) : Val := Val.list [vN pv.1, pv.2]

theorem insAll_some_length : ∀ (ins : List (Nat × Val)) (M : List Val),
    ∃ Z, insAll M (ins.map encPair) = some Z ∧ Z.length = M.length + ins.length := by
  intro ins
  induction ins with
  | nil => intro M; exact ⟨M, rfl, by simp⟩
  | cons pv rest ih =>
    intro M
    obtain ⟨p, v⟩ := pv
    rw [List.map_cons]
    rw [show encPair (p, v) = Val.list [vN p, v] from rfl]
    rw [insAll]
    have hasI : asIdx (vN p) = some ((p : Nat) : Int) := rfl
    rw [hasI]
    simp only [Option.some_bind]
    obtain ⟨Z, hZ, hlen⟩ := ih (pyInsertAt M ((p : Nat) : Int) v)
    refine ⟨Z, hZ, ?_⟩
    rw [hlen]
    have hple : (pyInsertAt M ((p:Nat) : Int) v).length = M.length + 1 := by
      rw [pyInsertAt]
      have h0 : ¬ (((p:Nat) : Int) < 0) := by omega
      simp only [if_neg h0]
      have hle : (min ((p:Nat) : Int) (M.length : Int)).toNat ≤ M.length := by omega
      simp only [List.length_append, List.length_cons, List.length_take, List.length_drop]
      omega
    rw [hple]
    simp
    omega

theorem insAll_append_last : ∀ (ins : List (Nat × Val)) (M : List Val) (x : Val),
    insFits M.length ins →
    insAll (M ++ [x]) (ins.map encPair) =
      (insAll M (ins.map encPair)).map (· ++ [x]) := by
  intro ins
  induction ins with
  | nil => intro M x _; rfl
  | cons pv rest ih =>
    intro M x hfit
    obtain ⟨p, v⟩ := pv
    rw [List.map_cons, show encPair (p, v) = Val.list [vN p, v] from rfl]
    rw [insAll, insAll]
    have hasI : asIdx (vN p) = some ((p : Nat) : Int) := rfl
    rw [hasI]
    simp only [Option.some_bind]
    rw [pyInsertAt_append hfit.1]
    rw [ih _ x (by
      rw [pyInsertAt_nat_length hfit.1]
      exact hfit.2)]

theorem insAll_enc_snoc : ∀ (ins : List (Nat × Val)) (M : List Val) (q : Nat × Val),
    insAll M ((ins.map encPair) ++ [encPair q]) =
      (insAll M (ins.map encPair)).bind (fun z => insAll z [encPair q]) := by
  intro ins
  induction ins with
  | nil => intro M q; rfl
  | cons pv rest ih =>
    intro M q
    obtain ⟨p, v⟩ := pv
    rw [List.map_cons, List.cons_append]
    rw [show encPair (p, v) = Val.list [vN p, v] from rfl]
    rw [insAll, insAll]
    have hasI : asIdx (vN p) = some ((p : Nat) : Int) := rfl
    rw [hasI]
    simp only [Option.some_bind]
    exact ih _ q


/-! ## Lemmas about the positional-update phase -/

theorem getIdx_nat_lt {Z : List Val} {p : Nat} (h : p < Z.length) :
    getIdx Z (p : Int) = some (Z.getD p (.scalar .null)) := by
  rw [getIdx]
  have h0 : ¬ ((p : Int) < 0) := by omega
  simp only [if_neg h0]
  rw [dif_pos (by constructor <;> omega)]
  congr 1
  rw [List.getD_eq_getElem?_getD, List.getElem?_eq_getElem h]
  simp

theorem getIdx_append_left {Z : List Val} {p : Nat} (h : p < Z.length) (x : Val) :
    getIdx (Z ++ [x]) (p : Int) = getIdx Z (p : Int) := by
  rw [getIdx_nat_lt (by simp; omega), getIdx_nat_lt h]
  congr 1
  rw [List.getD_eq_getElem?_getD, List.getD_eq_getElem?_getD,
    List.getElem?_eq_getElem h, List.getElem?_eq_getElem (show p < (Z ++ [x]).length by simp; omega)]
  simp only [Option.getD_some]
  exact List.getElem_append_left h

theorem getIdx_concat (Z : List Val) (x : Val) :
    getIdx (Z ++ [x]) ((Z.length : Nat) : Int) = some x := by
  rw [getIdx_nat_lt (by simp)]
  congr 1
  rw [List.getD_eq_getElem?_getD, List.getElem?_eq_getElem (show Z.length < (Z ++ [x]).length by simp)]
  simp

theorem pySetIdx_nat_lt {Z : List Val} {p : Nat} (h : p < Z.length) (v : Val) :
    pySetIdx Z (p : Int) v = some (Z.take p ++ v :: Z.drop (p+1)) := by
  rw [pySetIdx]
  have h0 : ¬ ((p : Int) < 0) := by omega
  simp only [if_neg h0]
  rw [if_pos (by constructor <;> omega)]
  congr 3 <;> simp

theorem pySetIdx_append_left {Z : List Val} {p : Nat} (h : p < Z.length) (v x : Val) :
    pySetIdx (Z ++ [x]) (p : Int) v = (pySetIdx Z (p : Int) v).map (· ++ [x]) := by
  rw [pySetIdx_nat_lt (by simp; omega), pySetIdx_nat_lt h]
  rw [List.take_append_of_le_length (by omega),
    List.drop_append_of_le_length (by omega)]
  simp

theorem pySetIdx_concat (Z : List Val) (v x : Val) :
    pySetIdx (Z ++ [x]) ((Z.length : Nat) : Int) v = some (Z ++ [v]) := by
  rw [pySetIdx_nat_lt (by simp)]
  rw [List.take_append_of_le_length (by omega)]
  simp

theorem pySetIdx_length {Z Z' : List Val} {i : Int} {v : Val}
    (h : pySetIdx Z i v = some Z') : Z'.length = Z.length := by
  rw [pySetIdx] at h
  by_cases hc : 0 ≤ (if i < 0 then i + Z.length else i) ∧
      (if i < 0 then i + Z.length else i) < Z.length
  · rw [if_pos hc] at h
    rw [Option.some.injEq] at h
    subst h
    simp only [List.length_append, List.length_cons, List.length_take, List.length_drop]
    omega
  · rw [if_neg hc] at h
    simp at h

theorem patchChanged_append (l1 l2 : List (Scalar × Val)) : ∀ (Z : List Val),
    patchChanged Z (l1 ++ l2) = (patchChanged Z l1).bind (fun z => patchChanged z l2) := by
  induction l1 with
  | nil => intro Z; simp [patchChanged]
  | cons kv rest ih =>
    intro Z
    obtain ⟨k, v⟩ := kv
    rw [List.cons_append, patchChanged, patchChanged]
    by_cases hk : k = .sym .delete ∨ k = .sym .insert
    · rw [if_pos hk, if_pos hk]
      exact ih Z
    · rw [if_neg hk, if_neg hk]
      cases hI : asInt k with
      | none => rfl
      | some i =>
        simp only [Option.some_bind]
        cases hg : getIdx Z i with
        | none => rfl
        | some av =>
          simp only [Option.some_bind]
          cases hp : patchV av v with
          | none => rfl
          | some w =>
            simp only [Option.some_bind]
            cases hset : pySetIdx Z i w with
            | none => rfl
            | some Z' =>
              simp only [Option.some_bind]
              exact ih Z'

theorem patchChanged_markers : ∀ (l : List (Scalar × Val)) (Z : List Val),
    (∀ kv ∈ l, kv.1 = .sym .delete ∨ kv.1 = .sym .insert) →
    patchChanged Z l = some Z := by
  intro l
  induction l with
  | nil => intro Z _; rw [patchChanged]
  | cons kv rest ih =>
    intro Z hm
    obtain ⟨k, v⟩ := kv
    rw [patchChanged, if_pos (hm (k, v) (List.mem_cons_self _ _))]
    exact ih Z (fun kv hkv => hm kv (List.mem_cons_of_mem _ hkv))

theorem patchChanged_length : ∀ (l : List (Scalar × Val)) (Z W : List Val),
    patchChanged Z l = some W → W.length = Z.length := by
  intro l
  induction l with
  | nil =>
    intro Z W h
    rw [patchChanged, Option.some.injEq] at h
    rw [← h]
  | cons kv rest ih =>
    intro Z W h
    obtain ⟨k, v⟩ := kv
    rw [patchChanged] at h
    by_cases hk : k = .sym .delete ∨ k = .sym .insert
    · rw [if_pos hk] at h
      exact ih Z W h
    · rw [if_neg hk] at h
      cases hI : asInt k with
      | none => rw [hI] at h; simp at h
      | some i =>
        rw [hI] at h
        simp only [Option.some_bind] at h
        cases hg : getIdx Z i with
        | none => rw [hg] at h; simp at h
        | some av =>
          rw [hg] at h
          simp only [Option.some_bind] at h
          cases hp : patchV av v with
          | none => rw [hp] at h; simp at h
          | some w =>
            rw [hp] at h
            simp only [Option.some_bind] at h
            cases hset : pySetIdx Z i w with
            | none => rw [hset] at h; simp at h
            | some Z' =>
              rw [hset] at h
              simp only [Option.some_bind] at h
              rw [ih Z' W h, pySetIdx_length hset]

theorem patchChanged_append_last : ∀ (l : List (Scalar × Val)) (Z : List Val) (x : Val),
    (∀ kv ∈ l, ∃ p : Nat, kv.1 = .num p ∧ p < Z.length) →
    patchChanged (Z ++ [x]) l = (patchChanged Z l).map (· ++ [x]) := by
  intro l
  induction l with
  | nil => intro Z x _; simp [patchChanged]
  | cons kv rest ih =>
    intro Z x hkeys
    obtain ⟨k, v⟩ := kv
    obtain ⟨p, hk, hp⟩ := hkeys (k, v) (List.mem_cons_self _ _)
    subst hk
    rw [patchChanged, patchChanged]
    have hnm : ¬ ((Scalar.num p) = .sym .delete ∨ (Scalar.num p) = .sym .insert) := by
      simp
    rw [if_neg hnm, if_neg hnm]
    have hI : asInt (.num (p : Int)) = some ((p : Nat) : Int) := rfl
    rw [show ((p : Nat) : Int) = (p : Int) from rfl] at hI
    rw [hI]
    simp only [Option.some_bind]
    rw [getIdx_append_left hp]
    cases hg : getIdx Z (p : Int) with
    | none => rfl
    | some av =>
      simp only [Option.some_bind]
      cases hpv : patchV av v with
      | none => rfl
      | some w =>
        simp only [Option.some_bind]
        rw [pySetIdx_append_left hp]
        cases hset : pySetIdx Z (p : Int) w with
        | none => rfl
        | some Z' =>
          simp only [Option.map_some', Option.some_bind]
          rw [ih Z' x (fun kv hkv => by
            obtain ⟨q, hq1, hq2⟩ := hkeys kv (List.mem_cons_of_mem _ hkv)
            exact ⟨q, hq1, by rw [pySetIdx_length hset]; exact hq2⟩)]

/-! ## Reduction lemmas for the well-founded `patch` group -/

theorem patchV_nondict (a d : Val) (h : isDict d = false) : patchV a d = some d := by
  cases d with
  | dict kvs => simp [isDict] at h
  | scalar s => rw [patchV]; intro d1 hc; exact Val.noConfusion hc
  | list xs => rw [patchV]; intro d1 hc; exact Val.noConfusion hc
  | set xs => rw [patchV]; intro d1 hc; exact Val.noConfusion hc

theorem patchV_dict_dict (akvs : List (Scalar × Val)) (d : List (Scalar × Val)) :
    patchV (.dict akvs) (.dict d) =
      (if d.isEmpty then some (.dict akvs)
       else
         match lookupS (.sym .replace) d with
         | some r => some r
         | none => (patchDictGo akvs d).map Val.dict) := by
  rw [patchV]

theorem patchV_list_dict (xs : List Val) (d : List (Scalar × Val)) :
    patchV (.list xs) (.dict d) =
      (if d.isEmpty then some (.list xs)
       else
         match lookupS (.sym .replace) d with
         | some r => some r
         | none => patchList xs d) := by
  rw [patchV]

theorem patchV_set_dict (xs : List Scalar) (d : List (Scalar × Val)) :
    patchV (.set xs) (.dict d) =
      (if d.isEmpty then some (.set xs)
       else
         match lookupS (.sym .replace) d with
         | some r => some r
         | none => patchSet xs d) := by
  rw [patchV]

theorem patchV_scalar_dict (s : Scalar) (d : List (Scalar × Val)) :
    patchV (.scalar s) (.dict d) =
      (if d.isEmpty then some (.scalar s)
       else
         match lookupS (.sym .replace) d with
         | some r => some r
         | none => some (.dict d)) := by
  rw [patchV]
  all_goals intro _ hc
  all_goals exact Val.noConfusion hc



theorem take_succ_concat {l : List Val} {n : Nat} (h : n < l.length) :
    l.take (n+1) = l.take n ++ [l.getD n (.scalar .null)] := by
  rw [List.take_succ]
  congr 1
  rw [List.getElem?_eq_getElem h]
  rw [List.getD_eq_getElem?_getD, List.getElem?_eq_getElem h]
  rfl

theorem getD_mem_of_lt {l : List Val} {n : Nat} (h : n < l.length) :
    l.getD n (.scalar .null) ∈ l := by
  rw [List.getD_eq_getElem?_getD, List.getElem?_eq_getElem h]
  exact List.getElem_mem h

/-- Round trip along a valid edit script: popping the recorded deletions from
`X.take i` (they arrive most-recent-first, i.e. in descending position order),
applying the recorded insertions, and patching the recorded changed positions
with the nested deltas reconstructs — up to Python equality — the target prefix
`Y.take j`.  The nested-diff round trip and the rigidity of similarity 1 are
taken as hypotheses, to be discharged by the outer induction on values. -/
theorem scr_rtl {rec : Val → Val → Val × ℚ} {X Y : List Val}
    (hb : ∀ v w, 0 ≤ (rec v w).2 ∧ (rec v w).2 ≤ 1)
    (hpatch : ∀ i j : Nat, i < X.length → j < Y.length →
      (rec (X.getD i (.scalar .null)) (Y.getD j (.scalar .null))).2 < 1 →
      ∃ u, patchV (X.getD i (.scalar .null))
          (rec (X.getD i (.scalar .null)) (Y.getD j (.scalar .null))).1 = some u ∧
        beqV u (Y.getD j (.scalar .null)) = true)
    (hs1 : ∀ i j : Nat, i < X.length → j < Y.length →
      (rec (X.getD i (.scalar .null)) (Y.getD j (.scalar .null))).2 = 1 →
      beqV (X.getD i (.scalar .null)) (Y.getD j (.scalar .null)) = true)
    (hrefl : ∀ y ∈ Y, beqV y y = true) :
    ∀ {i j : Nat} {S : List Edit}, Scr rec X Y i j S →
    ∃ M Z W : List Val,
      popAll (X.take i) ((listAgg S).2.1.map (fun pv => vN pv.1)) = some M ∧
      M.length + (listAgg S).1.length = j ∧
      insFits M.length (listAgg S).1 ∧
      insAll M ((listAgg S).1.map encPair) = some Z ∧
      Z.length = j ∧
      (∀ kv ∈ (listAgg S).2.2.1, ∃ p : Nat, kv.1 = .num (p : Int) ∧ p < j) ∧
      patchChanged Z (listAgg S).2.2.1 = some W ∧
      beqL W (Y.take j) = true := by
  intro i j S h
  induction h with
  | nil =>
    refine ⟨[], [], [], ?_, ?_, ?_, ?_, ?_, ?_, ?_, ?_⟩
    · rw [listAgg_nil]; rfl
    · simp [listAgg_nil]
    · rw [listAgg_nil]; trivial
    · rw [listAgg_nil]; rfl
    · rfl
    · rw [listAgg_nil]; intro kv hkv; simp at hkv
    · rw [listAgg_nil, patchChanged]
    · rfl
  | @diag i j S h hi hj ih =>
    obtain ⟨M, Z, W, hpop, hlen, hfits, hins, hZlen, hkeys, hchg, hbeq⟩ := ih
    have hWlen : W.length = j := by
      have := beqL_length hbeq
      rw [this, List.length_take]
      omega
    set xi := X.getD i (.scalar .null) with hxi
    set yj := Y.getD j (.scalar .null) with hyj
    set d := (rec xi yj).1 with hd
    set sv := (rec xi yj).2 with hsv
    rw [listAgg_diag]
    simp only
    -- the delete phase: the last element of the longer prefix survives
    have hpop' : popAll (X.take (i+1)) ((listAgg S).2.1.map (fun pv => vN pv.1)) =
        some (M ++ [xi]) := by
      rw [take_succ_concat hi]
      exact popAll_append_last _ _ _ _
        (fun e he => by
          obtain ⟨pv, _, rfl⟩ := List.mem_map.1 he
          exact ⟨pv.1, rfl⟩) hpop
    -- the insert phase commutes with the appended element
    have hins' : insAll (M ++ [xi]) ((listAgg S).1.map encPair) = some (Z ++ [xi]) := by
      rw [insAll_append_last _ _ _ hfits, hins]
      rfl
    -- the recorded changes still apply below the appended element
    have hchg' : patchChanged (Z ++ [xi]) (listAgg S).2.2.1 = some (W ++ [xi]) := by
      rw [patchChanged_append_last _ _ _ (fun kv hkv => by
        obtain ⟨p, hp1, hp2⟩ := hkeys kv hkv
        exact ⟨p, hp1, by omega⟩), hchg]
      rfl
    by_cases hs : sv < 1
    · -- a real change: the new entry is appended to `changed` and patches the
      -- appended element into (an equal of) the target element
      rw [if_pos hs]
      have hlknone : lookupS (.num (j : Int)) (listAgg S).2.2.1 = none := by
        rw [lookupS_eq_none]
        intro kv hkv
        obtain ⟨p, hp1, hp2⟩ := hkeys kv hkv
        rw [hp1]
        intro hc
        have : (p : Int) = (j : Int) := Scalar.num.inj hc
        omega
      rw [setKey_of_lookup_none hlknone]
      obtain ⟨u, hu, hbu⟩ := hpatch i j hi hj hs
      rw [← hxi, ← hyj] at hu
      rw [← hd] at hu
      refine ⟨M ++ [xi], Z ++ [xi], W ++ [u], hpop', ?_, ?_, hins', ?_, ?_, ?_, ?_⟩
      · simp only [List.length_append, List.length_cons, List.length_nil]
        omega
      · exact insFits_mono hfits (by simp)
      · simp only [List.length_append, List.length_cons, List.length_nil]
        omega
      · intro kv hkv
        rcases List.mem_append.1 hkv with hkv | hkv
        · obtain ⟨p, hp1, hp2⟩ := hkeys kv hkv
          exact ⟨p, hp1, by omega⟩
        · obtain rfl := List.mem_singleton.1 hkv
          exact ⟨j, rfl, by omega⟩
      · rw [patchChanged_append, hchg']
        simp only [Option.some_bind]
        rw [patchChanged]
        rw [if_neg (by simp)]
        have hI : asInt (.num (j : Int)) = some (j : Int) := rfl
        rw [hI]
        simp only [Option.some_bind]
        rw [← hWlen, getIdx_concat]
        simp only [Option.some_bind]
        rw [hu]
        simp only [Option.some_bind]
        rw [pySetIdx_concat]
        simp only [Option.some_bind]
        rw [patchChanged]
      · rw [take_succ_concat hj]
        exact beqL_append_one hbeq hbu
    · -- similarity 1: no change entry, but similarity 1 already forces equality
      rw [if_neg hs]
      have hs1' : sv = 1 := by
        have := (hb xi yj).2
        rw [← hsv] at this
        rcases lt_or_eq_of_le this with hlt | heq
        · exact absurd hlt hs
        · exact heq
      have hbxy := hs1 i j hi hj hs1'
      rw [← hxi] at hbxy
      refine ⟨M ++ [xi], Z ++ [xi], W ++ [xi], hpop', ?_, ?_, hins', ?_, ?_, hchg', ?_⟩
      · simp only [List.length_append, List.length_cons, List.length_nil]
        omega
      · exact insFits_mono hfits (by simp)
      · simp only [List.length_append, List.length_cons, List.length_nil]
        omega
      · intro kv hkv
        obtain ⟨p, hp1, hp2⟩ := hkeys kv hkv
        exact ⟨p, hp1, by omega⟩
      · rw [take_succ_concat hj]
        exact beqL_append_one hbeq hbxy
  | @ins i j S h hj ih =>
    obtain ⟨M, Z, W, hpop, hlen, hfits, hins, hZlen, hkeys, hchg, hbeq⟩ := ih
    set yj := Y.getD j (.scalar .null) with hyj
    rw [listAgg_ins]
    simp only
    refine ⟨M, Z ++ [yj], W ++ [yj], hpop, ?_, ?_, ?_, ?_, ?_, ?_, ?_⟩
    · simp only [List.length_append, List.length_cons, List.length_nil]
      omega
    · exact insFits_append hfits (by omega)
    · rw [List.map_append, List.map_cons, List.map_nil, insAll_enc_snoc, hins]
      simp only [Option.some_bind]
      rw [show encPair (j, yj) = Val.list [vN j, yj] from rfl]
      rw [insAll]
      have hasI : asIdx (vN j) = some ((j : Nat) : Int) := rfl
      rw [hasI]
      simp only [Option.some_bind]
      rw [← hZlen, pyInsertAt_end]
      rw [insAll]
    · simp only [List.length_append, List.length_cons, List.length_nil]
      omega
    · intro kv hkv
      obtain ⟨p, hp1, hp2⟩ := hkeys kv hkv
      exact ⟨p, hp1, by omega⟩
    · rw [patchChanged_append_last _ _ _ (fun kv hkv => by
        obtain ⟨p, hp1, hp2⟩ := hkeys kv hkv
        exact ⟨p, hp1, by omega⟩), hchg]
      rfl
    · rw [take_succ_concat hj]
      exact beqL_append_one hbeq (hrefl yj (getD_mem_of_lt hj))
  | @del i j S h hi ih =>
    obtain ⟨M, Z, W, hpop, hlen, hfits, hins, hZlen, hkeys, hchg, hbeq⟩ := ih
    rw [listAgg_del]
    simp only
    refine ⟨M, Z, W, ?_, hlen, hfits, hins, hZlen, hkeys, hchg, hbeq⟩
    rw [List.map_cons]
    rw [take_succ_concat hi]
    have htl : (X.take i).length = i := by
      rw [List.length_take]
      omega
    rw [show vN i = vN ((X.take i).length) from by rw [htl]]
    rw [popAll_cons_last]
    exact hpop


/-! ## Phases of the dict patch -/

theorem patchDictGo_split (l1 l2 : List (Scalar × Val)) : ∀ (acc : List (Scalar × Val)),
    patchDictGo acc (l1 ++ l2) =
      (patchDictGo acc l1).bind (fun acc' => patchDictGo acc' l2) := by
  induction l1 with
  | nil => intro acc; rw [List.nil_append, patchDictGo]; rfl
  | cons kv rest ih =>
    intro acc
    obtain ⟨k, v⟩ := kv
    rw [List.cons_append, patchDictGo, patchDictGo]
    by_cases hk : k = .sym .delete
    · rw [if_pos hk, if_pos hk]
      cases pyIter v with
      | none => rfl
      | some ks =>
        simp only
        cases delKeys acc ks with
        | none => rfl
        | some acc' => exact ih acc'
    · rw [if_neg hk, if_neg hk]
      cases lookupS k acc with
      | none => exact ih _
      | some av =>
        simp only
        by_cases hm : isMissing av = true
        · rw [hm]
          simp only [if_true]
          exact ih _
        · rw [Bool.not_eq_true] at hm
          rw [hm]
          simp only [Bool.false_eq_true, if_false]
          cases patchV av v with
          | none => rfl
          | some w => exact ih _

theorem nodupKeysB_append {l1 l2 : List (Scalar × Val)}
    (h1 : nodupKeysB l1 = true) (h2 : nodupKeysB l2 = true)
    (hd : ∀ kv ∈ l2, lookupS kv.1 l1 = none) : nodupKeysB (l1 ++ l2) = true := by
  rw [nodupKeysB_iff_nodup, List.map_append, List.nodup_append]
  refine ⟨nodupKeysB_iff_nodup.1 h1, nodupKeysB_iff_nodup.1 h2, ?_⟩
  intro x hx1 hx2
  obtain ⟨kv1, hkv1, rfl⟩ := List.mem_map.1 hx1
  obtain ⟨kv2, hkv2, hfst⟩ := List.mem_map.1 hx2
  have := lookupS_eq_none.1 (hd kv2 hkv2) kv1 hkv1
  exact this hfst.symm

/-- Python `dict.update` with fresh keys appends the new entries in order. -/
theorem dictUpdate_disjoint : ∀ (ys xs : List (Scalar × Val)),
    nodupKeysB ys = true → (∀ kv ∈ ys, lookupS kv.1 xs = none) →
    dictUpdate xs ys = xs ++ ys := by
  intro ys
  induction ys with
  | nil => intro xs _ _; simp [dictUpdate]
  | cons kv rest ih =>
    intro xs hnd hfresh
    obtain ⟨k, v⟩ := kv
    rw [nodupKeysB_cons] at hnd
    rw [dictUpdate, List.foldl_cons]
    have hset : setKey xs k v = xs ++ [(k, v)] :=
      setKey_of_lookup_none (hfresh (k, v) (List.mem_cons_self _ _))
    simp only at hset
    rw [hset]
    have hrest : ∀ kv ∈ rest, lookupS kv.1 (xs ++ [(k, v)]) = none := by
      intro kv hkv
      rw [lookupS_append_none (hfresh kv (List.mem_cons_of_mem _ hkv))]
      rw [lookupS, if_neg (fun he => (hnd.1 kv hkv) he.symm)]
      rfl
    have := ih (xs ++ [(k, v)]) hnd.2 hrest
    rw [dictUpdate] at this
    rw [this, List.append_assoc]
    rfl

/-- The changed phase of the dict patch: every entry patches an existing,
non-sentinel value in place; keys are untouched and other entries preserved. -/
theorem patchDictGo_chg : ∀ (chg acc : List (Scalar × Val)),
    nodupKeysB chg = true →
    (∀ kv ∈ chg, Scalar.isSym kv.1 = false) →
    (∀ kv ∈ chg, ∃ v w, lookupS kv.1 acc = some v ∧ isMissing v = false ∧
      patchV v kv.2 = some w) →
    ∃ acc', patchDictGo acc chg = some acc' ∧
      acc'.map Prod.fst = acc.map Prod.fst ∧
      (∀ k : Scalar, (∀ kv ∈ chg, kv.1 ≠ k) → lookupS k acc' = lookupS k acc) ∧
      (∀ kv ∈ chg, ∃ v w, lookupS kv.1 acc = some v ∧ patchV v kv.2 = some w ∧
        lookupS kv.1 acc' = some w) := by
  intro chg
  induction chg with
  | nil =>
    intro acc _ _ _
    refine ⟨acc, ?_, rfl, fun _ _ => rfl, fun kv hkv => by simp at hkv⟩
    rw [patchDictGo]
  | cons kvd rest ih =>
    intro acc hnd hsym hhyp
    obtain ⟨k, dk⟩ := kvd
    rw [nodupKeysB_cons] at hnd
    obtain ⟨v, w, hv, hvm, hw⟩ := hhyp (k, dk) (List.mem_cons_self _ _)
    rw [patchDictGo]
    have hkdel : ¬ (k = .sym .delete) := by
      intro he
      have := hsym (k, dk) (List.mem_cons_self _ _)
      rw [he] at this
      simp [Scalar.isSym] at this
    rw [if_neg hkdel]
    dsimp only at hv
    rw [hv]
    simp only [hvm, Bool.false_eq_true, if_false]
    rw [hw]
    simp only
    have hrest : ∀ kv ∈ rest, ∃ v' w', lookupS kv.1 (setKey acc k w) = some v' ∧
        isMissing v' = false ∧ patchV v' kv.2 = some w' := by
      intro kv hkv
      obtain ⟨v', w', hv', hvm', hw'⟩ := hhyp kv (List.mem_cons_of_mem _ hkv)
      refine ⟨v', w', ?_, hvm', hw'⟩
      rw [lookupS_setKey_other _ (fun he => (hnd.1 kv hkv) he), hv']
    obtain ⟨acc', hgo, hkeys, hpres, hlooks⟩ := ih (setKey acc k w) hnd.2
      (fun kv hkv => hsym kv (List.mem_cons_of_mem _ hkv)) hrest
    refine ⟨acc', hgo, ?_, ?_, ?_⟩
    · rw [hkeys, (setKey_of_mem hv).2]
    · intro k' hk'
      rw [hpres k' (fun kv hkv => hk' kv (List.mem_cons_of_mem _ hkv))]
      exact lookupS_setKey_other acc (fun he => hk' (k, dk) (List.mem_cons_self _ _) he.symm)
    · intro kv hkv
      rcases List.mem_cons.1 hkv with h1 | h1
      · subst h1
        refine ⟨v, w, hv, hw, ?_⟩
        rw [hpres _ (fun kv' hkv' => fun he => (hnd.1 kv' hkv') he)]
        exact lookupS_setKey_self acc
      · obtain ⟨v', w', hv', hw', hl'⟩ := hlooks kv h1
        refine ⟨v', w', ?_, hw', hl'⟩
        rw [lookupS_setKey_other _ (fun he => (hnd.1 kv h1) he)] at hv'
        exact hv'

/-- The added phase of the dict patch: fresh keys are appended verbatim. -/
theorem patchDictGo_added : ∀ (adds acc : List (Scalar × Val)),
    nodupKeysB adds = true →
    (∀ kv ∈ adds, Scalar.isSym kv.1 = false) →
    (∀ kv ∈ adds, lookupS kv.1 acc = none) →
    patchDictGo acc adds = some (acc ++ adds) := by
  intro adds
  induction adds with
  | nil =>
    intro acc _ _ _
    rw [patchDictGo, List.append_nil]
  | cons kv rest ih =>
    intro acc hnd hsym hfresh
    obtain ⟨k, v⟩ := kv
    rw [nodupKeysB_cons] at hnd
    rw [patchDictGo]
    have hkdel : ¬ (k = .sym .delete) := by
      intro he
      have := hsym (k, v) (List.mem_cons_self _ _)
      rw [he] at this
      simp [Scalar.isSym] at this
    rw [if_neg hkdel]
    have hnone := hfresh (k, v) (List.mem_cons_self _ _)
    dsimp only at hnone
    rw [hnone]
    have hset : setKey acc k v = acc ++ [(k, v)] := setKey_of_lookup_none hnone
    rw [hset]
    have hrest : ∀ kv ∈ rest, lookupS kv.1 (acc ++ [(k, v)]) = none := by
      intro kv hkv
      rw [lookupS_append_none (hfresh kv (List.mem_cons_of_mem _ hkv))]
      rw [lookupS, if_neg (fun he => (hnd.1 kv hkv) he.symm)]
      rfl
    rw [ih (acc ++ [(k, v)]) hnd.2 (fun kv hkv => hsym kv (List.mem_cons_of_mem _ hkv)) hrest]
    rw [List.append_assoc]
    rfl

/-- The delete phase of the dict patch: every listed key is present and is
removed; other entries survive with their values. -/
theorem delKeys_spec : ∀ (rem acc : List (Scalar × Val)),
    nodupKeysB rem = true → nodupKeysB acc = true →
    (∀ kv ∈ rem, (lookupS kv.1 acc).isSome = true) →
    ∃ acc', delKeys acc (rem.map (fun kv => Val.scalar kv.1)) = some acc' ∧
      acc'.length + rem.length = acc.length ∧
      (∀ k : Scalar, (∀ kv ∈ rem, kv.1 ≠ k) → lookupS k acc' = lookupS k acc) ∧
      nodupKeysB acc' = true ∧
      (∀ kv ∈ rem, lookupS kv.1 acc' = none) := by
  intro rem
  induction rem with
  | nil =>
    intro acc _ hndacc _
    exact ⟨acc, rfl, by simp, fun _ _ => rfl, hndacc, fun kv hkv => by simp at hkv⟩
  | cons kv rest ih =>
    intro acc hnd hndacc hsome
    obtain ⟨k, v⟩ := kv
    rw [nodupKeysB_cons] at hnd
    have hk := hsome (k, v) (List.mem_cons_self _ _)
    dsimp only at hk
    rw [Option.isSome_iff_exists] at hk
    obtain ⟨v0, hv0⟩ := hk
    obtain ⟨r, hr, hrlen, hrpres, hrnd, _⟩ := removeKey_of_lookup_some hv0
    rw [List.map_cons]
    rw [delKeys]
    rw [hr]
    simp only [Option.some_bind]
    have hrest : ∀ kv ∈ rest, (lookupS kv.1 r).isSome = true := by
      intro kv hkv
      rw [hrpres kv.1 (fun he => (hnd.1 kv hkv) he)]
      exact hsome kv (List.mem_cons_of_mem _ hkv)
    obtain ⟨acc', hgo, hlen, hpres, hnd', hrem'⟩ := ih r hnd.2 (hrnd hndacc).1 hrest
    refine ⟨acc', hgo, ?_, ?_, hnd', ?_⟩
    · rw [List.length_cons]
      omega
    · intro k' hk'
      rw [hpres k' (fun kv hkv => hk' kv (List.mem_cons_of_mem _ hkv))]
      exact hrpres k' (fun he => hk' (k, v) (List.mem_cons_self _ _) he.symm)
    · intro kv hkv
      rcases List.mem_cons.1 hkv with h1 | h1
      · subst h1
        rw [hpres _ (fun kv' hkv' => hnd.1 kv' hkv')]
        exact (hrnd hndacc).2
      · exact hrem' kv h1


theorem dchanged_cons (rec : Val → Val → Val × ℚ) (b : List (Scalar × Val))
    (e : Scalar × Val) (rest : List (Scalar × Val)) :
    dchanged rec b (e :: rest) =
      (match lookupS e.1 b with
       | none => dchanged rec b rest
       | some w =>
         if (rec e.2 w).2 < 1 then (e.1, (rec e.2 w).1) :: dchanged rec b rest
         else dchanged rec b rest) := by
  rw [dchanged, dmatched, List.filterMap_cons]
  cases hlk : lookupS e.1 b with
  | none => rfl
  | some w =>
    simp only [Option.map_some', List.filterMap_cons]
    by_cases hlt : (rec e.2 w).2 < 1
    · rw [if_pos hlt, if_pos hlt]
      rfl
    · rw [if_neg hlt, if_neg hlt]
      rfl

theorem dchanged_mem {rec : Val → Val → Val × ℚ} {b l : List (Scalar × Val)}
    {kv : Scalar × Val} (h : kv ∈ dchanged rec b l) :
    ∃ v w, (kv.1, v) ∈ l ∧ lookupS kv.1 b = some w ∧ (rec v w).2 < 1 ∧
      kv.2 = (rec v w).1 := by
  rw [dchanged, List.mem_filterMap] at h
  obtain ⟨p, hp, hps⟩ := h
  by_cases hlt : (rec p.1.2 p.2).2 < 1
  · rw [if_pos hlt, Option.some.injEq] at hps
    obtain ⟨hmem, hlk⟩ := dmatched_mem hp
    refine ⟨p.1.2, p.2, ?_, ?_, hlt, ?_⟩
    · rw [← hps]
      exact hmem
    · rw [← hps]
      exact hlk
    · rw [← hps]
  · rw [if_neg hlt] at hps
    exact absurd hps (Option.noConfusion)

theorem nodupKeysB_dchanged {rec : Val → Val → Val × ℚ} {b : List (Scalar × Val)} :
    ∀ {l : List (Scalar × Val)}, nodupKeysB l = true →
    nodupKeysB (dchanged rec b l) = true := by
  intro l
  induction l with
  | nil => intro _; rfl
  | cons e rest ih =>
    intro hnd
    obtain ⟨k, v⟩ := e
    rw [nodupKeysB_cons] at hnd
    rw [dchanged_cons]
    cases lookupS k b with
    | none => exact ih hnd.2
    | some w =>
      dsimp only
      by_cases hlt : (rec v w).2 < 1
      · rw [if_pos hlt, nodupKeysB_cons]
        refine ⟨?_, ih hnd.2⟩
        intro kv hkv
        obtain ⟨v', w', hmem, _, _, _⟩ := dchanged_mem hkv
        exact hnd.1 (kv.1, v') hmem
      · rw [if_neg hlt]
        exact ih hnd.2

theorem nodupKeysB_filter {l : List (Scalar × Val)} (p : Scalar × Val → Bool)
    (h : nodupKeysB l = true) : nodupKeysB (l.filter p) = true := by
  rw [nodupKeysB_iff_nodup] at h ⊢
  exact (List.Sublist.map Prod.fst (List.filter_sublist l)).nodup h

theorem filter_isNone_isSome_partition (b : List (Scalar × Val)) :
    ∀ l : List (Scalar × Val),
      (l.filter (fun kv => (lookupS kv.1 b).isNone)).length +
        (l.filter (fun kv => (lookupS kv.1 b).isSome)).length = l.length := by
  intro l
  induction l with
  | nil => rfl
  | cons kv rest ih =>
    cases hlk : lookupS kv.1 b with
    | none =>
      rw [List.filter_cons_of_pos (by simp [hlk]),
        List.filter_cons_of_neg (by simp [hlk])]
      simp only [List.length_cons]
      omega
    | some w =>
      rw [List.filter_cons_of_neg (by simp [hlk]),
        List.filter_cons_of_pos (by simp [hlk])]
      simp only [List.length_cons]
      omega

theorem dmatched_length_filter (b : List (Scalar × Val)) (l : List (Scalar × Val)) :
    (dmatched b l).length = (l.filter (fun kv => (lookupS kv.1 b).isSome)).length := by
  have h1 := dmatched_partition b l
  have h2 := filter_isNone_isSome_partition b l
  omega

/-- The numbers of matched entries seen from either side agree: both count the
shared keys, which occur once on each side. -/
theorem dmatched_length_symm {x y : List (Scalar × Val)}
    (hndx : nodupKeysB x = true) (hndy : nodupKeysB y = true) :
    (dmatched y x).length = (dmatched x y).length := by
  rw [dmatched_length_filter, dmatched_length_filter]
  have hsub : ∀ (a b : List (Scalar × Val)), ∀ k ∈ (a.filter
      (fun kv => (lookupS kv.1 b).isSome)).map Prod.fst,
      k ∈ (b.filter (fun kv => (lookupS kv.1 a).isSome)).map Prod.fst := by
    intro a b k hk
    obtain ⟨kv, hkv, hfst⟩ := List.mem_map.1 hk
    obtain ⟨hmem, hlk⟩ := List.mem_filter.1 hkv
    rw [Option.isSome_iff_exists] at hlk
    obtain ⟨w, hw⟩ := hlk
    subst hfst
    refine List.mem_map.2 ⟨(kv.1, w), List.mem_filter.2 ⟨lookupS_mem hw, ?_⟩, rfl⟩
    exact lookupS_isSome_of_mem hmem
  have hnd1 : ((x.filter (fun kv => (lookupS kv.1 y).isSome)).map Prod.fst).Nodup :=
    nodupKeysB_iff_nodup.1 (nodupKeysB_filter _ hndx)
  have hnd2 : ((y.filter (fun kv => (lookupS kv.1 x).isSome)).map Prod.fst).Nodup :=
    nodupKeysB_iff_nodup.1 (nodupKeysB_filter _ hndy)
  have h1 := nodup_length_le hnd1 (hsub x y)
  have h2 := nodup_length_le hnd2 (hsub y x)
  simp only [List.length_map] at h1 h2
  omega

theorem isMissing_eq_false_of_wf {v : Val} (h : wfV v = true) : isMissing v = false := by
  have hsym := wfV_not_symVal h
  cases v with
  | scalar s =>
    cases s with
    | sym s => simp [isSymVal] at hsym
    | _ => rfl
  | _ => rfl

theorem lookupS_none_of_same_keys {k : Scalar} {l1 l2 : List (Scalar × Val)}
    (hkeys : l1.map Prod.fst = l2.map Prod.fst) (h : lookupS k l2 = none) :
    lookupS k l1 = none := by
  rw [lookupS_eq_none] at h ⊢
  intro kv hkv
  have : kv.1 ∈ l2.map Prod.fst := by
    rw [← hkeys]
    exact List.mem_map.2 ⟨kv, hkv, rfl⟩
  obtain ⟨kv2, hkv2, hfst⟩ := List.mem_map.1 this
  rw [← hfst]
  exact h kv2 hkv2


/-- The dictionary produced by the three patch phases is Python-equal to the
target: patched changed entries, untouched matched entries with similarity 1,
appended added entries; removed keys are gone. -/
theorem dict_rtl_final {rec : Val → Val → Val × ℚ} {x y : List (Scalar × Val)}
    (hb : ∀ v w, 0 ≤ (rec v w).2 ∧ (rec v w).2 ≤ 1)
    (hndx : nodupKeysB x = true) (hwdx : wfD x = true)
    (hndy : nodupKeysB y = true) (hwdy : wfD y = true)
    (hpatch : ∀ v w : Val, wfV v = true → wfV w = true → (rec v w).2 < 1 →
      ∃ u, patchV v (rec v w).1 = some u ∧ beqV u w = true)
    (hs1e : ∀ v w : Val, wfV v = true → wfV w = true → (rec v w).2 = 1 →
      beqV v w = true)
    {acc1 F : List (Scalar × Val)}
    (hpres1 : ∀ k : Scalar, (∀ kv ∈ dchanged rec y x, kv.1 ≠ k) →
      lookupS k acc1 = lookupS k x)
    (hlooks1 : ∀ kv ∈ dchanged rec y x, ∃ v w, lookupS kv.1 x = some v ∧
      patchV v kv.2 = some w ∧ lookupS kv.1 acc1 = some w)
    (hndF : nodupKeysB F = true)
    (hpresF : ∀ k : Scalar,
      (∀ kv ∈ x.filter (fun kv => (lookupS kv.1 y).isNone), kv.1 ≠ k) →
      lookupS k F = lookupS k (acc1 ++ y.filter (fun kv => (lookupS kv.1 x).isNone)))
    (hremF : ∀ kv ∈ x.filter (fun kv => (lookupS kv.1 y).isNone),
      lookupS kv.1 F = none)
    (hlenF : F.length + (x.filter (fun kv => (lookupS kv.1 y).isNone)).length =
      x.length + (y.filter (fun kv => (lookupS kv.1 x).isNone)).length) :
    beqV (.dict F) (.dict y) = true := by
  have hp1 := dmatched_partition y x
  have hp2 := dmatched_partition x y
  have hsymlen := dmatched_length_symm hndx hndy
  have hlen : F.length = y.length := by omega
  have hbd : beqD F y = true := by
    apply beqD_intro
    intro kv hkv
    have hself : lookupS kv.1 F = some kv.2 := lookupS_self_of_nodup hndF hkv
    have hknr : ∀ kv' ∈ x.filter (fun kv => (lookupS kv.1 y).isNone), kv'.1 ≠ kv.1 := by
      intro kv' h1 h2
      have hn := hremF kv' h1
      rw [h2, hself] at hn
      exact Option.noConfusion hn
    have hF2 : lookupS kv.1 (acc1 ++ y.filter (fun kv => (lookupS kv.1 x).isNone)) =
        some kv.2 := by
      rw [← hpresF kv.1 hknr]
      exact hself
    cases hc : lookupS kv.1 (dchanged rec y x) with
    | some dk =>
      have hmemchs : (kv.1, dk) ∈ dchanged rec y x := lookupS_mem hc
      obtain ⟨xv, yv, hxv, hyv, hlt, hdk⟩ := dchanged_mem hmemchs
      dsimp only at hxv hyv hdk
      have hxl : lookupS kv.1 x = some xv := lookupS_self_of_nodup hndx hxv
      obtain ⟨v', w', hv', hw', hl'⟩ := hlooks1 (kv.1, dk) hmemchs
      dsimp only at hv' hw' hl'
      have hveq : v' = xv := by
        rw [hv'] at hxl
        exact Option.some.inj hxl
      subst hveq
      obtain ⟨u, hu, hbu⟩ := hpatch v' yv (wfD_mem hwdx hxv).2
        (wfD_mem hwdy (lookupS_mem hyv)).2 hlt
      have hweq : w' = u := by
        rw [hdk] at hw'
        rw [hw'] at hu
        exact (Option.some.injEq _ _ ▸ hu)
      have hFl : lookupS kv.1
          (acc1 ++ y.filter (fun kv => (lookupS kv.1 x).isNone)) = some w' :=
        lookupS_append_some hl'
      rw [hF2] at hFl
      have hkv2 : kv.2 = w' := (Option.some.injEq _ _ ▸ hFl)
      refine ⟨yv, hyv, ?_⟩
      rw [hkv2, hweq]
      exact hbu
    | none =>
      have hknotchs := lookupS_eq_none.1 hc
      have hacc1 : lookupS kv.1 acc1 = lookupS kv.1 x := hpres1 kv.1 hknotchs
      cases hx : lookupS kv.1 x with
      | some xv =>
        have hFl : lookupS kv.1
            (acc1 ++ y.filter (fun kv => (lookupS kv.1 x).isNone)) = some xv :=
          lookupS_append_some (by rw [hacc1, hx])
        rw [hF2] at hFl
        have hkv2 : kv.2 = xv := (Option.some.injEq _ _ ▸ hFl)
        cases hy : lookupS kv.1 y with
        | some yv =>
          have hnotlt : ¬ (rec xv yv).2 < 1 := by
            intro hlt
            have hdm : ((kv.1, xv), yv) ∈ dmatched y x :=
              dmatched_mem_of (lookupS_mem hx) hy
            have hch : (kv.1, (rec xv yv).1) ∈ dchanged rec y x := by
              rw [dchanged, List.mem_filterMap]
              exact ⟨((kv.1, xv), yv), hdm, by rw [if_pos hlt]⟩
            exact hknotchs _ hch rfl
          have hs1v : (rec xv yv).2 = 1 := by
            rcases lt_or_eq_of_le (hb xv yv).2 with h1 | h1
            · exact absurd h1 hnotlt
            · exact h1
          refine ⟨yv, rfl, ?_⟩
          rw [hkv2]
          exact hs1e xv yv (wfD_mem hwdx (lookupS_mem hx)).2
            (wfD_mem hwdy (lookupS_mem hy)).2 hs1v
        | none =>
          exfalso
          refine hknr (kv.1, xv) ?_ rfl
          exact List.mem_filter.2 ⟨lookupS_mem hx, by simp [hy]⟩
      | none =>
        have hFl : lookupS kv.1
            (acc1 ++ y.filter (fun kv => (lookupS kv.1 x).isNone)) =
            lookupS kv.1 (y.filter (fun kv => (lookupS kv.1 x).isNone)) :=
          lookupS_append_none (by rw [hacc1, hx])
        rw [hF2] at hFl
        have hmemadds : (kv.1, kv.2) ∈ y.filter (fun kv => (lookupS kv.1 x).isNone) :=
          lookupS_mem hFl.symm
        have hmemy : (kv.1, kv.2) ∈ y := (List.mem_filter.1 hmemadds).1
        refine ⟨kv.2, lookupS_self_of_nodup hndy hmemy, ?_⟩
        exact beqV_refl kv.2 (wfD_mem hwdy hmemy).2
  rw [beqV, Bool.and_eq_true]
  exact ⟨by simp [hlen], hbd⟩

theorem isEmpty_append_singleton (l : List (Scalar × Val)) (e : Scalar × Val) :
    (l ++ [e]).isEmpty = false := by
  cases l <;> rfl

/-- A dict delta whose similarity is not 1 patches the base into a Python-equal
of the target. -/
theorem dictDiff_rtl {rec : Val → Val → Val × ℚ} {x y : List (Scalar × Val)}
    (hb : ∀ v w, 0 ≤ (rec v w).2 ∧ (rec v w).2 ≤ 1)
    (hwx : wfV (.dict x) = true) (hwy : wfV (.dict y) = true)
    (hpatch : ∀ v w : Val, wfV v = true → wfV w = true → (rec v w).2 < 1 →
      ∃ u, patchV v (rec v w).1 = some u ∧ beqV u w = true)
    (hs1e : ∀ v w : Val, wfV v = true → wfV w = true → (rec v w).2 = 1 →
      beqV v w = true)
    (hs1n : dictSim rec x y ≠ 1) :
    ∃ u, patchV (.dict x) (emit_dict_diff (.dict x) (.dict y) (dictSim rec x y)
        (y.filter (fun kv => (lookupS kv.1 x).isNone)) (dchanged rec y x)
        (x.filter (fun kv => (lookupS kv.1 y).isNone))) = some u ∧
      beqV u (.dict y) = true := by
  obtain ⟨hndx, hwdx⟩ := wfV_dict hwx
  obtain ⟨hndy, hwdy⟩ := wfV_dict hwy
  by_cases hs0 : dictSim rec x y = 0
  · -- full replacement: the delta is `{replace: y}` and patching returns `y`
    rw [emit_dict_diff, if_pos hs0]
    rw [show isDict (.dict y) = true from rfl]
    simp only [if_true]
    refine ⟨.dict y, ?_, beqV_refl _ hwy⟩
    rw [patchV_dict_dict]
    rw [show ([((Scalar.sym Sym.replace : Scalar), (Val.dict y : Val))] :
      List (Scalar × Val)).isEmpty = false from rfl]
    simp only [Bool.false_eq_true, if_false]
    rw [show lookupS (.sym .replace)
      [((Scalar.sym Sym.replace : Scalar), (Val.dict y : Val))] = some (.dict y) from rfl]
  · rw [emit_dict_diff, if_neg hs0, if_neg hs1n]
    simp only
    -- abbreviations for the three entry groups
    have hchsmem : ∀ kv ∈ dchanged rec y x, ∃ xv yv,
        lookupS kv.1 x = some xv ∧ lookupS kv.1 y = some yv ∧
        (rec xv yv).2 < 1 ∧ kv.2 = (rec xv yv).1 ∧
        wfV xv = true ∧ wfV yv = true := by
      intro kv hkv
      obtain ⟨xv, yv, hmem, hlk, hlt, hval⟩ := dchanged_mem hkv
      exact ⟨xv, yv, lookupS_self_of_nodup hndx hmem, hlk, hlt, hval,
        (wfD_mem hwdx hmem).2, (wfD_mem hwdy (lookupS_mem hlk)).2⟩
    have hchsym : ∀ kv ∈ dchanged rec y x, Scalar.isSym kv.1 = false := by
      intro kv hkv
      obtain ⟨xv, _, hxl, _, _, _, _, _⟩ := hchsmem kv hkv
      exact (wfD_mem hwdx (lookupS_mem hxl)).1
    have haddsym : ∀ kv ∈ y.filter (fun kv => (lookupS kv.1 x).isNone),
        Scalar.isSym kv.1 = false := by
      intro kv hkv
      exact (wfD_mem hwdy (List.mem_filter.1 hkv).1).1
    have hremsym : ∀ kv ∈ x.filter (fun kv => (lookupS kv.1 y).isNone),
        Scalar.isSym kv.1 = false := by
      intro kv hkv
      exact (wfD_mem hwdx (List.mem_filter.1 hkv).1).1
    have haddnone : ∀ kv ∈ y.filter (fun kv => (lookupS kv.1 x).isNone),
        lookupS kv.1 x = none := by
      intro kv hkv
      have := (List.mem_filter.1 hkv).2
      rw [Option.isNone_iff_eq_none] at this
      exact this
    have hndchs : nodupKeysB (dchanged rec y x) = true := nodupKeysB_dchanged hndx
    have hndadds : nodupKeysB (y.filter (fun kv => (lookupS kv.1 x).isNone)) = true :=
      nodupKeysB_filter _ hndy
    have hndrems : nodupKeysB (x.filter (fun kv => (lookupS kv.1 y).isNone)) = true :=
      nodupKeysB_filter _ hndx
    have hchsaddsdisj : ∀ kv ∈ y.filter (fun kv => (lookupS kv.1 x).isNone),
        lookupS kv.1 (dchanged rec y x) = none := by
      intro kv hkv
      rw [lookupS_eq_none]
      intro ckv hckv he
      obtain ⟨xv, _, hxl, _, _, _, _, _⟩ := hchsmem ckv hckv
      rw [he, haddnone kv hkv] at hxl
      exact Option.noConfusion hxl
    have hupd : dictUpdate (dchanged rec y x)
        (y.filter (fun kv => (lookupS kv.1 x).isNone)) =
        dchanged rec y x ++ y.filter (fun kv => (lookupS kv.1 x).isNone) :=
      dictUpdate_disjoint _ _ hndadds hchsaddsdisj
    rw [hupd]
    -- phase A: the changed entries are patched in place
    have hhypA : ∀ kv ∈ dchanged rec y x, ∃ v w, lookupS kv.1 x = some v ∧
        isMissing v = false ∧ patchV v kv.2 = some w := by
      intro kv hkv
      obtain ⟨xv, yv, hxl, hyl, hlt, hval, hwxv, hwyv⟩ := hchsmem kv hkv
      obtain ⟨u, hu, _⟩ := hpatch xv yv hwxv hwyv hlt
      refine ⟨xv, u, hxl, isMissing_eq_false_of_wf hwxv, ?_⟩
      rw [hval]
      exact hu
    obtain ⟨acc1, hgo1, hkeys1, hpres1, hlooks1⟩ :=
      patchDictGo_chg (dchanged rec y x) x hndchs hchsym hhypA
    -- phase B: the added entries are appended
    have hnoneadds1 : ∀ kv ∈ y.filter (fun kv => (lookupS kv.1 x).isNone),
        lookupS kv.1 acc1 = none := by
      intro kv hkv
      exact lookupS_none_of_same_keys hkeys1 (haddnone kv hkv)
    have hgo2 := patchDictGo_added (y.filter (fun kv => (lookupS kv.1 x).isNone))
      acc1 hndadds haddsym hnoneadds1
    have hndacc1 : nodupKeysB acc1 = true := by
      rw [nodupKeysB_iff_nodup, hkeys1]
      exact nodupKeysB_iff_nodup.1 hndx
    have hndacc2 : nodupKeysB
        (acc1 ++ y.filter (fun kv => (lookupS kv.1 x).isNone)) = true :=
      nodupKeysB_append hndacc1 hndadds hnoneadds1
    have hlenacc1 : acc1.length = x.length := by
      have := congrArg List.length hkeys1
      simpa using this
    -- keys of the first two delta groups are never symbols, so never `replace`
    have hnosymD0 : ∀ kv ∈ dchanged rec y x ++
        y.filter (fun kv => (lookupS kv.1 x).isNone), Scalar.isSym kv.1 = false := by
      intro kv hkv
      rcases List.mem_append.1 hkv with h1 | h1
      · exact hchsym kv h1
      · exact haddsym kv h1
    by_cases hremE : (x.filter (fun kv => (lookupS kv.1 y).isNone)).isEmpty = true
    · -- no removed keys: the delta is the changed and added entries only
      rw [if_pos hremE]
      have hremnil : x.filter (fun kv => (lookupS kv.1 y).isNone) = [] :=
        List.isEmpty_iff.1 hremE
      -- the delta cannot be empty: that would force similarity 1
      have hDne : (dchanged rec y x ++
          y.filter (fun kv => (lookupS kv.1 x).isNone)).isEmpty = false := by
        rw [Bool.eq_false_iff]
        intro hE
        obtain ⟨hchnil, haddnil⟩ := List.append_eq_nil.1 (List.isEmpty_iff.1 hE)
        apply hs1n
        rw [dictSim]
        have hall1 : ∀ p ∈ dmatched y x, (rec p.1.2 p.2).2 = 1 := by
          intro p hp
          by_contra hne
          have hlt : (rec p.1.2 p.2).2 < 1 :=
            lt_of_le_of_ne (hb p.1.2 p.2).2 hne
          have : (p.1.1, (rec p.1.2 p.2).1) ∈ dchanged rec y x := by
            rw [dchanged, List.mem_filterMap]
            exact ⟨p, hp, by rw [if_pos hlt]⟩
          rw [hchnil] at this
          exact absurd this (List.not_mem_nil _)
        have hw1 : dweight rec y x = ((dmatched y x).length : ℚ) := by
          rw [dweight]
          have hmapeq : (dmatched y x).map
              (fun p => 1/2 + (rec p.1.2 p.2).2 / 2) =
              (dmatched y x).map (fun p => (1 : ℚ)) :=
            List.map_congr_left (fun p hp => by
              rw [hall1 p hp]
              norm_num)
          rw [hmapeq]
          exact sum_map_one _
        rw [hremnil, hchnil] at *
        rw [hremnil, haddnil]
        simp only [List.length_nil, Nat.zero_add, Nat.add_zero]
        by_cases hM0 : (dmatched y x).length ≠ 0
        · rw [if_pos hM0, hw1]
          rw [div_self (by exact_mod_cast hM0)]
        · rw [if_neg hM0]
      refine ⟨.dict (acc1 ++ y.filter (fun kv => (lookupS kv.1 x).isNone)), ?_, ?_⟩
      · rw [patchV_dict_dict, hDne]
        simp only [Bool.false_eq_true, if_false]
        have hrepl : lookupS (.sym .replace) (dchanged rec y x ++
            y.filter (fun kv => (lookupS kv.1 x).isNone)) = none := by
          rw [lookupS_eq_none]
          intro kv hkv he
          have := hnosymD0 kv hkv
          rw [he] at this
          simp [Scalar.isSym] at this
        rw [hrepl]
        rw [patchDictGo_split, hgo1]
        simp only [Option.some_bind]
        rw [hgo2]
        rfl
      · refine dict_rtl_final hb hndx hwdx hndy hwdy hpatch hs1e hpres1 hlooks1
          hndacc2 (fun k _ => rfl) ?_ ?_
        · rw [hremnil]
          intro kv hkv
          exact absurd hkv (List.not_mem_nil _)
        · rw [hremnil]
          simp only [List.length_nil, Nat.add_zero, List.length_append]
          omega
    · -- removed keys present: the delta carries a `delete` entry processed last
      rw [if_neg hremE]
      have hdelnone : lookupS (.sym .delete) (dchanged rec y x ++
          y.filter (fun kv => (lookupS kv.1 x).isNone)) = none := by
        rw [lookupS_eq_none]
        intro kv hkv he
        have := hnosymD0 kv hkv
        rw [he] at this
        simp [Scalar.isSym] at this
      rw [setKey_of_lookup_none hdelnone]
      have hsomerem : ∀ kv ∈ x.filter (fun kv => (lookupS kv.1 y).isNone),
          (lookupS kv.1 (acc1 ++
            y.filter (fun kv => (lookupS kv.1 x).isNone))).isSome = true := by
        intro kv hkv
        have hmemx := (List.mem_filter.1 hkv).1
        have hyn : lookupS kv.1 y = none := by
          have := (List.mem_filter.1 hkv).2
          rwa [Option.isNone_iff_eq_none] at this
        have hknotchs : ∀ ckv ∈ dchanged rec y x, ckv.1 ≠ kv.1 := by
          intro ckv hckv he
          obtain ⟨_, yv, _, hyl, _, _, _, _⟩ := hchsmem ckv hckv
          rw [he, hyn] at hyl
          exact Option.noConfusion hyl
        have hxl : lookupS kv.1 x = some kv.2 := lookupS_self_of_nodup hndx hmemx
        have : lookupS kv.1 acc1 = some kv.2 := by
          rw [hpres1 kv.1 hknotchs, hxl]
        rw [lookupS_append_some this]
        rfl
      obtain ⟨acc3, hgo3, hlen3, hpres3, hnd3, hrem3⟩ :=
        delKeys_spec (x.filter (fun kv => (lookupS kv.1 y).isNone))
          (acc1 ++ y.filter (fun kv => (lookupS kv.1 x).isNone))
          hndrems hndacc2 hsomerem
      refine ⟨.dict acc3, ?_, ?_⟩
      · rw [patchV_dict_dict]
        rw [show ((dchanged rec y x ++
            y.filter (fun kv => (lookupS kv.1 x).isNone)) ++
            [(Scalar.sym Sym.delete, Val.list ((x.filter
              (fun kv => (lookupS kv.1 y).isNone)).map
                (fun kv => Val.scalar kv.1)))]).isEmpty = false from
          isEmpty_append_singleton _ _]
        simp only [Bool.false_eq_true, if_false]
        have hrepl : lookupS (.sym .replace) ((dchanged rec y x ++
            y.filter (fun kv => (lookupS kv.1 x).isNone)) ++
            [(Scalar.sym Sym.delete, Val.list ((x.filter
              (fun kv => (lookupS kv.1 y).isNone)).map
                (fun kv => Val.scalar kv.1)))]) = none := by
          rw [lookupS_eq_none]
          intro kv hkv
          rcases List.mem_append.1 hkv with h1 | h1
          · intro he
            have := hnosymD0 kv h1
            rw [he] at this
            simp [Scalar.isSym] at this
          · obtain rfl := List.mem_singleton.1 h1
            intro he
            exact Sym.noConfusion (Scalar.sym.inj he)
        rw [hrepl]
        rw [patchDictGo_split, patchDictGo_split, hgo1]
        simp only [Option.some_bind]
        rw [hgo2]
        simp only [Option.some_bind]
        rw [patchDictGo]
        rw [if_pos rfl]
        rw [show pyIter (Val.list ((x.filter
            (fun kv => (lookupS kv.1 y).isNone)).map
              (fun kv => Val.scalar kv.1))) = some ((x.filter
            (fun kv => (lookupS kv.1 y).isNone)).map
              (fun kv => Val.scalar kv.1)) from rfl]
        simp only
        rw [hgo3]
        simp only
        rw [patchDictGo]
        rfl
      · refine dict_rtl_final hb hndx hwdx hndy hwdy hpatch hs1e hpres1 hlooks1
          hnd3 hpres3 hrem3 ?_
        rw [List.length_append] at hlen3
        omega


theorem discardAll_filter : ∀ (rs xs : List Scalar),
    discardAll xs (rs.map Val.scalar) =
      some (xs.filter (fun e => !(rs.contains e))) := by
  intro rs
  induction rs with
  | nil =>
    intro xs
    rw [List.map_nil, discardAll]
    congr 1
    conv_lhs => rw [← List.filter_true xs]
    apply List.filter_congr
    intro x _
    simp
  | cons r rest ih =>
    intro xs
    rw [List.map_cons, discardAll]
    rw [ih]
    congr 1
    rw [List.filter_filter]
    apply List.filter_congr
    intro x _
    by_cases h : r = x
    · subst h
      simp
    · simp [List.contains_cons, h, Ne.symm h, Bool.and_comm]

theorem addAll_fresh : ∀ (as xs : List Scalar), as.Nodup →
    (∀ x ∈ as, ¬ x ∈ xs) →
    addAll xs (as.map Val.scalar) = some (xs ++ as) := by
  intro as
  induction as with
  | nil =>
    intro xs _ _
    rw [List.map_nil, addAll, List.append_nil]
  | cons s rest ih =>
    intro xs hnd hfresh
    rw [List.map_cons, addAll]
    have hc : xs.contains s = false := by
      simp only [Bool.eq_false_iff]
      intro hc
      exact hfresh s (List.mem_cons_self _ _) (by simpa using hc)
    rw [hc]
    simp only [Bool.false_eq_true, if_false]
    rw [ih (xs ++ [s]) (List.nodup_cons.1 hnd).2 (fun x hx hmem => by
      rcases List.mem_append.1 hmem with h1 | h1
      · exact hfresh x (List.mem_cons_of_mem _ hx) h1
      · exact (List.nodup_cons.1 hnd).1 (List.mem_singleton.1 h1 ▸ hx))]
    rw [List.append_assoc]
    rfl

theorem filter_not_partition (p : Scalar → Bool) (l : List Scalar) :
    (l.filter p).length + (l.filter (fun x => !(p x))).length = l.length := by
  induction l with
  | nil => rfl
  | cons x rest ih =>
    cases hp : p x with
    | true =>
      rw [List.filter_cons_of_pos (by simp [hp]), List.filter_cons_of_neg (by simp [hp])]
      simp only [List.length_cons]
      omega
    | false =>
      rw [List.filter_cons_of_neg (by simp [hp]), List.filter_cons_of_pos (by simp [hp])]
      simp only [List.length_cons]
      omega

theorem filter_contains_length_symm {a b : List Scalar} (hna : a.Nodup)
    (hnb : b.Nodup) :
    (a.filter (fun x => b.contains x)).length =
      (b.filter (fun x => a.contains x)).length := by
  have hsub : ∀ (u v : List Scalar), ∀ x ∈ u.filter (fun x => v.contains x),
      x ∈ v.filter (fun x => u.contains x) := by
    intro u v x hx
    obtain ⟨hmem, hcon⟩ := List.mem_filter.1 hx
    refine List.mem_filter.2 ⟨by simpa using hcon, by simpa using hmem⟩
  have h1 := nodup_length_le (hna.filter _) (hsub a b)
  have h2 := nodup_length_le (hnb.filter _) (hsub b a)
  omega

/-- The set patch always reconstructs the target set, whatever the emitted
branch: an empty diff means the sets were equal; a replacement evaluates to the
target verbatim; and the discard and add entries remove exactly the extra
elements and append exactly the absent ones. -/
theorem setDiff_rtl (rec : Val → Val → Val × ℚ) {a b : List Scalar}
    (hwa : wfV (.set a) = true) (hwb : wfV (.set b) = true) :
    ∃ u, patchV (.set a) (setDiff rec a b).1 = some u ∧ beqV u (.set b) = true := by
  have hna : a.Nodup := nodupSc_iff.1 (wfV_set hwa).1
  have hnb : b.Nodup := nodupSc_iff.1 (wfV_set hwb).1
  rw [setDiff]
  by_cases hcond : ((a.filter (fun x => !(b.contains x))).isEmpty &&
      (b.filter (fun x => !(a.contains x))).isEmpty) = true
  · -- no removed and no added elements: the sets are mutually inclusive
    rw [if_pos hcond]
    rw [Bool.and_eq_true, List.isEmpty_iff, List.isEmpty_iff] at hcond
    have hxsub : ∀ x ∈ a, x ∈ b := by
      intro x hx
      by_contra hc
      have : x ∈ a.filter (fun x => !(b.contains x)) :=
        List.mem_filter.2 ⟨hx, by simp [hc]⟩
      rw [hcond.1] at this
      simp at this
    have hysub : ∀ y ∈ b, y ∈ a := by
      intro y hy
      by_contra hc
      have : y ∈ b.filter (fun x => !(a.contains x)) :=
        List.mem_filter.2 ⟨hy, by simp [hc]⟩
      rw [hcond.2] at this
      simp at this
    have hlen : a.length = b.length :=
      le_antisymm (nodup_length_le hna hxsub) (nodup_length_le hnb hysub)
    refine ⟨.set a, ?_, ?_⟩
    · rw [patchV_set_dict]
      rfl
    · simp only [beqV, Bool.and_eq_true, decide_eq_true_eq, List.all_eq_true]
      exact ⟨hlen, fun x hx => by simpa using hxsub x hx⟩
  · rw [if_neg hcond]
    simp only
    rw [emit_set_diff]
    by_cases hgate : setSim rec a b = 0 ∨
        (a.filter (fun x => !(b.contains x))).length = a.length
    · -- replacement branch: the delta is the target set itself
      rw [if_pos hgate]
      rw [show isDict (Val.set b) = false from rfl]
      simp only [Bool.false_eq_true, if_false]
      exact ⟨.set b, patchV_nondict _ _ rfl, beqV_refl _ hwb⟩
    · rw [if_neg hgate]
      simp only
      -- the reconstructed set: survivors of the discard phase plus the added
      have hcommon : a.filter (fun e =>
          !((a.filter (fun x => !(b.contains x))).contains e)) =
          a.filter (fun e => b.contains e) := by
        apply List.filter_congr
        intro x hx
        cases hbc : b.contains x with
        | true =>
          have hnotmem : ¬ x ∈ a.filter (fun x => !(b.contains x)) := by
            intro hc
            have := (List.mem_filter.1 hc).2
            rw [hbc] at this
            simp at this
          simp [hnotmem]
          right
          simpa using hbc
        | false =>
          have hmem : x ∈ a.filter (fun x => !(b.contains x)) :=
            List.mem_filter.2 ⟨hx, by simpa using hbc⟩
          simp [hbc]
          exact ⟨hx, by simpa using hbc⟩
      have haddfresh : ∀ x ∈ b.filter (fun x => !(a.contains x)),
          ¬ x ∈ a.filter (fun e => b.contains e) := by
        intro x hx hmem
        have h1 := (List.mem_filter.1 hx).2
        have h2 := (List.mem_filter.1 hmem).1
        simp only [Bool.not_eq_true'] at h1
        rw [Bool.eq_false_iff] at h1
        exact h1 (by simpa using h2)
      have hF : beqV (.set (a.filter (fun e => b.contains e) ++
          b.filter (fun x => !(a.contains x)))) (.set b) = true := by
        have hlenF : (a.filter (fun e => b.contains e)).length +
            (b.filter (fun x => !(a.contains x))).length = b.length := by
          rw [filter_contains_length_symm hna hnb]
          exact filter_not_partition _ b
        simp only [beqV, Bool.and_eq_true, decide_eq_true_eq, List.all_eq_true]
        constructor
        · rw [List.length_append]
          exact hlenF
        · intro x hx
          rcases List.mem_append.1 hx with h1 | h1
          · have := (List.mem_filter.1 h1).2
            simpa using this
          · have := (List.mem_filter.1 h1).1
            simpa using this
      by_cases hremE : (a.filter (fun x => !(b.contains x))).isEmpty = true
      · -- only additions
        rw [if_pos hremE]
        have haddE : (b.filter (fun x => !(a.contains x))).isEmpty = false := by
          rw [Bool.eq_false_iff]
          intro hc
          rw [hremE, hc] at hcond
          exact hcond rfl
        rw [haddE]
        simp only [Bool.false_eq_true, if_false]
        have hremnil : a.filter (fun x => !(b.contains x)) = [] :=
          List.isEmpty_iff.1 hremE
        have hcomnil : a.filter (fun e => b.contains e) = a := by
          apply List.filter_eq_self.2
          intro x hx
          by_contra hc
          have : x ∈ a.filter (fun x => !(b.contains x)) :=
            List.mem_filter.2 ⟨hx, by simpa using hc⟩
          rw [hremnil] at this
          simp at this
        refine ⟨.set (a ++ b.filter (fun x => !(a.contains x))), ?_, ?_⟩
        · rw [patchV_set_dict]
          rw [show (([] : List (Scalar × Val)) ++
              [(Scalar.sym Sym.add, Val.set (b.filter (fun x =>
                !(a.contains x))))]).isEmpty = false from rfl]
          simp only [Bool.false_eq_true, if_false, List.nil_append]
          rw [show lookupS (.sym .replace)
              [(Scalar.sym Sym.add, Val.set (b.filter (fun x => !(a.contains x))))] =
              none from rfl]
          try dsimp only
          rw [patchSet]
          rw [show lookupS (.sym .discard)
              [(Scalar.sym Sym.add, Val.set (b.filter (fun x => !(a.contains x))))] =
              none from rfl]
          try dsimp only
          rw [show lookupS (.sym .add)
              [(Scalar.sym Sym.add, Val.set (b.filter (fun x => !(a.contains x))))] =
              some (Val.set (b.filter (fun x => !(a.contains x)))) from rfl]
          try dsimp only
          rw [show pyIter (Val.set (b.filter (fun x => !(a.contains x)))) =
              some ((b.filter (fun x => !(a.contains x))).map Val.scalar) from rfl]
          simp only [Option.some_bind]
          rw [addAll_fresh _ _ (hnb.filter _) (fun x hx hmem => by
            have h1 := (List.mem_filter.1 hx).2
            simp only [Bool.not_eq_true'] at h1
            rw [Bool.eq_false_iff] at h1
            exact h1 (by simpa using hmem))]
          rfl
        · rw [hcomnil] at hF
          exact hF
      · rw [if_neg hremE]
        by_cases haddE : (b.filter (fun x => !(a.contains x))).isEmpty = true
        · -- only removals
          rw [if_pos haddE]
          have haddnil : b.filter (fun x => !(a.contains x)) = [] :=
            List.isEmpty_iff.1 haddE
          refine ⟨.set (a.filter (fun e => b.contains e)), ?_, ?_⟩
          · rw [patchV_set_dict]
            rw [show ([(Scalar.sym Sym.discard, Val.set (a.filter (fun x =>
                !(b.contains x))))] : List (Scalar × Val)).isEmpty = false from rfl]
            simp only [Bool.false_eq_true, if_false]
            rw [show lookupS (.sym .replace)
                [(Scalar.sym Sym.discard, Val.set (a.filter (fun x =>
                  !(b.contains x))))] = none from rfl]
            try dsimp only
            rw [patchSet]
            rw [show lookupS (.sym .discard)
                [(Scalar.sym Sym.discard, Val.set (a.filter (fun x =>
                  !(b.contains x))))] =
                some (Val.set (a.filter (fun x => !(b.contains x)))) from rfl]
            try dsimp only
            rw [show pyIter (Val.set (a.filter (fun x => !(b.contains x)))) =
                some ((a.filter (fun x => !(b.contains x))).map Val.scalar) from rfl]
            simp only [Option.some_bind]
            rw [discardAll_filter]
            simp only [Option.some_bind]
            try dsimp only
            rw [show lookupS (.sym .add)
                [(Scalar.sym Sym.discard, Val.set (a.filter (fun x =>
                  !(b.contains x))))] = none from rfl]
            try dsimp only
            rw [hcommon]
            rfl
          · rw [← List.append_nil (a.filter (fun e => b.contains e)), ← haddnil]
            exact hF
        · -- both removals and additions
          rw [if_neg haddE]
          refine ⟨.set (a.filter (fun e => b.contains e) ++
            b.filter (fun x => !(a.contains x))), ?_, hF⟩
          rw [patchV_set_dict]
          rw [show ([(Scalar.sym Sym.discard, Val.set (a.filter (fun x =>
              !(b.contains x))))] ++
              [(Scalar.sym Sym.add, Val.set (b.filter (fun x =>
                !(a.contains x))))]).isEmpty = false from rfl]
          simp only [Bool.false_eq_true, if_false]
          rw [show lookupS (.sym .replace)
              ([(Scalar.sym Sym.discard, Val.set (a.filter (fun x =>
                !(b.contains x))))] ++
               [(Scalar.sym Sym.add, Val.set (b.filter (fun x =>
                !(a.contains x))))]) = none from rfl]
          try dsimp only
          rw [patchSet]
          rw [show lookupS (.sym .discard)
              ([(Scalar.sym Sym.discard, Val.set (a.filter (fun x =>
                !(b.contains x))))] ++
               [(Scalar.sym Sym.add, Val.set (b.filter (fun x =>
                !(a.contains x))))]) =
              some (Val.set (a.filter (fun x => !(b.contains x)))) from rfl]
          try dsimp only
          rw [show pyIter (Val.set (a.filter (fun x => !(b.contains x)))) =
              some ((a.filter (fun x => !(b.contains x))).map Val.scalar) from rfl]
          simp only [Option.some_bind]
          rw [discardAll_filter]
          simp only [Option.some_bind]
          rw [show lookupS (.sym .add)
              ([(Scalar.sym Sym.discard, Val.set (a.filter (fun x =>
                !(b.contains x))))] ++
               [(Scalar.sym Sym.add, Val.set (b.filter (fun x =>
                !(a.contains x))))]) =
              some (Val.set (b.filter (fun x => !(a.contains x)))) from rfl]
          try dsimp only
          rw [show pyIter (Val.set (b.filter (fun x => !(a.contains x)))) =
              some ((b.filter (fun x => !(a.contains x))).map Val.scalar) from rfl]
          simp only [Option.some_bind]
          rw [hcommon]
          rw [addAll_fresh _ _ (hnb.filter _) haddfresh]
          rfl


theorem setKey_ne_nil (l : List (Scalar × Val)) (k : Scalar) (v : Val) :
    setKey l k v ≠ [] := by
  cases l with
  | nil => simp [setKey]
  | cons kv rest =>
    obtain ⟨k', v'⟩ := kv
    rw [setKey]
    split <;> simp

/-- A script that records no changed positions is made of insertions, deletions
and perfect matches, so its accumulated similarity is exactly the number of
diagonal steps. -/
theorem scr_chg_nil {rec : Val → Val → Val × ℚ} {X Y : List Val}
    (hb : ∀ v w, 0 ≤ (rec v w).2 ∧ (rec v w).2 ≤ 1) :
    ∀ {i j : Nat} {S : List Edit}, Scr rec X Y i j S →
    (listAgg S).2.2.1 = [] →
    ∃ nd : Nat, (listAgg S).1.length + nd = j ∧ (listAgg S).2.1.length + nd = i ∧
      (listAgg S).2.2.2 = (nd : ℚ) := by
  intro i j S h
  induction h with
  | nil =>
    intro _
    exact ⟨0, by simp [listAgg_nil], by simp [listAgg_nil], by simp [listAgg_nil]⟩
  | @diag i j S h hi hj ih =>
    intro hchg
    rw [listAgg_diag] at hchg ⊢
    simp only at hchg ⊢
    have hsv : ¬ (rec (X.getD i (.scalar .null)) (Y.getD j (.scalar .null))).2 < 1 := by
      intro hlt
      rw [if_pos hlt] at hchg
      exact setKey_ne_nil _ _ _ hchg
    rw [if_neg hsv] at hchg
    obtain ⟨nd, h1, h2, h3⟩ := ih hchg
    have hsv1 : (rec (X.getD i (.scalar .null)) (Y.getD j (.scalar .null))).2 = 1 := by
      rcases lt_or_eq_of_le (hb (X.getD i (.scalar .null)) (Y.getD j (.scalar .null))).2
        with h' | h'
      · exact absurd h' hsv
      · exact h'
    refine ⟨nd + 1, by omega, by omega, ?_⟩
    rw [h3, hsv1]
    push_cast
    ring
  | @ins i j S h hj ih =>
    intro hchg
    rw [listAgg_ins] at hchg ⊢
    simp only at hchg ⊢
    obtain ⟨nd, h1, h2, h3⟩ := ih hchg
    refine ⟨nd, ?_, h2, h3⟩
    simp only [List.length_append, List.length_cons, List.length_nil]
    omega
  | @del i j S h hi ih =>
    intro hchg
    rw [listAgg_del] at hchg ⊢
    simp only at hchg ⊢
    obtain ⟨nd, h1, h2, h3⟩ := ih hchg
    refine ⟨nd, h1, ?_, h3⟩
    simp only [List.length_cons]
    omega

theorem listDiff_fst (rec : Val → Val → Val × ℚ) (X Y : List Val) :
    (listDiff rec X Y).1 =
      emit_list_diff (.list X) (.list Y) (listDiff rec X Y).2
        (listAgg (listBack rec (lcsTable rec X Y) X Y
          (X.length + Y.length) X.length Y.length [])).1
        (listAgg (listBack rec (lcsTable rec X Y) X Y
          (X.length + Y.length) X.length Y.length [])).2.2.1
        (listAgg (listBack rec (lcsTable rec X Y) X Y
          (X.length + Y.length) X.length Y.length [])).2.1 := rfl

/-- A list delta whose similarity is not 1 patches the base into a Python-equal
of the target: deletions are popped (descending), insertions inserted
(ascending), and changed positions patched recursively. -/
theorem listDiff_rtl {rec : Val → Val → Val × ℚ} {X Y : List Val}
    (hb : ∀ v w, 0 ≤ (rec v w).2 ∧ (rec v w).2 ≤ 1)
    (hwx : wfV (.list X) = true) (hwy : wfV (.list Y) = true)
    (hpatch : ∀ v w, wfV v = true → wfV w = true → (rec v w).2 < 1 →
      ∃ u, patchV v (rec v w).1 = some u ∧ beqV u w = true)
    (hs1e : ∀ v w, wfV v = true → wfV w = true → (rec v w).2 = 1 →
      beqV v w = true)
    (hs1n : (listDiff rec X Y).2 ≠ 1) :
    ∃ u, patchV (.list X) (listDiff rec X Y).1 = some u ∧
      beqV u (.list Y) = true := by
  obtain ⟨S, hS, hscr⟩ := listBack_spec rec (lcsTable rec X Y) X Y
    (X.length + Y.length) X.length Y.length [] (le_refl _) (le_refl _) (le_refl _)
  rw [List.append_nil] at hS
  have hpatch' : ∀ i j : Nat, i < X.length → j < Y.length →
      (rec (X.getD i (.scalar .null)) (Y.getD j (.scalar .null))).2 < 1 →
      ∃ u, patchV (X.getD i (.scalar .null))
          (rec (X.getD i (.scalar .null)) (Y.getD j (.scalar .null))).1 = some u ∧
        beqV u (Y.getD j (.scalar .null)) = true := by
    intro i j hi hj hlt
    exact hpatch _ _ (wfL_mem (wfV_list hwx) (getD_mem_of_lt hi))
      (wfL_mem (wfV_list hwy) (getD_mem_of_lt hj)) hlt
  have hs1' : ∀ i j : Nat, i < X.length → j < Y.length →
      (rec (X.getD i (.scalar .null)) (Y.getD j (.scalar .null))).2 = 1 →
      beqV (X.getD i (.scalar .null)) (Y.getD j (.scalar .null)) = true := by
    intro i j hi hj h1
    exact hs1e _ _ (wfL_mem (wfV_list hwx) (getD_mem_of_lt hi))
      (wfL_mem (wfV_list hwy) (getD_mem_of_lt hj)) h1
  have hrefl' : ∀ y ∈ Y, beqV y y = true :=
    fun y hy => beqV_refl y (wfL_mem (wfV_list hwy) hy)
  obtain ⟨M, Z, W, hpop, hlenMins, hfits, hins, hZlen, hkeys, hchg, hbeq⟩ :=
    scr_rtl hb hpatch' hs1' hrefl' hscr
  rw [List.take_length] at hpop
  rw [List.take_length] at hbeq
  rw [listDiff_fst, hS]
  by_cases hs0 : (listDiff rec X Y).2 = 0
  · rw [emit_list_diff, if_pos hs0]
    rw [show isDict (Val.list Y) = false from rfl]
    simp only [Bool.false_eq_true, if_false]
    exact ⟨.list Y, patchV_nondict _ _ rfl, beqV_refl _ hwy⟩
  · rw [emit_list_diff, if_neg hs0, if_neg hs1n]
    simp only
    have hkeynum : ∀ kv ∈ (listAgg S).2.2.1, ∃ p : Nat, kv.1 = .num (p : Int) :=
      fun kv hkv => (hkeys kv hkv).imp (fun p hp => hp.1)
    have hnosym : ∀ s : Sym, lookupS (.sym s) (listAgg S).2.2.1 = none := by
      intro s
      rw [lookupS_eq_none]
      intro kv hkv he
      obtain ⟨p, hp⟩ := hkeynum kv hkv
      rw [hp] at he
      exact Scalar.noConfusion he
    have hmarkers : ∀ l : List (Scalar × Val),
        (∀ kv ∈ l, kv.1 = .sym .delete ∨ kv.1 = .sym .insert) →
        patchChanged Z ((listAgg S).2.2.1 ++ l) = (patchChanged Z (listAgg S).2.2.1).bind
          (fun z => some z) := by
      intro l hl
      rw [patchChanged_append]
      congr 1
      funext z
      rw [patchChanged_markers l z hl]
    by_cases hIE : (listAgg S).1.isEmpty = true
    · have hinsnil : (listAgg S).1 = [] := List.isEmpty_iff.1 hIE
      have hZM : Z = M := by
        rw [hinsnil, List.map_nil, show insAll M [] = some M from rfl] at hins
        exact (Option.some.injEq _ _ ▸ hins).symm
      rw [if_pos hIE]
      by_cases hDE : (listAgg S).2.1.isEmpty = true
      · -- neither insertions nor deletions: the delta is the changed mapping
        have hdelnil : (listAgg S).2.1 = [] := List.isEmpty_iff.1 hDE
        have hMX : M = X := by
          rw [hdelnil, List.map_nil, show popAll X [] = some X from rfl] at hpop
          exact (Option.some.injEq _ _ ▸ hpop).symm
        rw [if_pos hDE]
        have hchgne : (listAgg S).2.2.1 ≠ [] := by
          intro hc
          obtain ⟨nd, h1, h2, h3⟩ := scr_chg_nil hb hscr hc
          apply hs1n
          rw [listDiff_snd, hS]
          rw [hinsnil] at h1 ⊢
          rw [hdelnil] at h2
          simp only [List.length_nil, Nat.zero_add, Nat.add_zero] at h1 h2 ⊢
          by_cases h0 : X.length = 0
          · rw [if_pos (by omega)]
          · rw [if_neg (by omega)]
            rw [h3]
            rw [show X.length = nd from by omega]
            have hnd0 : nd ≠ 0 := by omega
            rw [div_self (by exact_mod_cast hnd0)]

        refine ⟨.list W, ?_, by simpa [beqV] using hbeq⟩
        rw [patchV_list_dict]
        rw [show ((listAgg S).2.2.1.isEmpty) = false from by
          rw [Bool.eq_false_iff]
          intro hc
          exact hchgne (List.isEmpty_iff.1 hc)]
        simp only [Bool.false_eq_true, if_false]
        rw [hnosym .replace]
        try dsimp only
        rw [patchList]
        rw [hnosym .delete]
        try dsimp only
        rw [hnosym .insert]
        try dsimp only
        rw [← hMX, ← hZM]
        simp only [Option.some_bind]
        rw [hchg]
        rfl
      · -- deletions only
        have hdelne := hDE
        rw [if_neg hDE]
        rw [setKey_of_lookup_none (hnosym .delete)]
        refine ⟨.list W, ?_, by simpa [beqV] using hbeq⟩
        rw [patchV_list_dict]
        rw [show (((listAgg S).2.2.1 ++ [(Scalar.sym Sym.delete,
            Val.list ((listAgg S).2.1.map (fun pv => vN pv.1)))]).isEmpty) = false from
          isEmpty_append_singleton _ _]
        simp only [Bool.false_eq_true, if_false]
        rw [show lookupS (.sym .replace) ((listAgg S).2.2.1 ++
            [(Scalar.sym Sym.delete, Val.list ((listAgg S).2.1.map
              (fun pv => vN pv.1)))]) = none from by
          rw [lookupS_append_none (hnosym .replace)]
          rfl]
        try dsimp only
        rw [patchList]
        rw [show lookupS (.sym .delete) ((listAgg S).2.2.1 ++
            [(Scalar.sym Sym.delete, Val.list ((listAgg S).2.1.map
              (fun pv => vN pv.1)))]) = some (Val.list ((listAgg S).2.1.map
              (fun pv => vN pv.1))) from by
          rw [lookupS_append_none (hnosym .delete)]
          rfl]
        try dsimp only
        rw [show pyIter (Val.list ((listAgg S).2.1.map (fun pv => vN pv.1))) =
            some ((listAgg S).2.1.map (fun pv => vN pv.1)) from rfl]
        simp only [Option.some_bind]
        rw [hpop]
        simp only [Option.some_bind]
        rw [show lookupS (.sym .insert) ((listAgg S).2.2.1 ++
            [(Scalar.sym Sym.delete, Val.list ((listAgg S).2.1.map
              (fun pv => vN pv.1)))]) = none from by
          rw [lookupS_append_none (hnosym .insert)]
          rfl]
        try dsimp only
        simp only [Option.some_bind]
        rw [← hZM]
        rw [hmarkers [(Scalar.sym Sym.delete, Val.list ((listAgg S).2.1.map
            (fun pv => vN pv.1)))] (by
          intro kv hkv
          obtain rfl := List.mem_singleton.1 hkv
          exact Or.inl rfl)]
        rw [hchg]
        rfl
    · rw [if_neg hIE]
      rw [setKey_of_lookup_none (hnosym .insert)]
      have hencmap : (listAgg S).1.map (fun pv => Val.list [vN pv.1, pv.2]) =
          (listAgg S).1.map encPair := rfl
      by_cases hDE : (listAgg S).2.1.isEmpty = true
      · -- insertions only
        have hdelnil : (listAgg S).2.1 = [] := List.isEmpty_iff.1 hDE
        have hMX : M = X := by
          rw [hdelnil, List.map_nil, show popAll X [] = some X from rfl] at hpop
          exact (Option.some.injEq _ _ ▸ hpop).symm
        rw [if_pos hDE]
        refine ⟨.list W, ?_, by simpa [beqV] using hbeq⟩
        rw [patchV_list_dict]
        rw [show (((listAgg S).2.2.1 ++ [(Scalar.sym Sym.insert,
            Val.list ((listAgg S).1.map (fun pv =>
              Val.list [vN pv.1, pv.2])))]).isEmpty) = false from
          isEmpty_append_singleton _ _]
        simp only [Bool.false_eq_true, if_false]
        rw [show lookupS (.sym .replace) ((listAgg S).2.2.1 ++
            [(Scalar.sym Sym.insert, Val.list ((listAgg S).1.map (fun pv =>
              Val.list [vN pv.1, pv.2])))]) = none from by
          rw [lookupS_append_none (hnosym .replace)]
          rfl]
        try dsimp only
        rw [patchList]
        rw [show lookupS (.sym .delete) ((listAgg S).2.2.1 ++
            [(Scalar.sym Sym.insert, Val.list ((listAgg S).1.map (fun pv =>
              Val.list [vN pv.1, pv.2])))]) = none from by
          rw [lookupS_append_none (hnosym .delete)]
          rfl]
        try dsimp only
        rw [show lookupS (.sym .insert) ((listAgg S).2.2.1 ++
            [(Scalar.sym Sym.insert, Val.list ((listAgg S).1.map (fun pv =>
              Val.list [vN pv.1, pv.2])))]) = some (Val.list ((listAgg S).1.map
              (fun pv => Val.list [vN pv.1, pv.2]))) from by
          rw [lookupS_append_none (hnosym .insert)]
          rfl]
        try dsimp only
        rw [show pyIter (Val.list ((listAgg S).1.map (fun pv =>
            Val.list [vN pv.1, pv.2]))) = some ((listAgg S).1.map (fun pv =>
            Val.list [vN pv.1, pv.2])) from rfl]
        simp only [Option.some_bind]
        rw [hencmap, ← hMX, hins]
        simp only [Option.some_bind]
        rw [hmarkers [(Scalar.sym Sym.insert, Val.list ((listAgg S).1.map encPair))] (by
          intro kv hkv
          obtain rfl := List.mem_singleton.1 hkv
          exact Or.inr rfl)]
        rw [hchg]
        rfl
      · -- both insertions and deletions
        rw [if_neg hDE]
        rw [setKey_of_lookup_none (show lookupS (.sym .delete)
            ((listAgg S).2.2.1 ++ [(Scalar.sym Sym.insert,
              Val.list ((listAgg S).1.map (fun pv =>
                Val.list [vN pv.1, pv.2])))]) = none from by
          rw [lookupS_append_none (hnosym .delete)]
          rfl)]
        refine ⟨.list W, ?_, by simpa [beqV] using hbeq⟩
        rw [patchV_list_dict]
        rw [show ((((listAgg S).2.2.1 ++ [(Scalar.sym Sym.insert,
            Val.list ((listAgg S).1.map (fun pv =>
              Val.list [vN pv.1, pv.2])))]) ++ [(Scalar.sym Sym.delete,
            Val.list ((listAgg S).2.1.map (fun pv => vN pv.1)))]).isEmpty) =
            false from isEmpty_append_singleton _ _]
        simp only [Bool.false_eq_true, if_false]
        rw [show lookupS (.sym .replace) (((listAgg S).2.2.1 ++
            [(Scalar.sym Sym.insert, Val.list ((listAgg S).1.map (fun pv =>
              Val.list [vN pv.1, pv.2])))]) ++ [(Scalar.sym Sym.delete,
            Val.list ((listAgg S).2.1.map (fun pv => vN pv.1)))]) = none from by
          rw [lookupS_append_none (show lookupS (.sym .replace) ((listAgg S).2.2.1 ++
            [(Scalar.sym Sym.insert, Val.list ((listAgg S).1.map (fun pv =>
              Val.list [vN pv.1, pv.2])))]) = none from by
            rw [lookupS_append_none (hnosym .replace)]
            rfl)]
          rfl]
        try dsimp only
        rw [patchList]
        rw [show lookupS (.sym .delete) (((listAgg S).2.2.1 ++
            [(Scalar.sym Sym.insert, Val.list ((listAgg S).1.map (fun pv =>
              Val.list [vN pv.1, pv.2])))]) ++ [(Scalar.sym Sym.delete,
            Val.list ((listAgg S).2.1.map (fun pv => vN pv.1)))]) =
            some (Val.list ((listAgg S).2.1.map (fun pv => vN pv.1))) from by
          rw [lookupS_append_none (show lookupS (.sym .delete) ((listAgg S).2.2.1 ++
            [(Scalar.sym Sym.insert, Val.list ((listAgg S).1.map (fun pv =>
              Val.list [vN pv.1, pv.2])))]) = none from by
            rw [lookupS_append_none (hnosym .delete)]
            rfl)]
          rfl]
        try dsimp only
        rw [show pyIter (Val.list ((listAgg S).2.1.map (fun pv => vN pv.1))) =
            some ((listAgg S).2.1.map (fun pv => vN pv.1)) from rfl]
        simp only [Option.some_bind]
        rw [hpop]
        simp only [Option.some_bind]
        rw [show lookupS (.sym .insert) (((listAgg S).2.2.1 ++
            [(Scalar.sym Sym.insert, Val.list ((listAgg S).1.map (fun pv =>
              Val.list [vN pv.1, pv.2])))]) ++ [(Scalar.sym Sym.delete,
            Val.list ((listAgg S).2.1.map (fun pv => vN pv.1)))]) =
            some (Val.list ((listAgg S).1.map (fun pv =>
              Val.list [vN pv.1, pv.2]))) from by
          apply lookupS_append_some
          rw [lookupS_append_none (hnosym .insert)]
          rfl]
        try dsimp only
        rw [show pyIter (Val.list ((listAgg S).1.map (fun pv =>
            Val.list [vN pv.1, pv.2]))) = some ((listAgg S).1.map (fun pv =>
            Val.list [vN pv.1, pv.2])) from rfl]
        simp only [Option.some_bind]
        rw [hencmap, hins]
        simp only [Option.some_bind]
        rw [List.append_assoc]
        rw [hmarkers ([(Scalar.sym Sym.insert, Val.list ((listAgg S).1.map encPair))] ++
            [(Scalar.sym Sym.delete,
            Val.list ((listAgg S).2.1.map (fun pv => vN pv.1)))]) (by
          intro kv hkv
          rcases List.mem_append.1 hkv with h1 | h1
          · obtain rfl := List.mem_singleton.1 h1
            exact Or.inr rfl
          · obtain rfl := List.mem_singleton.1 h1
            exact Or.inl rfl)]
        rw [hchg]
        rfl


theorem patchV_empty (a : Val) : patchV a (.dict []) = some a := by
  cases a with
  | scalar s => rw [patchV_scalar_dict]; rfl
  | list xs => rw [patchV_list_dict]; rfl
  | set xs => rw [patchV_set_dict]; rfl
  | dict kvs => rw [patchV_dict_dict]; rfl

theorem patchV_replace (a r : Val) (d : List (Scalar × Val))
    (hd : lookupS (.sym .replace) d = some r) (hne : d.isEmpty = false) :
    patchV a (.dict d) = some r := by
  cases a with
  | scalar s =>
    rw [patchV_scalar_dict, hne]
    simp only [Bool.false_eq_true, if_false]
    rw [hd]
  | list xs =>
    rw [patchV_list_dict, hne]
    simp only [Bool.false_eq_true, if_false]
    rw [hd]
  | set xs =>
    rw [patchV_set_dict, hne]
    simp only [Bool.false_eq_true, if_false]
    rw [hd]
  | dict kvs =>
    rw [patchV_dict_dict, hne]
    simp only [Bool.false_eq_true, if_false]
    rw [hd]

/-- Patching the value-level delta reconstructs the target: an empty delta
(similarity 1) leaves the Python-equal base, and otherwise the emitted
replacement evaluates to the target itself. -/
theorem emit_value_rtl (a b : Val) (hwb : wfV b = true) (s : ℚ)
    (h1 : s = 1 → beqV a b = true) :
    ∃ u, patchV a (emit_value_diff a b s) = some u ∧ beqV u b = true := by
  rw [emit_value_diff]
  by_cases hs : s = 1
  · rw [if_pos hs]
    exact ⟨a, patchV_empty a, h1 hs⟩
  · rw [if_neg hs]
    cases hb : isDict b with
    | true =>
      simp only [if_true]
      refine ⟨b, ?_, beqV_refl b hwb⟩
      exact patchV_replace a b [(.sym .replace, b)] rfl rfl
    | false =>
      simp only [Bool.false_eq_true, if_false]
      exact ⟨b, patchV_nondict a b hb, beqV_refl b hwb⟩

/-- The round trip of the differ: patching the base with the emitted delta
yields a value Python-equal to the target, for every fuel and all well-formed
values.  (When the fuel is exhausted the delta degenerates to a full
replacement, which also reconstructs the target.) -/
theorem objDiff_rtl : ∀ (fuel : Nat) (a b : Val), wfV a = true → wfV b = true →
    ∃ u, patchV a (objDiff fuel a b).1 = some u ∧ beqV u b = true := by
  intro fuel
  induction fuel with
  | zero =>
    intro a b hwa hwb
    exact emit_value_rtl a b hwb 0 (fun h => absurd h (by norm_num))
  | succ fuel ih =>
    intro a b hwa hwb
    have hdef : ∀ a' b' : Val, wfV b' = true →
        ∃ u, patchV a' ((if beqV a' b' then (emit_value_diff a' b' 1, (1:ℚ))
          else (emit_value_diff a' b' 0, 0)).1) = some u ∧ beqV u b' = true := by
      intro a' b' hwb'
      by_cases hbq : beqV a' b' = true
      · rw [if_pos hbq]
        exact emit_value_rtl a' b' hwb' 1 (fun _ => hbq)
      · rw [if_neg hbq]
        exact emit_value_rtl a' b' hwb' 0 (fun h => absurd h (by norm_num))
    cases a with
    | scalar sa =>
      cases b with
      | scalar sb => simp only [objDiff]; exact hdef _ _ hwb
      | list ys => simp only [objDiff]; exact hdef _ _ hwb
      | set ys => simp only [objDiff]; exact hdef _ _ hwb
      | dict ys => simp only [objDiff]; exact hdef _ _ hwb
    | list xs =>
      cases b with
      | scalar sb => simp only [objDiff]; exact hdef _ _ hwb
      | set ys => simp only [objDiff]; exact hdef _ _ hwb
      | dict ys => simp only [objDiff]; exact hdef _ _ hwb
      | list ys =>
        rw [objDiff_succ_list]
        by_cases hS1 : (listDiff (objDiff fuel) xs ys).2 = 1
        · have hbeq : beqV (.list xs) (.list ys) = true := by
            apply objDiff_s1_beq (fuel + 1) _ _ hwa hwb
            rw [objDiff_succ_list]
            exact hS1
          rw [listDiff_fst, emit_list_diff]
          rw [if_neg (by rw [hS1]; norm_num), if_pos hS1]
          exact ⟨.list xs, patchV_empty _, hbeq⟩
        · exact listDiff_rtl (objDiff_bounds fuel) hwa hwb
            (fun v w hv hw _ => ih v w hv hw) (objDiff_s1_beq fuel) hS1
    | set xs =>
      cases b with
      | scalar sb => simp only [objDiff]; exact hdef _ _ hwb
      | list ys => simp only [objDiff]; exact hdef _ _ hwb
      | dict ys => simp only [objDiff]; exact hdef _ _ hwb
      | set ys =>
        rw [objDiff_succ_set]
        exact setDiff_rtl (objDiff fuel) hwa hwb
    | dict xs =>
      cases b with
      | scalar sb => simp only [objDiff]; exact hdef _ _ hwb
      | list ys => simp only [objDiff]; exact hdef _ _ hwb
      | set ys => simp only [objDiff]; exact hdef _ _ hwb
      | dict ys =>
        obtain ⟨hndx, hwdx⟩ := wfV_dict hwa
        have hbv : ∀ kv ∈ ys, isSymVal kv.2 = false :=
          fun kv hkv => wfV_not_symVal (wfD_mem (wfV_dict hwb).2 hkv).2
        rw [objDiff_succ_dict, dictDiff_eq (objDiff fuel) xs ys hbv hndx]
        by_cases hS1 : dictSim (objDiff fuel) xs ys = 1
        · have hbeq : beqV (.dict xs) (.dict ys) = true := by
            apply objDiff_s1_beq (fuel + 1) _ _ hwa hwb
            rw [objDiff_succ_dict, dictDiff_eq (objDiff fuel) xs ys hbv hndx]
            exact hS1
          rw [emit_dict_diff]
          rw [if_neg (by rw [hS1]; norm_num), if_pos hS1]
          exact ⟨.dict xs, patchV_empty _, hbeq⟩
        · exact dictDiff_rtl (objDiff_bounds fuel) hwa hwb
            (fun v w hv hw _ => ih v w hv hw) (objDiff_s1_beq fuel) hS1


theorem data_append_str (a b : String) : (a ++ b).data = a.data ++ b.data := by
  cases a
  cases b
  rfl

theorem append_cancel_str (esc a b : String) : esc ++ a = esc ++ b ↔ a = b := by
  constructor
  · intro h
    have hd := congrArg String.data h
    rw [data_append_str, data_append_str] at hd
    have h2 := List.append_cancel_left hd
    cases a
    cases b
    exact congrArg String.mk h2
  · intro h
    rw [h]

theorem strStartsWith_append (esc x : String) : strStartsWith (esc ++ x) esc = true := by
  rw [strStartsWith, data_append_str]
  rw [List.isPrefixOf_iff_prefix]
  exact List.prefix_append _ _

theorem drop_one_append (esc x : String) (hlen : esc.length = 1) :
    (esc ++ x).drop 1 = x := by
  rw [String.drop_eq, data_append_str]
  have hdl : esc.data.length = 1 := hlen
  rw [show (1 : Nat) = esc.data.length from hdl.symm, List.drop_left]

theorem symFromStr_label (esc : String) (y : Sym) :
    symFromStr esc (esc ++ Sym.label y) = some y := by
  have hc : ∀ a b : String, (esc ++ a = esc ++ b) = (a = b) :=
    fun a b => propext (append_cancel_str esc a b)
  cases y <;>
    simp +decide [symFromStr, allSymbols, List.find?, Sym.label, hc]

theorem symFromStr_escaped_none (esc x : String)
    (hlab : ∀ y : Sym, strStartsWith (Sym.label y) esc = false)
    (hx : strStartsWith x esc = true) : symFromStr esc (esc ++ x) = none := by
  rw [symFromStr, List.find?_eq_none]
  intro y _
  intro hdec
  have he := of_decide_eq_true hdec
  have hxy : Sym.label y = x := (append_cancel_str esc _ _).1 he
  rw [← hxy] at hx
  rw [hlab y] at hx
  exact Bool.noConfusion hx

theorem symFromStr_plain_none (esc x : String)
    (hx : strStartsWith x esc = false) : symFromStr esc x = none := by
  rw [symFromStr, List.find?_eq_none]
  intro y _
  intro hdec
  have he := of_decide_eq_true hdec
  rw [← he, strStartsWith_append] at hx
  exact Bool.noConfusion hx

/-- One unescape inverts one escape on hashable values, provided the escape
token is a single character and no reserved label starts with it. -/
theorem unescS_escS (esc : String) (hlen : esc.length = 1)
    (hlab : ∀ y : Sym, strStartsWith (Sym.label y) esc = false) :
    ∀ s : Scalar, unescS esc (escS esc s) = s := by
  intro s
  cases s with
  | sym y =>
    show unescS esc (.str (esc ++ Sym.label y)) = .sym y
    rw [unescS, symFromStr_label]
  | str x =>
    cases hx : strStartsWith x esc with
    | true =>
      show unescS esc (if strStartsWith x esc then .str (esc ++ x) else .str x) = .str x
      rw [hx]
      simp only [if_true]
      rw [unescS, symFromStr_escaped_none esc x hlab hx, strStartsWith_append]
      simp only [if_true]
      rw [drop_one_append esc x hlen]
    | false =>
      show unescS esc (if strStartsWith x esc then .str (esc ++ x) else .str x) = .str x
      rw [hx]
      simp only [Bool.false_eq_true, if_false]
      rw [unescS, symFromStr_plain_none esc x hx, hx]
      simp only [Bool.false_eq_true, if_false]
  | num n => rfl
  | bool b => rfl
  | null => rfl

mutual
/-- `unmarshal` inverts `marshal` on every value, provided the escape token is
a single character and no reserved label starts with it. -/
theorem unmarshal_marshal (esc : String) (hlen : esc.length = 1)
    (hlab : ∀ y : Sym, strStartsWith (Sym.label y) esc = false) :
    ∀ v : Val, unmarshal esc (marshal esc v) = v
  | .scalar s => by
    show Val.scalar (unescS esc (escS esc s)) = Val.scalar s
    rw [unescS_escS esc hlen hlab s]
  | .set xs => rfl
  | .list xs => by
    show Val.list (unmarshalL esc (marshalL esc xs)) = Val.list xs
    rw [unmarshalL_marshalL esc hlen hlab xs]
  | .dict kvs => by
    show Val.dict (unmarshalD esc (marshalD esc kvs)) = Val.dict kvs
    rw [unmarshalD_marshalD esc hlen hlab kvs]

theorem unmarshalL_marshalL (esc : String) (hlen : esc.length = 1)
    (hlab : ∀ y : Sym, strStartsWith (Sym.label y) esc = false) :
    ∀ xs : List Val, unmarshalL esc (marshalL esc xs) = xs
  | [] => rfl
  | x :: xs => by
    rw [marshalL, unmarshalL, unmarshal_marshal esc hlen hlab x,
      unmarshalL_marshalL esc hlen hlab xs]

theorem unmarshalD_marshalD (esc : String) (hlen : esc.length = 1)
    (hlab : ∀ y : Sym, strStartsWith (Sym.label y) esc = false) :
    ∀ kvs : List (Scalar × Val), unmarshalD esc (marshalD esc kvs) = kvs
  | [] => rfl
  | (k, v) :: rest => by
    rw [marshalD, unmarshalD, unescS_escS esc hlen hlab k,
      unmarshal_marshal esc hlen hlab v, unmarshalD_marshalD esc hlen hlab rest]
end


/-- The set similarity exactly as the spec words it: the count `n_common` of
shared elements plus the greedily accumulated matched similarity
`s_common_greedy`, divided by `|A| + |added|` (1 on an empty denominator). -/
def setSim_spec (rec : Val → Val → Val × ℚ) (a b : List Scalar) : ℚ :=
  let removed := a.filter (fun x => !(b.contains x))
  let added := b.filter (fun x => !(a.contains x))
  let nCommon : ℚ := (a.length : ℚ) - removed.length
  let sGreedy := ((setRanking rec removed added).foldl greedyStep (removed, added, 0)).2.2
  let nTot := a.length + added.length
  if nTot ≠ 0 then (nCommon + sGreedy) / nTot else 1

/-- The map similarity exactly as the spec words it: every key present in both
maps contributes `0.5 + 0.5·s` of its nested similarity to the matched weight,
and the result is the matched weight over the number of removed plus matched
plus added keys (1 on an empty key union). -/
def dictSim_spec (rec : Val → Val → Val × ℚ) (a b : List (Scalar × Val)) : ℚ :=
  let matchedWeight := ((dmatched b a).map (fun p => 1/2 + (rec p.1.2 p.2).2 / 2)).sum
  let nTot := (a.filter (fun kv => (lookupS kv.1 b).isNone)).length +
    (dmatched b a).length + (b.filter (fun kv => (lookupS kv.1 a).isNone)).length
  if nTot ≠ 0 then matchedWeight / nTot else 1

theorem dictSim_eq_spec (rec : Val → Val → Val × ℚ) (a b : List (Scalar × Val)) :
    dictSim rec a b = dictSim_spec rec a b := rfl

/-- The greedy fold is affine in its similarity accumulator: which pairs commit
depends only on the unmatched pools, never on the running total. -/
theorem greedyFold_acc : ∀ (ranking : List (ℚ × Scalar × Scalar))
    (r a : List Scalar) (c : ℚ),
    ranking.foldl greedyStep (r, a, c) =
      ((ranking.foldl greedyStep (r, a, 0)).1,
       (ranking.foldl greedyStep (r, a, 0)).2.1,
       c + (ranking.foldl greedyStep (r, a, 0)).2.2) := by
  intro ranking
  induction ranking with
  | nil => intro r a c; simp
  | cons t rest ih =>
    intro r a c
    rw [List.foldl_cons, List.foldl_cons]
    rw [greedyStep, greedyStep]
    dsimp only
    by_cases hc : (r.contains t.2.1 && a.contains t.2.2) = true
    · rw [if_pos hc, if_pos hc]
      rw [ih _ _ (c + t.1), ih _ _ (0 + t.1)]
      simp only [Prod.mk.injEq, true_and]
      ring
    · rw [if_neg hc, if_neg hc]
      exact ih r a c

theorem setSim_eq_spec (rec : Val → Val → Val × ℚ) (a b : List Scalar) :
    setSim rec a b = setSim_spec rec a b := by
  rw [setSim, setSim_spec]
  rw [greedyFold_acc]

/-- `a.add(x)` over scalar elements never fails and the result contains exactly
the old elements and the added ones. -/
theorem addAll_scalars : ∀ (as xs : List Scalar), ∃ r,
    addAll xs (as.map Val.scalar) = some r ∧
    ∀ e : Scalar, e ∈ r ↔ e ∈ xs ∨ e ∈ as := by
  intro as
  induction as with
  | nil =>
    intro xs
    refine ⟨xs, rfl, fun e => ?_⟩
    simp
  | cons s rest ih =>
    intro xs
    obtain ⟨r, hr, hmem⟩ := ih (if xs.contains s then xs else xs ++ [s])
    refine ⟨r, ?_, ?_⟩
    · rw [List.map_cons, addAll]
      exact hr
    · intro e
      rw [hmem e]
      by_cases hcs : xs.contains s = true
      · rw [if_pos hcs]
        have hsmem : s ∈ xs := by simpa using hcs
        constructor
        · rintro (h1 | h1)
          · exact Or.inl h1
          · exact Or.inr (List.mem_cons_of_mem _ h1)
        · rintro (h1 | h1)
          · exact Or.inl h1
          · rcases List.mem_cons.1 h1 with h2 | h2
            · exact Or.inl (h2 ▸ hsmem)
            · exact Or.inr h2
      · rw [if_neg hcs]
        constructor
        · rintro (h1 | h1)
          · rcases List.mem_append.1 h1 with h2 | h2
            · exact Or.inl h2
            · exact Or.inr (List.mem_cons.2 (Or.inl (List.mem_singleton.1 h2)))
          · exact Or.inr (List.mem_cons_of_mem _ h1)
        · rintro (h1 | h1)
          · exact Or.inl (List.mem_append.2 (Or.inl h1))
          · rcases List.mem_cons.1 h1 with h2 | h2
            · exact Or.inl (List.mem_append.2 (Or.inr (List.mem_singleton.2 h2)))
            · exact Or.inr h2


theorem setDiff_snd_spec (rec : Val → Val → Val × ℚ) (a b : List Scalar) :
    (setDiff rec a b).2 = setSim_spec rec a b := by
  rw [setDiff]
  by_cases hcond : ((a.filter (fun x => !(b.contains x))).isEmpty &&
      (b.filter (fun x => !(a.contains x))).isEmpty) = true
  · rw [if_pos hcond]
    rw [Bool.and_eq_true, List.isEmpty_iff, List.isEmpty_iff] at hcond
    rw [setSim_spec]
    simp only [hcond.1, hcond.2, List.length_nil]
    rw [show setRanking rec [] [] = [] from by
      rw [setRanking]
      simp]
    simp only [List.foldl_nil, Nat.add_zero]
    by_cases h0 : a.length = 0
    · rw [if_neg (by omega)]
    · rw [if_pos (by omega)]
      have hq : ((a.length : ℕ) : ℚ) ≠ 0 := by exact_mod_cast h0
      rw [Nat.cast_zero, sub_zero, add_zero, div_self hq]
  · rw [if_neg hcond]
    exact setSim_eq_spec rec a b

/-- Along any valid edit script, the `changed` keys are target positions:
numeric, and strictly below the length of the consumed target prefix. -/
theorem scr_chg_keys {rec : Val → Val → Val × ℚ} {X Y : List Val} :
    ∀ {i j : Nat} {S : List Edit}, Scr rec X Y i j S →
    ∀ kv ∈ (listAgg S).2.2.1, ∃ p : Nat, kv.1 = .num (p : Int) ∧ p < j := by
  intro i j S h
  induction h with
  | nil =>
    intro kv hkv
    rw [listAgg_nil] at hkv
    simp at hkv
  | @diag i j S h hi hj ih =>
    intro kv hkv
    rw [listAgg_diag] at hkv
    simp only at hkv
    by_cases hs : (rec (X.getD i (.scalar .null)) (Y.getD j (.scalar .null))).2 < 1
    · rw [if_pos hs] at hkv
      have hlknone : lookupS (.num (j : Int)) (listAgg S).2.2.1 = none := by
        rw [lookupS_eq_none]
        intro kv' hkv'
        obtain ⟨p, hp1, hp2⟩ := ih kv' hkv'
        rw [hp1]
        intro hc
        have : (p : Int) = (j : Int) := Scalar.num.inj hc
        omega
      rw [setKey_of_lookup_none hlknone] at hkv
      rcases List.mem_append.1 hkv with h1 | h1
      · obtain ⟨p, hp1, hp2⟩ := ih kv h1
        exact ⟨p, hp1, by omega⟩
      · obtain rfl := List.mem_singleton.1 h1
        exact ⟨j, rfl, by omega⟩
    · rw [if_neg hs] at hkv
      obtain ⟨p, hp1, hp2⟩ := ih kv hkv
      exact ⟨p, hp1, by omega⟩
  | @ins i j S h hj ih =>
    intro kv hkv
    rw [listAgg_ins] at hkv
    simp only at hkv
    obtain ⟨p, hp1, hp2⟩ := ih kv hkv
    exact ⟨p, hp1, by omega⟩
  | @del i j S h hi ih =>
    intro kv hkv
    rw [listAgg_del] at hkv
    simp only at hkv
    exact ih kv hkv

/-- Along any valid edit script, the recorded deletions carry strictly
descending source positions (each below the consumed source prefix). -/
theorem scr_del_sorted {rec : Val → Val → Val × ℚ} {X Y : List Val} :
    ∀ {i j : Nat} {S : List Edit}, Scr rec X Y i j S →
    ((listAgg S).2.1.map Prod.fst).Sorted (· > ·) ∧
    ∀ pv ∈ (listAgg S).2.1, pv.1 < i := by
  intro i j S h
  induction h with
  | nil =>
    rw [listAgg_nil]
    exact ⟨List.sorted_nil, fun pv hpv => by simp at hpv⟩
  | @diag i j S h hi hj ih =>
    rw [listAgg_diag]
    simp only
    exact ⟨ih.1, fun pv hpv => by
      have := ih.2 pv hpv
      omega⟩
  | @ins i j S h hj ih =>
    rw [listAgg_ins]
    simp only
    exact ih
  | @del i j S h hi ih =>
    rw [listAgg_del]
    simp only
    constructor
    · rw [List.map_cons, List.sorted_cons]
      exact ⟨fun q hq => by
        obtain ⟨pv, hpv, rfl⟩ := List.mem_map.1 hq
        exact ih.2 pv hpv, ih.1⟩
    · intro pv hpv
      rcases List.mem_cons.1 hpv with h1 | h1
      · rw [h1]
        omega
      · have := ih.2 pv h1
        omega

/-- The non-trivial sequence delta in normal form: the changed mapping, then
an optional insert entry, then an optional delete entry. -/
theorem emit_list_diff_dict_cases (a b : Val) (s : ℚ) (ins : List (Nat × Val))
    (chg : List (Scalar × Val)) (del : List (Nat × Val))
    (hchgi : lookupS (.sym .insert) chg = none)
    (hchgd : lookupS (.sym .delete) chg = none)
    (hs0 : s ≠ 0) (hs1 : s ≠ 1) :
    emit_list_diff a b s ins chg del = .dict (chg
      ++ (if ins.isEmpty then [] else [(.sym .insert,
            .list (ins.map (fun pv => Val.list [vN pv.1, pv.2])))])
      ++ (if del.isEmpty then [] else [(.sym .delete,
            .list (del.map (fun pv => vN pv.1)))])) := by
  rw [emit_list_diff, if_neg hs0, if_neg hs1]
  simp only
  by_cases hIE : ins.isEmpty = true
  · rw [if_pos hIE, if_pos hIE]
    by_cases hDE : del.isEmpty = true
    · rw [if_pos hDE, if_pos hDE]
      simp
    · rw [if_neg hDE, if_neg hDE]
      rw [setKey_of_lookup_none hchgd]
      simp
  · rw [if_neg hIE, if_neg hIE]
    rw [setKey_of_lookup_none hchgi]
    by_cases hDE : del.isEmpty = true
    · rw [if_pos hDE, if_pos hDE]
      simp
    · rw [if_neg hDE, if_neg hDE]
      rw [setKey_of_lookup_none (show lookupS (.sym .delete)
          (chg ++ [(.sym .insert, .list (ins.map (fun pv =>
            Val.list [vN pv.1, pv.2])))]) = none from by
        rw [lookupS_append_none hchgd]
        rfl)]



/-! ## The claims -/

theorem chg_lookup_sym_none {rec : Val → Val → Val × ℚ} {X Y : List Val}
    {i j : Nat} {S : List Edit} (h : Scr rec X Y i j S) (y : Sym) :
    lookupS (.sym y) (listAgg S).2.2.1 = none := by
  rw [lookupS_eq_none]
  intro kv hkv
  obtain ⟨p, hp, -⟩ := scr_chg_keys h kv hkv
  rw [hp]
  intro hc
  exact Scalar.noConfusion hc

/-- A sequence delta that is a dict is either the empty delta or, for the
aggregate of some valid edit script, the changed mapping followed by an
optional insert entry and an optional delete entry. -/
theorem listDiff_dict_form (rec : Val → Val → Val × ℚ) (X Y : List Val)
    (D : List (Scalar × Val)) (hD : (listDiff rec X Y).1 = .dict D) :
    D = [] ∨ ∃ S, Scr rec X Y X.length Y.length S ∧
      D = (listAgg S).2.2.1
        ++ (if (listAgg S).1.isEmpty then [] else [(.sym .insert,
              .list ((listAgg S).1.map (fun pv => Val.list [vN pv.1, pv.2])))])
        ++ (if (listAgg S).2.1.isEmpty then [] else [(.sym .delete,
              .list ((listAgg S).2.1.map (fun pv => vN pv.1)))]) := by
  obtain ⟨S, hS, hscr⟩ := listBack_spec rec (lcsTable rec X Y) X Y
    (X.length + Y.length) X.length Y.length [] (le_refl _) (le_refl _) (le_refl _)
  rw [List.append_nil] at hS
  rw [listDiff_fst, hS] at hD
  by_cases hs0 : (listDiff rec X Y).2 = 0
  · rw [emit_list_diff, if_pos hs0] at hD
    simp only [isDict, Bool.false_eq_true, if_false] at hD
    exact absurd hD (fun hc => Val.noConfusion hc)
  · by_cases hs1 : (listDiff rec X Y).2 = 1
    · rw [emit_list_diff, if_neg hs0, if_pos hs1] at hD
      exact Or.inl (Val.dict.inj hD).symm
    · rw [emit_list_diff_dict_cases (.list X) (.list Y) ((listDiff rec X Y).2)
        (listAgg S).1 (listAgg S).2.2.1 (listAgg S).2.1
        (chg_lookup_sym_none hscr .insert) (chg_lookup_sym_none hscr .delete)
        hs0 hs1] at hD
      exact Or.inr ⟨S, hscr, (Val.dict.inj hD).symm⟩

/-- Claim C1 (confirmed): for every pair of well-formed values a and b built
from maps, sequences, sets and scalars (nested combinations included), patching
a with the delta produced by diffing a against b reconstructs a value
Python-equal to b — patch(a, diff(a,b)) == b — under the default compact syntax
with no load, dump or marshal options. -/
theorem claim_C1 (fuel : Nat) (a b : Val) (hwa : wfV a = true)
    (hwb : wfV b = true) :
    ∃ u, jpatch a (jdiff fuel a b) = some u ∧ beqV u b = true :=
  objDiff_rtl fuel a b hwa hwb

theorem claim_C1_witness :
    wfV (Val.dict [(.num 0, .list [vN 1, vN 2]), (.num 1, .set [.num 1])]) = true ∧
    wfV (Val.dict [(.num 0, .list [vN 2]), (.num 1, .set [.num 1, .num 2]),
      (.num 2, vN 5)]) = true ∧
    ∃ u, jpatch (Val.dict [(.num 0, .list [vN 1, vN 2]), (.num 1, .set [.num 1])])
        (jdiff 9 (Val.dict [(.num 0, .list [vN 1, vN 2]), (.num 1, .set [.num 1])])
          (Val.dict [(.num 0, .list [vN 2]), (.num 1, .set [.num 1, .num 2]),
            (.num 2, vN 5)])) = some u ∧
      beqV u (Val.dict [(.num 0, .list [vN 2]), (.num 1, .set [.num 1, .num 2]),
        (.num 2, vN 5)]) = true :=
  ⟨by decide, by decide, claim_C1 9 _ _ (by decide) (by decide)⟩

/-- Claim C2 (confirmed): diffing a well-formed value against a Python-equal
well-formed value — the same value or a distinct but equal one, such as a
re-ordered map — yields the empty-mapping delta and full similarity:
diff(a,b) == \x7b\x7d and similarity(a,b) == 1.  (The fuel bound only reflects
the embedding's recursion counter.) -/
theorem claim_C2 (fuel : Nat) (a b : Val) (hf : sizeOf a ≤ fuel)
    (hwa : wfV a = true) (hwb : wfV b = true) (hab : beqV a b = true) :
    jdiff fuel a b = .dict [] ∧ jsim fuel a b = 1 := by
  have h := objDiff_beq fuel a b hf hwa hwb hab
  constructor
  · show (objDiff fuel a b).1 = .dict []
    rw [h]
  · show (objDiff fuel a b).2 = 1
    rw [h]

theorem claim_C2_witness :
    sizeOf (Val.dict [(.num 0, vN 1), (.num 1, vN 2)]) ≤ 100 ∧
    beqV (Val.dict [(.num 0, vN 1), (.num 1, vN 2)])
      (Val.dict [(.num 1, vN 2), (.num 0, vN 1)]) = true ∧
    jdiff 100 (Val.dict [(.num 0, vN 1), (.num 1, vN 2)])
      (Val.dict [(.num 1, vN 2), (.num 0, vN 1)]) = .dict [] ∧
    jsim 100 (Val.dict [(.num 0, vN 1), (.num 1, vN 2)])
      (Val.dict [(.num 1, vN 2), (.num 0, vN 1)]) = 1 := by
  have h := claim_C2 100 (Val.dict [(.num 0, vN 1), (.num 1, vN 2)])
    (Val.dict [(.num 1, vN 2), (.num 0, vN 1)]) (by decide) (by decide)
    (by decide) (by decide)
  exact ⟨by decide, by decide, h.1, h.2⟩

/-- Claim C3 (code bug): the top-level unpatch never returns a reconstruction —
JsonDiffer.unpatch calls self.options.syntax.unpatch, an attribute the default
CompactJsonDiffSyntax does not define, so with the default compact syntax every
call raises AttributeError.  In the embedding the missing method makes junpatch
return none on all inputs. -/
theorem claim_C3 (b d : Val) : junpatch b d = none := rfl

/-- Claim C4 (confirmed): unmarshal inverts marshal on every value — in
particular on deltas containing reserved marker symbols as map keys or leaves
and arbitrary string payloads — whenever the escape token is a single character
that no reserved label starts with; the default token "$" satisfies both
conditions.  Marshal prefixes the token to each marker's name and doubles the
prefix of strings already starting with it, and unmarshal strips exactly one
leading token from non-marker escaped strings. -/
theorem claim_C4 (esc : String) (hlen : esc.length = 1)
    (hlab : ∀ y : Sym, strStartsWith (Sym.label y) esc = false) (d : Val) :
    unmarshal esc (marshal esc d) = d :=
  unmarshal_marshal esc hlen hlab d

theorem claim_C4_witness :
    ("$" : String).length = 1 ∧
    unmarshal "$" (marshal "$" (Val.dict [(.sym .delete, .list [vS "$x"]),
        (.str "$y", vN 1), (.str "y", vSym .insert)])) =
      Val.dict [(.sym .delete, .list [vS "$x"]), (.str "$y", vN 1),
        (.str "y", vSym .insert)] :=
  ⟨rfl, claim_C4 "$" rfl (fun y => by cases y <;> rfl) _⟩

/-- Claim C5 (corrected): in the emitted sequence delta, the key under which a
matched pair's nested delta appears is the position of the element in the
SECOND sequence Y (the target position j-1), not the source position i-1: every
key of a dict-shaped sequence delta is the insert marker, the delete marker, or
a number strictly below the length of Y. -/
theorem claim_C5 (rec : Val → Val → Val × ℚ) (X Y : List Val)
    (D : List (Scalar × Val)) (hD : (listDiff rec X Y).1 = .dict D) :
    ∀ kv ∈ D, kv.1 = .sym .insert ∨ kv.1 = .sym .delete ∨
      ∃ p : Nat, kv.1 = .num (p : Int) ∧ p < Y.length := by
  rcases listDiff_dict_form rec X Y D hD with h | ⟨S, hscr, hform⟩
  · subst h
    intro kv hkv
    simp at hkv
  · subst hform
    intro kv hkv
    rcases List.mem_append.1 hkv with h1 | h1
    · rcases List.mem_append.1 h1 with h2 | h2
      · exact Or.inr (Or.inr (scr_chg_keys hscr kv h2))
      · by_cases hie : (listAgg S).1.isEmpty = true
        · rw [if_pos hie] at h2
          simp at h2
        · rw [if_neg hie] at h2
          obtain rfl := List.mem_singleton.1 h2
          exact Or.inl rfl
    · by_cases hde : (listAgg S).2.1.isEmpty = true
      · rw [if_pos hde] at h1
        simp at h1
      · rw [if_neg hde] at h1
        obtain rfl := List.mem_singleton.1 h1
        exact Or.inr (Or.inl rfl)

theorem claim_C5_witness :
    jdiff 9 (.list [.dict [(.str "b", vN 2)]]) (.list [vN 0, .dict [(.str "b", vN 3)]]) =
      .dict [(.num 1, .dict [(.str "b", vN 3)]),
        (.sym .insert, .list [.list [vN 0, vN 0]])] ∧
    (∀ kv ∈ ([(Scalar.num 1, Val.dict [(.str "b", vN 3)]),
        (.sym .insert, .list [.list [vN 0, vN 0]])] : List (Scalar × Val)),
      kv.1 = .sym .insert ∨ kv.1 = .sym .delete ∨
        ∃ p : Nat, kv.1 = .num (p : Int) ∧
          p < [vN 0, Val.dict [(.str "b", vN 3)]].length) := by
  have hEval : jdiff 9 (.list [.dict [(.str "b", vN 2)]])
      (.list [vN 0, .dict [(.str "b", vN 3)]]) =
      .dict [(.num 1, .dict [(.str "b", vN 3)]),
        (.sym .insert, .list [.list [vN 0, vN 0]])] := by
    norm_num +decide [jdiff, objDiff, listDiff, lcsTable, lcsRows, lcsRowGo,
      listBack, listAgg, Cget, emit_list_diff, emit_value_diff, beqV, beqL, beqD,
      isDict, setKey, vN, vS, lookupS, dictDiff, dictDiffLoop, emit_dict_diff,
      isMissing, isSymVal, dictUpdate]
  exact ⟨hEval, claim_C5 (objDiff 8) _ _ _ hEval⟩

theorem claim_C5_cex :
    jdiff 9 (.list [.dict [(.str "b", vN 2)]]) (.list [vN 0, .dict [(.str "b", vN 3)]]) =
      .dict [(.num 1, .dict [(.str "b", vN 3)]),
        (.sym .insert, .list [.list [vN 0, vN 0]])] ∧
    lookupS (.num 0) [(Scalar.num 1, Val.dict [(.str "b", vN 3)]),
      (.sym .insert, .list [.list [vN 0, vN 0]])] = none ∧
    lookupS (.num 1) [(Scalar.num 1, Val.dict [(.str "b", vN 3)]),
      (.sym .insert, .list [.list [vN 0, vN 0]])] =
        some (.dict [(.str "b", vN 3)]) ∧
    List.length [Val.dict [(.str "b", vN 2)]] = 1 := by
  refine ⟨?_, rfl, rfl, rfl⟩
  norm_num +decide [jdiff, objDiff, listDiff, lcsTable, lcsRows, lcsRowGo,
    listBack, listAgg, Cget, emit_list_diff, emit_value_diff, beqV, beqL, beqD,
    isDict, setKey, vN, vS, lookupS, dictDiff, dictDiffLoop, emit_dict_diff,
    isMissing, isSymVal, dictUpdate]

/-- Claim C6 (corrected): the deleted component of a sequence delta lists the
removed source positions in strictly DESCENDING order (deletions are prepended
while the backtracked script advances from low to high positions), not
ascending as the spec claims. -/
theorem claim_C6 (rec : Val → Val → Val × ℚ) (X Y : List Val)
    (D : List (Scalar × Val)) (v : Val) (hD : (listDiff rec X Y).1 = .dict D)
    (hv : lookupS (.sym .delete) D = some v) :
    ∃ del : List (Nat × Val), v = .list (del.map (fun pv => vN pv.1)) ∧
      (del.map Prod.fst).Sorted (· > ·) := by
  rcases listDiff_dict_form rec X Y D hD with h | ⟨S, hscr, hform⟩
  · subst h
    exact absurd hv (fun hc => Option.noConfusion hc)
  · subst hform
    have hCA : lookupS (.sym .delete) ((listAgg S).2.2.1
        ++ (if (listAgg S).1.isEmpty then [] else [(.sym .insert,
              .list ((listAgg S).1.map (fun pv => Val.list [vN pv.1, pv.2])))])) =
        none := by
      rw [lookupS_append_none (chg_lookup_sym_none hscr .delete)]
      by_cases hie : (listAgg S).1.isEmpty = true
      · rw [if_pos hie]
        rfl
      · rw [if_neg hie]
        rw [lookupS, if_neg (by decide), lookupS]
    rw [lookupS_append_none hCA] at hv
    by_cases hde : (listAgg S).2.1.isEmpty = true
    · rw [if_pos hde] at hv
      exact absurd hv (fun hc => Option.noConfusion hc)
    · rw [if_neg hde] at hv
      rw [lookupS, if_pos rfl] at hv
      refine ⟨(listAgg S).2.1, (Option.some.inj hv).symm, (scr_del_sorted hscr).1⟩

theorem claim_C6_witness :
    jdiff 9 (.list [vN 1, vN 2, vN 3]) (.list [vN 2]) =
      .dict [(.sym .delete, .list [vN 2, vN 0])] ∧
    (∃ del : List (Nat × Val),
      Val.list [vN 2, vN 0] = .list (del.map (fun pv => vN pv.1)) ∧
      (del.map Prod.fst).Sorted (· > ·)) := by
  have hEval : jdiff 9 (.list [vN 1, vN 2, vN 3]) (.list [vN 2]) =
      .dict [(.sym .delete, .list [vN 2, vN 0])] := by
    norm_num +decide [jdiff, objDiff, listDiff, lcsTable, lcsRows, lcsRowGo,
      listBack, listAgg, Cget, emit_list_diff, emit_value_diff, beqV, beqL, beqD,
      isDict, setKey, vN, vS, lookupS]
  exact ⟨hEval, claim_C6 (objDiff 8) _ _ _ _ hEval rfl⟩

theorem claim_C6_cex :
    jdiff 9 (.list [vN 1, vN 2, vN 3]) (.list [vN 2]) =
      .dict [(.sym .delete, .list [vN 2, vN 0])] ∧
    ¬ ([2, 0] : List Nat).Sorted (· < ·) := by
  refine ⟨?_, by decide⟩
  norm_num +decide [jdiff, objDiff, listDiff, lcsTable, lcsRows, lcsRowGo,
    listBack, listAgg, Cget, emit_list_diff, emit_value_diff, beqV, beqL, beqD,
    isDict, setKey, vN, vS, lookupS]

/-- Claim C7 (confirmed): the set similarity of the non-trivial branch is
(n_common + s_common_greedy) / (|A| + |added|) with n_common = |A| − |removed|
and s_common_greedy the greedily accumulated matched similarity (1 on an empty
denominator); in particular diff of the set \x7b1,2,3\x7d against \x7b2,3,4\x7d
emits discard \x7b1\x7d and add \x7b4\x7d with similarity 1/2. -/
theorem claim_C7 :
    (∀ (rec : Val → Val → Val × ℚ) (a b : List Scalar),
        (setDiff rec a b).2 = setSim_spec rec a b) ∧
    jdiff 9 (.set [.num 1, .num 2, .num 3]) (.set [.num 2, .num 3, .num 4]) =
      .dict [(.sym .discard, .set [.num 1]), (.sym .add, .set [.num 4])] ∧
    jsim 9 (.set [.num 1, .num 2, .num 3]) (.set [.num 2, .num 3, .num 4]) = 1/2 := by
  refine ⟨setDiff_snd_spec, ?_, ?_⟩ <;>
    norm_num +decide [jdiff, jsim, objDiff, setDiff, setSim, setRanking,
      greedyStep, emit_set_diff, emit_value_diff, beqV, isDict, vN]

/-- Claim C8 (confirmed): every key present in both maps contributes
0.5 + 0.5·s of its nested similarity to the matched weight, and the map
similarity is the matched weight over the count of removed plus matched plus
added keys (1 on an empty key union); in particular diff of \x7b"a":1,"b":2\x7d
against \x7b"a":1,"b":3\x7d yields the delta \x7b"b": 3\x7d with similarity
3/4.  (The general identity is stated for symbol-free target values and
duplicate-free base keys, which every well-formed map satisfies.) -/
theorem claim_C8 :
    (∀ (rec : Val → Val → Val × ℚ) (a b : List (Scalar × Val)),
        (∀ kv ∈ b, isSymVal kv.2 = false) → nodupKeysB a = true →
        (dictDiff rec a b).2 = dictSim_spec rec a b) ∧
    jdiff 9 (.dict [(.str "a", vN 1), (.str "b", vN 2)])
      (.dict [(.str "a", vN 1), (.str "b", vN 3)]) = .dict [(.str "b", vN 3)] ∧
    jsim 9 (.dict [(.str "a", vN 1), (.str "b", vN 2)])
      (.dict [(.str "a", vN 1), (.str "b", vN 3)]) = 3/4 := by
  refine ⟨?_, ?_, ?_⟩
  · intro rec a b hbv hnd
    rw [dictDiff_eq rec a b hbv hnd]
    exact dictSim_eq_spec rec a b
  · norm_num +decide [jdiff, objDiff, dictDiff, dictDiffLoop, emit_dict_diff,
      emit_value_diff, isMissing, isSymVal, lookupS, beqV, isDict, dictUpdate,
      setKey, vN, vS]
  · norm_num +decide [jsim, objDiff, dictDiff, dictDiffLoop, emit_dict_diff,
      emit_value_diff, isMissing, isSymVal, lookupS, beqV, isDict, dictUpdate,
      setKey, vN, vS]

/-- Claim C9 (corrected): a map delete marker naming a key absent from the base
does fail with the missing-key error — in particular patching \x7b"x":1\x7d with
\x7b"<delete>": ["y"]\x7d fails — but a changed-key entry targeting an absent
key does NOT fail: the payload is assigned under the new key, so the patch
succeeds and extends the base map. -/
theorem claim_C9 :
    (∀ (base : List (Scalar × Val)) (k : Scalar), lookupS k base = none →
        jpatch (.dict base) (.dict [(.sym .delete, .list [.scalar k])]) = none) ∧
    (∀ (base : List (Scalar × Val)) (k : Scalar) (v : Val),
        lookupS k base = none → Scalar.isSym k = false →
        jpatch (.dict base) (.dict [(k, v)]) = some (.dict (base ++ [(k, v)]))) ∧
    jpatch (.dict [(.str "x", vN 1)]) (.dict [(.sym .delete, .list [vS "y"])]) =
      none := by
  refine ⟨?_, ?_, ?_⟩
  · intro base k hk
    have hrm : removeKey k base = none := removeKey_eq_none.2 hk
    rw [jpatch, patchV_dict_dict, if_neg (by simp)]
    show (patchDictGo base [(.sym .delete, .list [.scalar k])]).map Val.dict = none
    rw [patchDictGo, if_pos rfl]
    rw [show pyIter (.list [.scalar k]) = some [.scalar k] from rfl]
    try dsimp only
    rw [delKeys, hrm]
    try dsimp only
    rfl
  · intro base k v hk hsym
    have hkd : k ≠ .sym .delete := by
      intro hc
      rw [hc] at hsym
      exact absurd hsym (by decide)
    have hkr : ¬ (k = .sym .replace) := by
      intro hc
      rw [hc] at hsym
      exact absurd hsym (by decide)
    rw [jpatch, patchV_dict_dict, if_neg (by simp)]
    rw [show lookupS (.sym .replace) [(k, v)] = none from by
      rw [lookupS, if_neg hkr, lookupS]]
    try dsimp only
    rw [patchDictGo, if_neg hkd, hk]
    try dsimp only
    rw [patchDictGo, setKey_of_lookup_none hk]
    rfl
  · norm_num +decide [jpatch, patchV, patchDictGo, lookupS, pyIter, delKeys,
      removeKey, vS, vN]

theorem claim_C9_cex :
    jpatch (.dict [(.str "x", vN 1)]) (.dict [(.str "y", vN 5)]) =
      some (.dict [(.str "x", vN 1), (.str "y", vN 5)]) := by
  norm_num +decide [jpatch, patchV, patchDictGo, lookupS, setKey, vS, vN]

/-- Claim C10 (confirmed): patching a set base with a set-shaped delta never
fails — discard elements absent from the base are silently ignored — and the
result holds exactly the base elements not listed under discard plus every
element listed under add, in contrast to the map delete marker which fails on
absent keys. -/
theorem claim_C10 : ∀ (xs ds as : List Scalar), ∃ r : List Scalar,
    jpatch (.set xs) (.dict [(.sym .discard, .set ds), (.sym .add, .set as)]) =
      some (.set r) ∧
    ∀ e : Scalar, e ∈ r ↔ (e ∈ xs ∧ ¬ e ∈ ds) ∨ e ∈ as := by
  intro xs ds as
  obtain ⟨r, hr, hmem⟩ := addAll_scalars as (xs.filter (fun e => !(ds.contains e)))
  refine ⟨r, ?_, ?_⟩
  · rw [jpatch, patchV_set_dict, if_neg (by simp)]
    show patchSet xs [(.sym .discard, .set ds), (.sym .add, .set as)] = some (.set r)
    rw [show patchSet xs [(.sym .discard, .set ds), (.sym .add, .set as)] =
        (discardAll xs (ds.map Val.scalar)).bind (fun xs1 =>
          (addAll xs1 (as.map Val.scalar)).map Val.set) from rfl]
    rw [discardAll_filter]
    simp only [Option.some_bind]
    rw [hr]
    rfl
  · intro e
    rw [hmem e]
    simp [List.mem_filter]

end UJD
